import Mathlib

/-!
Verification development for the directory-mapper utility
(`src/directory_mapper_gui.py`).

The file shallowly embeds the three core components of the utility:

* the squarified-treemap layout engine (`_normalize_sizes`, `_worst_ratio`,
  `_layout_row`, `treemap_rects`), modelled over `ℚ` (Python floats are
  modelled as exact rationals; `float("inf")` is modelled by `Option ℚ`
  with `none` playing the role of infinity, and every division of the
  source is guarded exactly as in the source);
* the recursive aggregator (`scan_directory` / `walk_dir` / `record_file`),
  modelled over an inductive filesystem-snapshot type `FSTree` in which
  listing and stat failures are explicit (`Option String` exception
  markers), and the external glob-matching primitive is a parameter;
* the bucketizer (`_group_sizes_for_treemap` with its helpers), modelled
  over the same snapshot type and the scan output.

Machine integers do not overflow in Python, so byte sizes and counts are
`Nat`; `int(st.st_size)` is a nonnegative byte count.  Python's
`dict` (insertion-ordered, unique keys) is modelled by insertion-ordered
association lists whose update function (`bump`) preserves the position of
an existing key, exactly like `d[k] = d.get(k, 0) + v`.  Python's stable
`sorted(..., reverse=True)` is modelled by a stable descending insertion
sort (stability makes the result unique, so any stable model is faithful).
-/

/-! ## Part I: data model of the layout engine -/

/-- An axis-aligned rectangle `(x, y, width, height)`, as produced by
`treemap_rects`. -/
structure Rect where
  x : ℚ
  y : ℚ
  w : ℚ
  h : ℚ
deriving DecidableEq, Repr

/-- Area of a rectangle. -/
def Rect.area (r : Rect) : ℚ := r.w * r.h

/-- Membership of a point in a (closed) rectangle. -/
def Rect.contains (r : Rect) (p : ℚ × ℚ) : Prop :=
  r.x ≤ p.1 ∧ p.1 ≤ r.x + r.w ∧ r.y ≤ p.2 ∧ p.2 ≤ r.y + r.h

/-- Two rectangles overlap in area when the interiors of both coordinate
projections intersect (a positive-area intersection). -/
def Rect.overlaps (a b : Rect) : Prop :=
  max a.x b.x < min (a.x + a.w) (b.x + b.w) ∧
  max a.y b.y < min (a.y + a.h) (b.y + b.h)

/-- `r` lies inside `R` (coordinate-interval containment). -/
def Rect.inside (r R : Rect) : Prop :=
  R.x ≤ r.x ∧ r.x + r.w ≤ R.x + R.w ∧ R.y ≤ r.y ∧ r.y + r.h ≤ R.y + R.h

/-! ## Part I: the layout engine (`_normalize_sizes`, `_worst_ratio`,
`_layout_row`, `treemap_rects`) -/

/-- Embeds `_normalize_sizes(sizes, width, height)`: scales the sizes so
they sum to `width * height`; a nonpositive total yields all zeros. -/
def normalize_sizes (sizes : List ℚ) (width height : ℚ) : List ℚ :=
  let total := sizes.sum
  if total ≤ 0 then sizes.map (fun _ => 0)
  else
    let factor := (width * height) / total
    sizes.map (fun s => s * factor)

/-- Embeds `_worst_ratio(row, side)`.  The source returns `float("inf")`
for an empty row, a nonpositive side or a nonpositive minimum weight;
here `none` stands for that infinity and the divisions only happen under
the guards, exactly as in the source. -/
def worst_ratio (row : List ℚ) (side : ℚ) : Option ℚ :=
  match row with
  | [] => none
  | r :: rs =>
    if side ≤ 0 then none
    else
      let s := (r :: rs).sum
      let mx := rs.foldl max r
      let mn := rs.foldl min r
      if mn ≤ 0 then none
      else
        let side2 := side * side
        some (max ((side2 * mx) / (s * s)) ((s * s) / (side2 * mn)))

/-- The comparison `curr > prev` of the source on values that may be
`float("inf")`: `inf > inf` is false, `inf > finite` is true, and
`finite > inf` is false. -/
def ratioGT : Option ℚ → Option ℚ → Bool
  | none, none => false
  | none, some _ => true
  | some _, none => false
  | some a, some b => decide (b < a)

/-- The strip loop of `_layout_row` in the horizontal-slice branch:
rectangles of height `row_h` laid left to right starting at `cx`. -/
def stripsH (row : List ℚ) (cx y row_h : ℚ) : List Rect :=
  match row with
  | [] => []
  | r :: rs =>
    let rw := if 0 < row_h then r / row_h else 0
    ⟨cx, y, rw, row_h⟩ :: stripsH rs (cx + rw) y row_h

/-- The strip loop of `_layout_row` in the vertical-slice branch:
rectangles of width `row_w` laid top to bottom starting at `cy`. -/
def stripsV (row : List ℚ) (x cy row_w : ℚ) : List Rect :=
  match row with
  | [] => []
  | r :: rs =>
    let rh := if 0 < row_w then r / row_w else 0
    ⟨x, cy, row_w, rh⟩ :: stripsV rs x (cy + rh) row_w

/-- Embeds `_layout_row(row, x, y, w, h)`: lays the row out as one slice of
the remaining rectangle (horizontal when `w >= h`, else vertical) and
returns the produced rectangles together with the shrunk remaining
rectangle.  The source guards each division by a zero test, substituting
`0`; the guards are kept verbatim. -/
def layout_row (row : List ℚ) (x y w h : ℚ) :
    List Rect × ℚ × ℚ × ℚ × ℚ :=
  let s := row.sum
  if h ≤ w then
    let row_h := if 0 < w then s / w else 0
    (stripsH row x y row_h, x, y + row_h, w, h - row_h)
  else
    let row_w := if 0 < h then s / h else 0
    (stripsV row x y row_w, x + row_w, y, w - row_w, h)

/-- The `while remaining:` loop of `treemap_rects`.  The head of
`remaining` is appended to the current row; a row of length one is always
kept; otherwise the row is committed without the candidate exactly when
adding the candidate worsens the worst aspect ratio (side = shorter side
of the remaining rectangle). -/
def squarifyLoop : List ℚ → List ℚ → ℚ → ℚ → ℚ → ℚ → List Rect
  | [], row, x, y, w, h =>
    if row.isEmpty then [] else (layout_row row x y w h).1
  | c :: rest, row, x, y, w, h =>
    if row.isEmpty then squarifyLoop rest (row ++ [c]) x y w h
    else
      let side := min w h
      if ratioGT (worst_ratio (row ++ [c]) side) (worst_ratio row side) then
        let lr := layout_row row x y w h
        lr.1 ++ squarifyLoop rest [c] lr.2.1 lr.2.2.1 lr.2.2.2.1 lr.2.2.2.2
      else squarifyLoop rest (row ++ [c]) x y w h

/-- Embeds `treemap_rects(sizes, x, y, w, h)`: normalize, drop nonpositive
weights, then run the squarify loop starting from an empty current row. -/
def treemap_rects (sizes : List ℚ) (x y w h : ℚ) : List Rect :=
  let sizes_n := (normalize_sizes sizes w h).filter (fun s => decide (0 < s))
  squarifyLoop sizes_n [] x y w h

/-- The same loop as `squarifyLoop`, observing the committed rows instead
of the rectangles (used for the golden squarify scenario): each committed
row is recorded when `_layout_row` is called on it, and the final
accumulated row is recorded last. -/
def squarifyRows : List ℚ → List ℚ → ℚ → ℚ → ℚ → ℚ → List (List ℚ)
  | [], row, _, _, _, _ =>
    if row.isEmpty then [] else [row]
  | c :: rest, row, x, y, w, h =>
    if row.isEmpty then squarifyRows rest (row ++ [c]) x y w h
    else
      let side := min w h
      if ratioGT (worst_ratio (row ++ [c]) side) (worst_ratio row side) then
        let lr := layout_row row x y w h
        row :: squarifyRows rest [c] lr.2.1 lr.2.2.1 lr.2.2.2.1 lr.2.2.2.2
      else squarifyRows rest (row ++ [c]) x y w h

/-- The committed rows of `treemap_rects` on the given input (same
normalization and filtering, observing rows). -/
def treemap_committed_rows (sizes : List ℚ) (x y w h : ℚ) : List (List ℚ) :=
  let sizes_n := (normalize_sizes sizes w h).filter (fun s => decide (0 < s))
  squarifyRows sizes_n [] x y w h

/-! ## Part II: data model of the aggregator (`scan_directory`)

A filesystem snapshot is a finite tree.  A `file` node carries the byte
size and mtime that `entry.stat()` would report, plus `statExc`: `some e`
when the stat call raises an exception with text `e` (the file then
contributes nothing and a warning is recorded).  A `dir` node carries
`listExc`: `some e` when `os.scandir` on it raises.  `other` stands for
sockets, device files and the like (the source skips them).  A node whose
`isSymlink` is true models a symlink; when link-following is enabled the
node's own shape already describes the target, matching how
`entry.is_file(follow_symlinks=True)` sees it.  Cyclic symlinks are not
representable (the source accepts this hazard; trees model one traversal).
Wall-clock fields of the source's `ScanResult` (timestamps, elapsed
seconds) are real time and are not modelled. -/
inductive FSTree where
  | file (name : String) (size : Nat) (mtime : Int) (isSymlink : Bool)
      (statExc : Option String) : FSTree
  | dir (name : String) (isSymlink : Bool) (listExc : Option String)
      (children : List FSTree) : FSTree
  | other (name : String) : FSTree

/-- The entry's name (last path component). -/
def entryName : FSTree → String
  | .file n _ _ _ _ => n
  | .dir n _ _ _ => n
  | .other n => n

/-- The result of `entry.is_symlink()` (an `other` entry that is a symlink
is skipped by the source either way — at the symlink check or at the
final `else: continue` — so it is modelled as not a symlink). -/
def entryIsSymlink : FSTree → Bool
  | .file _ _ _ sym _ => sym
  | .dir _ sym _ _ => sym
  | .other _ => false

/-- Whether the node is a directory (`entry.is_dir` with the configured
link-following, given symlink-skipping already happened). -/
def isDirB : FSTree → Bool
  | .dir _ _ _ _ => true
  | _ => false

/-- Embeds `PurePath.suffix`'s rfind over the characters of a name:
index of the last `.`, if any. -/
def lastDotAux : List Char → Nat → Option Nat → Option Nat
  | [], _, best => best
  | ch :: cs, i, best => lastDotAux cs (i + 1) (if ch = '.' then some i else best)

/-- Embeds `path.suffix` (pathlib): the part of the name from its last
dot, unless the dot is the first or the last character. -/
def pathSuffix (name : String) : String :=
  let cs := name.toList
  match lastDotAux cs 0 none with
  | none => ""
  | some i => if 0 < i ∧ i + 1 < cs.length then String.mk (cs.drop i) else ""

/-- Embeds `path.suffix.lower() or "<no-ext>"` from `record_file`. -/
def extOf (name : String) : String :=
  let suf := String.mk ((pathSuffix name).toList.map Char.toLower)
  if suf = "" then "<no-ext>" else suf

/-- `_safe_rel_posix`: the path relative to the scan root as a
slash-separated string (paths are modelled as their segment lists). -/
def posixOf (rel : List String) : String :=
  String.intercalate "/" rel

/-- The display string of a path, used in warning messages (`str(child)`;
separators are modelled as slashes). -/
def pathStr (root : String) (rel : List String) : String :=
  String.intercalate "/" (root :: rel)

/-- `_is_probably_hidden`: the name starts with a dot. -/
def startsWithDot (name : String) : Bool :=
  match name.toList with
  | [] => false
  | c :: _ => c = '.'

/-- Embeds `ScanOptions`.  The source stores `ignore_globs` and tests them
with `_matches_any_glob` via `fnmatch`; the spec treats glob matching as
an external primitive, so the composite test `rel_posix matches some
ignore glob` is a function parameter here. -/
structure ScanOptions where
  follow_symlinks : Bool
  include_hidden : Bool
  matchesIgnoreGlob : String → Bool

/-- Embeds the `should_skip` closure of `scan_directory`. -/
def shouldSkip (opts : ScanOptions) (relPosix name : String) : Bool :=
  opts.matchesIgnoreGlob relPosix || (!opts.include_hidden && startsWithDot name)

/-- Embeds `FileSummary` (path, byte size, mtime). -/
structure FileSummary where
  path : String
  size_bytes : Nat
  mtime_unix : Int

/-- Embeds `DirSummary`; `path` is the segment list relative to the scan
root (the root itself is `[]`). -/
structure DirSummary where
  path : List String
  size_bytes : Nat
  file_count : Nat
  dir_count : Nat
  deriving DecidableEq

/-- The mutable accumulators of `scan_directory` (`ext_bytes`,
`ext_counts`, `largest`, `dir_summaries`, `errors`), threaded explicitly.
Python dicts are insertion-ordered association lists with unique keys. -/
structure ScanAcc where
  extBytes : List (String × Nat)
  extCounts : List (String × Nat)
  largest : List FileSummary
  dirSummaries : List (List String × DirSummary)
  errors : List String

/-- The accumulators at the start of a scan. -/
def emptyAcc : ScanAcc := ⟨[], [], [], [], []⟩

/-- `d[k] = d.get(k, 0) + v` on an insertion-ordered dict: an existing key
keeps its position, a new key is appended. -/
def bump : List (String × Nat) → String → Nat → List (String × Nat)
  | [], k, v => [(k, v)]
  | (k0, v0) :: rest, k, v =>
    if k0 = k then (k0, v0 + v) :: rest else (k0, v0) :: bump rest k v

/-- Embeds `record_file(path, size, mtime)`: updates both extension
histograms and appends to the `largest` list. -/
def record_file (path : String) (name : String) (size : Nat) (mtime : Int)
    (acc : ScanAcc) : ScanAcc :=
  let ext := extOf name
  { acc with
    extBytes := bump acc.extBytes ext size
    extCounts := bump acc.extCounts ext 1
    largest := acc.largest ++ [⟨path, size, mtime⟩] }

mutual
/-- The body of the `for entry in entries` loop of `walk_dir`, for one
entry of the directory at `rel`: the entry's contribution
`(size, file_count, dir_count)` to the enclosing directory's totals, and
the updated accumulators.  A skipped entry (ignore glob, hidden without
`include_hidden`, symlink without `follow_symlinks`) contributes nothing;
a stat failure or listing failure records a warning; a child directory is
walked recursively (post-order: its summary is recorded after its
entries), contributing its recursive totals and `1 + dir_count`
directories. -/
def walkEntry (opts : ScanOptions) (root : String) :
    List String → FSTree → ScanAcc → Nat × Nat × Nat × ScanAcc
  | rel, .file n size mtime sym statExc, acc =>
    if shouldSkip opts (posixOf (rel ++ [n])) n then (0, 0, 0, acc)
    else if sym && !opts.follow_symlinks then (0, 0, 0, acc)
    else
      match statExc with
      | some e =>
        (0, 0, 0, { acc with errors := acc.errors ++
            ["Failed to stat file " ++ pathStr root (rel ++ [n]) ++ ": " ++ e] })
      | none =>
        (size, 1, 0, record_file (pathStr root (rel ++ [n])) n size mtime acc)
  | rel, .dir n sym listExc cs, acc =>
    if shouldSkip opts (posixOf (rel ++ [n])) n then (0, 0, 0, acc)
    else if sym && !opts.follow_symlinks then (0, 0, 0, acc)
    else
      match listExc with
      | some e =>
        let summ : DirSummary := ⟨rel ++ [n], 0, 0, 0⟩
        (0, 0, 1, { acc with
          errors := acc.errors ++
            ["Failed to list " ++ pathStr root (rel ++ [n]) ++ ": " ++ e],
          dirSummaries := acc.dirSummaries ++ [(rel ++ [n], summ)] })
      | none =>
        let r := walkChildren opts root (rel ++ [n]) cs acc
        let summ : DirSummary := ⟨rel ++ [n], r.1, r.2.1, r.2.2.1⟩
        (summ.size_bytes, summ.file_count, 1 + summ.dir_count,
          { r.2.2.2 with
            dirSummaries := r.2.2.2.dirSummaries ++ [(rel ++ [n], summ)] })
  | _, .other _, acc => (0, 0, 0, acc)

/-- The entry loop of `walk_dir`: processes the entries in order,
threading the accumulators and summing the contributions; returns
`(size_total, file_count, dir_count, acc)`. -/
def walkChildren (opts : ScanOptions) (root : String) :
    List String → List FSTree → ScanAcc → Nat × Nat × Nat × ScanAcc
  | _, [], acc => (0, 0, 0, acc)
  | rel, t :: rest, acc =>
    let e := walkEntry opts root rel t acc
    let r := walkChildren opts root rel rest e.2.2.2
    (e.1 + r.1, e.2.1 + r.2.1, e.2.2.1 + r.2.2.1, r.2.2.2)
end

/-- Embeds `walk_dir(path)` at the directory `rel` (segments below the
root) whose listing outcome is `listExc` and whose entries are
`children`: on a listing failure the directory is recorded with zero
totals and a warning; otherwise the entries are processed in order and
the post-order summary is recorded. -/
def walkDir (opts : ScanOptions) (root : String) (rel : List String)
    (listExc : Option String) (children : List FSTree) (acc : ScanAcc) :
    DirSummary × ScanAcc :=
  match listExc with
  | some e =>
    let summ : DirSummary := ⟨rel, 0, 0, 0⟩
    (summ, { acc with
      errors := acc.errors ++
        ["Failed to list " ++ pathStr root rel ++ ": " ++ e],
      dirSummaries := acc.dirSummaries ++ [(rel, summ)] })
  | none =>
    let r := walkChildren opts root rel children acc
    let summ : DirSummary := ⟨rel, r.1, r.2.1, r.2.2.1⟩
    (summ, { r.2.2.2 with
      dirSummaries := r.2.2.2.dirSummaries ++ [(rel, summ)] })

/-- Stable insertion step for a descending sort: `a` (which originally
precedes everything in the list) is placed before the first element whose
key is at most `key a`. -/
def insertDescBy {α : Type} (key : α → Nat) (a : α) : List α → List α
  | [] => [a]
  | b :: bs => if key b ≤ key a then a :: b :: bs else b :: insertDescBy key a bs

/-- Stable descending sort by a `Nat` key.  Stable sorting is unique as a
function, so this models Python's stable `sorted(..., reverse=True)` and
`sort(key=..., reverse=True)` exactly. -/
def sortDescBy {α : Type} (key : α → Nat) : List α → List α
  | [] => []
  | a :: as => insertDescBy key a (sortDescBy key as)

/-- The errors `scan_directory` raises before any traversal. -/
inductive ScanError where
  | fileNotFound (path : String) : ScanError
  | notADirectory (path : String) : ScanError

/-- Embeds `ScanResult` (wall-clock fields omitted, see `FSTree`). -/
structure ScanResult where
  root : String
  total_size_bytes : Nat
  total_file_count : Nat
  total_dir_count : Nat
  extension_bytes : List (String × Nat)
  extension_counts : List (String × Nat)
  largest_files : List FileSummary
  dir_summaries : List (List String × DirSummary)
  errors : List String

/-- The successful body of `scan_directory` on a root directory whose
listing outcome is `listExc` and whose entries are `children`. -/
def scanDirRoot (root : String) (listExc : Option String)
    (children : List FSTree) (opts : ScanOptions) (largest_files : Int) :
    ScanResult :=
  let r := walkDir opts root [] listExc children emptyAcc
  { root := root
    total_size_bytes := r.1.size_bytes
    total_file_count := r.1.file_count
    total_dir_count := r.1.dir_count
    extension_bytes := sortDescBy (fun kv => kv.2) r.2.extBytes
    extension_counts := sortDescBy (fun kv => kv.2) r.2.extCounts
    largest_files :=
      (sortDescBy (fun f => f.size_bytes) r.2.largest).take
        (max 0 largest_files).toNat
    dir_summaries := r.2.dirSummaries
    errors := r.2.errors }

/-- Embeds `scan_directory(root, options, largest_files)`.  The snapshot
at the root path is `none` when the path does not exist, `some t`
otherwise; `root.is_dir()` (which follows links) holds exactly for `dir`
nodes.  The precondition checks happen before any traversal, and an
`error` result carries no scan output at all. -/
def scan_directory (root : String) (fs : Option FSTree) (opts : ScanOptions)
    (largest_files : Int) : Except ScanError ScanResult :=
  match fs with
  | none => .error (.fileNotFound root)
  | some (.dir _ _ listExc children) =>
    .ok (scanDirRoot root listExc children opts largest_files)
  | some (.file _ _ _ _ _) => .error (.notADirectory root)
  | some (.other _) => .error (.notADirectory root)

/-- The skip/symlink test applied to one entry of a directory at `rel`
(true when `walk_dir` neither glob/hidden-skips nor symlink-skips it). -/
def includedEntry (opts : ScanOptions) (rel : List String) (t : FSTree) : Bool :=
  !(shouldSkip opts (posixOf (rel ++ [entryName t])) (entryName t))
    && !(entryIsSymlink t && !opts.follow_symlinks)

mutual
/-- Modelled from the spec (conservation sentence of §8): the size a
single entry contributes to "the sum of all included files' sizes" —
files skipped as hidden, glob-excluded or symlinks, files whose stat
fails, and everything below an unlistable directory are not counted. -/
def includedEntrySize (opts : ScanOptions) : List String → FSTree → Nat
  | rel, .file n size _ sym statExc =>
    if shouldSkip opts (posixOf (rel ++ [n])) n then 0
    else if sym && !opts.follow_symlinks then 0
    else
      match statExc with
      | some _ => 0
      | none => size
  | rel, .dir n sym listExc cs =>
    if shouldSkip opts (posixOf (rel ++ [n])) n then 0
    else if sym && !opts.follow_symlinks then 0
    else
      match listExc with
      | some _ => 0
      | none => includedFilesSize opts (rel ++ [n]) cs
  | _, .other _ => 0

/-- Modelled from the spec: the sum of the sizes of all included files
below a directory with the given entries. -/
def includedFilesSize (opts : ScanOptions) : List String → List FSTree → Nat
  | _, [] => 0
  | rel, t :: rest =>
    includedEntrySize opts rel t + includedFilesSize opts rel rest
end

/-- Modelled from the spec: the sum of the sizes of a directory's direct
included files (stat failures excluded). -/
def directFilesSize (opts : ScanOptions) (rel : List String) :
    List FSTree → Nat
  | [] => 0
  | t :: rest =>
    (if includedEntry opts rel t then
      match t with
      | .file _ size _ _ none => size
      | _ => 0
    else 0) + directFilesSize opts rel rest

/-- The direct subdirectories of a directory that the walk descends into. -/
def includedSubdirs (opts : ScanOptions) (rel : List String)
    (ts : List FSTree) : List FSTree :=
  ts.filter (fun t => includedEntry opts rel t && isDirB t)

/-- The recursive total of one child directory as `walk_dir` computes it
(zero for non-directories). -/
def walkSizeOf (opts : ScanOptions) (root : String) (rel : List String) :
    FSTree → Nat
  | .dir n _ exc cs => (walkDir opts root (rel ++ [n]) exc cs emptyAcc).1.size_bytes
  | _ => 0

/-- Auxiliary definitions used by several claims. -/
def sumVals (l : List (String × Nat)) : Nat :=
  (l.map (fun kv => kv.2)).sum

/-! ## Part III: data model of the bucketizer (`_group_sizes_for_treemap`)

The source takes the scan root `Path` (re-listing it for root-level file
buckets) and the `ScanResult`; here the snapshot of the root directory is
passed as the same `FSTree` the scan ran on.  `dir_summaries` keys are
scan-root-relative segment lists; in the source they are absolute paths
and the function calls `relative_to(root)` on them, which on the walk's
own keys always succeeds (the root key itself is skipped). -/

/-- A labeled treemap weight (embeds `TreemapItem`). -/
structure TreemapItem where
  label : String
  size : Nat

/-- The `child_sum` computation: for a parent path `p`, the sum of the
recursive sizes of the summaries whose path is a non-root immediate child
of `p` (the source builds a parent-to-children map from the
`dir_summaries` dict keys and sums the children's sizes). -/
def childSumOf (summaries : List (List String × DirSummary)) (p : List String) :
    Nat :=
  ((summaries.filter (fun e => decide (e.1 ≠ []) && decide (e.1.dropLast = p))).map
    (fun e => e.2.size_bytes)).sum

/-- Embeds `add_bucket(label, size)`: nothing is added for a nonpositive
size, otherwise `grouped[label] += size`. -/
def addBucket (g : List (String × Nat)) (label : String) (size : Nat) :
    List (String × Nat) :=
  if size = 0 then g else bump g label size

/-- Step 1 of `_group_sizes_for_treemap`: each regular file directly in
the root (`root.iterdir()` then `child.is_file()`, which follows links,
so symlinked files count) gets a bucket under its own name; a stat
failure skips the file, and a root listing failure skips the step. -/
def rootFileBuckets (rootTree : FSTree) (g : List (String × Nat)) :
    List (String × Nat) :=
  match rootTree with
  | .dir _ _ none cs =>
    cs.foldl (fun g c =>
      match c with
      | .file nm sz _ _ none => addBucket g nm sz
      | _ => g) g
  | _ => g

/-- Step 2 of `_group_sizes_for_treemap`: one pass over `dir_summaries`.
The root entry is skipped; `direct` is the summary size minus the child
sum (clamped at zero — `Nat` subtraction, matching the source's
`if direct_files < 0: direct_files = 0`); depth `0` means unbounded
detail (a direct-files bucket per directory), otherwise directories
shallower than `depth` get a direct-files bucket, directories at exactly
`depth` get their full recursive size, and deeper directories add
nothing. -/
def dirBuckets (summaries : List (List String × DirSummary)) (depth : Nat)
    (g : List (String × Nat)) : List (String × Nat) :=
  summaries.foldl (fun g e =>
    if e.1 = [] then g
    else
      let direct := e.2.size_bytes - childSumOf summaries e.1
      if depth = 0 then addBucket g (posixOf e.1 ++ "/·files") direct
      else if e.1.length < depth then addBucket g (posixOf e.1 ++ "/·files") direct
      else if e.1.length = depth then addBucket g (posixOf e.1 ++ "/") e.2.size_bytes
      else g) g

/-- Embeds `_group_sizes_for_treemap(root, scan, depth)`: root-level file
buckets, then directory buckets, then the positive-size entries sorted by
size descending (stable). -/
def group_sizes_for_treemap (rootTree : FSTree) (scan : ScanResult)
    (depth : Nat) : List TreemapItem :=
  let g := dirBuckets scan.dir_summaries depth (rootFileBuckets rootTree [])
  let items := (g.filter (fun kv => decide (0 < kv.2))).map
    (fun kv => TreemapItem.mk kv.1 kv.2)
  sortDescBy (fun it => it.size) items

/-- The total size of a bucket list. -/
def sumSizes (items : List TreemapItem) : Nat :=
  (items.map (fun it => it.size)).sum

/-- A usable filesystem name: nonempty and without a path separator
(every name a real directory listing can return satisfies this). -/
def okName (n : String) : Bool :=
  !(n = "") && !(n.toList.contains '/')

/-- Sibling names are pairwise distinct. -/
def distinctB : List String → Bool
  | [] => true
  | s :: ss => !(ss.contains s) && distinctB ss

mutual
/-- Well-formedness of a snapshot node: at every directory the child
names are distinct usable filesystem names (true of every real directory
listing). -/
def wfTree : FSTree → Bool
  | .dir _ _ _ cs =>
    distinctB (cs.map entryName) && (cs.map entryName).all okName
      && wfForestList cs
  | _ => true

/-- Well-formedness of every member of a forest. -/
def wfForestList : List FSTree → Bool
  | [] => true
  | t :: ts => wfTree t && wfForestList ts
end

/-- Well-formedness of a directory's entry list (the root's children):
distinct usable names at this level and recursively below. -/
def wfForest (ts : List FSTree) : Bool :=
  distinctB (ts.map entryName) && (ts.map entryName).all okName
    && wfForestList ts

/-- The summaries the walk appends for a forest of entries at `rel`,
starting from empty accumulators. -/
def walkSumms (opts : ScanOptions) (root : String) (rel : List String)
    (ts : List FSTree) : List (List String × DirSummary) :=
  (walkChildren opts root rel ts emptyAcc).2.2.2.dirSummaries

/-- The summaries the walk appends for a single entry at `rel`. -/
def entrySumms (opts : ScanOptions) (root : String) (rel : List String)
    (t : FSTree) : List (List String × DirSummary) :=
  (walkEntry opts root rel t emptyAcc).2.2.2.dirSummaries

/-- The post-order summary the walk computes for a readable directory at
`p` with entries `cs`. -/
def walkTotalsSumm (opts : ScanOptions) (root : String) (p : List String)
    (cs : List FSTree) : DirSummary :=
  ⟨p, (walkChildren opts root p cs emptyAcc).1,
    (walkChildren opts root p cs emptyAcc).2.1,
    (walkChildren opts root p cs emptyAcc).2.2.1⟩

/-- The summary recorded for one included child directory. -/
def childSummOf (opts : ScanOptions) (root : String) (rel : List String) :
    FSTree → DirSummary
  | .dir n _ (some _) _ => ⟨rel ++ [n], 0, 0, 0⟩
  | .dir n _ none cs => walkTotalsSumm opts root (rel ++ [n]) cs
  | t => ⟨rel ++ [entryName t], 0, 0, 0⟩

/-- The summaries of `S` keyed at immediate children of `p` (the
summands of `childSumOf`). -/
def keyedEntries (S : List (List String × DirSummary)) (p : List String) :
    List DirSummary :=
  (S.filter (fun e => decide (e.1 ≠ []) && decide (e.1.dropLast = p))).map
    (fun e => e.2)

/-- The bucket size step 2 adds for one `dir_summaries` entry (zero when
no bucket is added). -/
def bucketContrib (S : List (List String × DirSummary)) (depth : Nat)
    (e : List String × DirSummary) : Nat :=
  if e.1 = [] then 0
  else if depth = 0 then e.2.size_bytes - childSumOf S e.1
  else if e.1.length < depth then e.2.size_bytes - childSumOf S e.1
  else if e.1.length = depth then e.2.size_bytes
  else 0

/-- The sum of the sizes step 1 adds (every regular-file child of the
root whose stat succeeds, links followed). -/
def rootFilesSum : List FSTree → Nat
  | [] => 0
  | .file _ sz _ _ none :: rest => sz + rootFilesSum rest
  | _ :: rest => rootFilesSum rest

/-- The hypothesis of the amended bucket-conservation claim: every
root-level regular file that step 1 of the bucketizer counts (stat
succeeds; links followed) is also included by the scan's skip rules.  A
hidden or glob-ignored root-level file, or a root-level symlink to a file
with link-following disabled, violates this and breaks conservation. -/
def rootFileOkP (opts : ScanOptions) (c : FSTree) : Prop :=
  match c with
  | .file _ _ _ _ none => includedEntry opts [] c = true
  | _ => True

/-- The four per-entry accumulator facts: the contribution triple is
independent of the incoming accumulators, and the entry appends exactly
its own summaries to `dirSummaries`. -/
def entryAccFacts (opts : ScanOptions) (root : String) (t : FSTree) : Prop :=
  ∀ (rel : List String) (acc : ScanAcc),
    (walkEntry opts root rel t acc).1 = (walkEntry opts root rel t emptyAcc).1
    ∧ (walkEntry opts root rel t acc).2.1
      = (walkEntry opts root rel t emptyAcc).2.1
    ∧ (walkEntry opts root rel t acc).2.2.1
      = (walkEntry opts root rel t emptyAcc).2.2.1
    ∧ (walkEntry opts root rel t acc).2.2.2.dirSummaries
      = acc.dirSummaries ++ entrySumms opts root rel t

/-- The four per-forest accumulator facts. -/
def forestAccFacts (opts : ScanOptions) (root : String) (ts : List FSTree) :
    Prop :=
  ∀ (rel : List String) (acc : ScanAcc),
    (walkChildren opts root rel ts acc).1
      = (walkChildren opts root rel ts emptyAcc).1
    ∧ (walkChildren opts root rel ts acc).2.1
      = (walkChildren opts root rel ts emptyAcc).2.1
    ∧ (walkChildren opts root rel ts acc).2.2.1
      = (walkChildren opts root rel ts emptyAcc).2.2.1
    ∧ (walkChildren opts root rel ts acc).2.2.2.dirSummaries
      = acc.dirSummaries ++ walkSumms opts root rel ts

/-! ## Part IV: labels and lookups of the grouped dict -/

/-- The characters a nonempty tail contributes to a slash-joined path:
a slash before each segment. -/
def charJoinTail : List String → List Char
  | [] => []
  | b :: r => '/' :: (b.data ++ charJoinTail r)

/-- First-match association lookup (`dict.get`). -/
def lookupV : List (String × Nat) → String → Option Nat
  | [], _ => none
  | (k, v) :: r, key => if k = key then some v else lookupV r key

/-- The label step 2 of `_group_sizes_for_treemap` files the entry's
bucket under, if the entry reaches an `add_bucket` call at all. -/
def entryLabel (depth : Nat) (e : List String × DirSummary) : Option String :=
  if e.1 = [] then none
  else if depth = 0 then some (posixOf e.1 ++ "/·files")
  else if e.1.length < depth then some (posixOf e.1 ++ "/·files")
  else if e.1.length = depth then some (posixOf e.1 ++ "/")
  else none

/-! ## Part I: lemmas about the strip layout -/

theorem stripsH_cons (r : ℚ) (rs : List ℚ) (cx y rh : ℚ) (hrh : 0 < rh) :
    stripsH (r :: rs) cx y rh =
      ⟨cx, y, r / rh, rh⟩ :: stripsH rs (cx + r / rh) y rh := by
  simp [stripsH, if_pos hrh]

theorem stripsV_cons (r : ℚ) (rs : List ℚ) (x cy rw : ℚ) (hrw : 0 < rw) :
    stripsV (r :: rs) x cy rw =
      ⟨x, cy, rw, r / rw⟩ :: stripsV rs x (cy + r / rw) rw := by
  simp [stripsV, if_pos hrw]

theorem stripsH_length (row : List ℚ) (cx y rh : ℚ) :
    (stripsH row cx y rh).length = row.length := by
  induction row generalizing cx with
  | nil => simp [stripsH]
  | cons r rs ih => simp [stripsH, ih]

theorem stripsV_length (row : List ℚ) (x cy rw : ℚ) :
    (stripsV row x cy rw).length = row.length := by
  induction row generalizing cy with
  | nil => simp [stripsV]
  | cons r rs ih => simp [stripsV, ih]

theorem stripsH_area_sum (row : List ℚ) (cx y rh : ℚ) (hrh : 0 < rh) :
    ((stripsH row cx y rh).map Rect.area).sum = row.sum := by
  induction row generalizing cx with
  | nil => simp [stripsH]
  | cons r rs ih =>
    simp only [stripsH, if_pos hrh, List.map_cons, List.sum_cons, ih, List.sum_cons]
    show r / rh * rh + rs.sum = r + rs.sum
    rw [div_mul_cancel₀ r (ne_of_gt hrh)]

theorem stripsV_area_sum (row : List ℚ) (x cy rw : ℚ) (hrw : 0 < rw) :
    ((stripsV row x cy rw).map Rect.area).sum = row.sum := by
  induction row generalizing cy with
  | nil => simp [stripsV]
  | cons r rs ih =>
    simp only [stripsV, if_pos hrw, List.map_cons, List.sum_cons, ih, List.sum_cons]
    show rw * (r / rw) + rs.sum = r + rs.sum
    rw [mul_div_cancel₀ r (ne_of_gt hrw)]

theorem stripsH_mem (row : List ℚ) (cx y rh : ℚ) (hrh : 0 < rh)
    (hpos : ∀ r ∈ row, 0 < r) :
    ∀ q ∈ stripsH row cx y rh,
      q.y = y ∧ q.h = rh ∧ cx ≤ q.x ∧ 0 < q.w ∧ q.x + q.w ≤ cx + row.sum / rh := by
  induction row generalizing cx with
  | nil => simp [stripsH]
  | cons r rs ih =>
    intro q hq
    have hr : 0 < r := hpos r (by simp)
    have hrs : ∀ a ∈ rs, 0 < a := fun a ha => hpos a (by simp [ha])
    have hssum : 0 ≤ rs.sum := List.sum_nonneg fun a ha => le_of_lt (hrs a ha)
    simp only [stripsH, if_pos hrh, List.mem_cons] at hq
    rcases hq with rfl | hq
    · refine ⟨rfl, rfl, le_refl _, div_pos hr hrh, ?_⟩
      show cx + r / rh ≤ cx + (r + rs.sum) / rh
      rw [add_div]
      have : 0 ≤ rs.sum / rh := div_nonneg hssum (le_of_lt hrh)
      linarith
    · obtain ⟨h1, h2, h3, h4, h5⟩ := ih (cx + r / rh) hrs q hq
      refine ⟨h1, h2, ?_, h4, ?_⟩
      · have : 0 ≤ r / rh := le_of_lt (div_pos hr hrh)
        linarith
      · show q.x + q.w ≤ cx + (r + rs.sum) / rh
        rw [add_div]
        linarith

theorem stripsV_mem (row : List ℚ) (x cy rw : ℚ) (hrw : 0 < rw)
    (hpos : ∀ r ∈ row, 0 < r) :
    ∀ q ∈ stripsV row x cy rw,
      q.x = x ∧ q.w = rw ∧ cy ≤ q.y ∧ 0 < q.h ∧ q.y + q.h ≤ cy + row.sum / rw := by
  induction row generalizing cy with
  | nil => simp [stripsV]
  | cons r rs ih =>
    intro q hq
    have hr : 0 < r := hpos r (by simp)
    have hrs : ∀ a ∈ rs, 0 < a := fun a ha => hpos a (by simp [ha])
    have hssum : 0 ≤ rs.sum := List.sum_nonneg fun a ha => le_of_lt (hrs a ha)
    simp only [stripsV, if_pos hrw, List.mem_cons] at hq
    rcases hq with rfl | hq
    · refine ⟨rfl, rfl, le_refl _, div_pos hr hrw, ?_⟩
      show cy + r / rw ≤ cy + (r + rs.sum) / rw
      rw [add_div]
      have : 0 ≤ rs.sum / rw := div_nonneg hssum (le_of_lt hrw)
      linarith
    · obtain ⟨h1, h2, h3, h4, h5⟩ := ih (cy + r / rw) hrs q hq
      refine ⟨h1, h2, ?_, h4, ?_⟩
      · have : 0 ≤ r / rw := le_of_lt (div_pos hr hrw)
        linarith
      · show q.y + q.h ≤ cy + (r + rs.sum) / rw
        rw [add_div]
        linarith

theorem rect_not_overlaps_of_x (a b : Rect) (hab : a.x + a.w ≤ b.x) :
    ¬ a.overlaps b := by
  rintro ⟨hx, -⟩
  exact absurd hx (not_lt.2 ((min_le_left _ _).trans (hab.trans (le_max_right _ _))))

theorem rect_not_overlaps_of_y (a b : Rect) (hab : a.y + a.h ≤ b.y) :
    ¬ a.overlaps b := by
  rintro ⟨-, hy⟩
  exact absurd hy (not_lt.2 ((min_le_left _ _).trans (hab.trans (le_max_right _ _))))

theorem stripsH_pairwiseX (row : List ℚ) (cx y rh : ℚ) (hrh : 0 < rh)
    (hpos : ∀ r ∈ row, 0 < r) :
    (stripsH row cx y rh).Pairwise (fun a b => a.x + a.w ≤ b.x) := by
  induction row generalizing cx with
  | nil => simp [stripsH]
  | cons r rs ih =>
    have hrs : ∀ a ∈ rs, 0 < a := fun a ha => hpos a (by simp [ha])
    simp only [stripsH, if_pos hrh]
    refine List.Pairwise.cons ?_ (ih _ hrs)
    intro q hq
    have := (stripsH_mem rs (cx + r / rh) y rh hrh hrs q hq).2.2.1
    simpa using this

theorem stripsV_pairwiseY (row : List ℚ) (x cy rw : ℚ) (hrw : 0 < rw)
    (hpos : ∀ r ∈ row, 0 < r) :
    (stripsV row x cy rw).Pairwise (fun a b => a.y + a.h ≤ b.y) := by
  induction row generalizing cy with
  | nil => simp [stripsV]
  | cons r rs ih =>
    have hrs : ∀ a ∈ rs, 0 < a := fun a ha => hpos a (by simp [ha])
    simp only [stripsV, if_pos hrw]
    refine List.Pairwise.cons ?_ (ih _ hrs)
    intro q hq
    have := (stripsV_mem rs x (cy + r / rw) rw hrw hrs q hq).2.2.1
    simpa using this

theorem stripsH_cover : ∀ (row : List ℚ) (cx y rh : ℚ), 0 < rh →
    (∀ r ∈ row, 0 < r) → row ≠ [] → ∀ p : ℚ × ℚ, cx ≤ p.1 →
    p.1 ≤ cx + row.sum / rh → y ≤ p.2 → p.2 ≤ y + rh →
    ∃ q ∈ stripsH row cx y rh, q.contains p := by
  intro row
  induction row with
  | nil => intro cx y rh _ _ hne; exact absurd rfl hne
  | cons r rs ih =>
    intro cx y rh hrh hpos _ p h1 h2 h3 h4
    have hrs : ∀ a ∈ rs, 0 < a := fun a ha => hpos a (by simp [ha])
    by_cases hc : p.1 ≤ cx + r / rh
    · refine ⟨⟨cx, y, r / rh, rh⟩, ?_, h1, hc, h3, h4⟩
      simp [stripsH, if_pos hrh]
    · cases rs with
      | nil =>
        exact absurd (by simpa using h2) hc
      | cons r2 rs2 =>
        have h2' : p.1 ≤ (cx + r / rh) + (r2 :: rs2).sum / rh := by
          have : (r + (r2 :: rs2).sum) / rh = r / rh + (r2 :: rs2).sum / rh := add_div _ _ _
          simp only [List.sum_cons] at h2 ⊢
          rw [add_div] at h2
          linarith [h2]
        obtain ⟨q, hqmem, hqc⟩ :=
          ih (cx + r / rh) y rh hrh hrs (by simp) p (le_of_lt (lt_of_not_le hc)) h2' h3 h4
        refine ⟨q, ?_, hqc⟩
        rw [stripsH_cons r _ cx y rh hrh]
        exact List.mem_cons_of_mem _ hqmem

theorem stripsV_cover : ∀ (row : List ℚ) (x cy rw : ℚ), 0 < rw →
    (∀ r ∈ row, 0 < r) → row ≠ [] → ∀ p : ℚ × ℚ, cy ≤ p.2 →
    p.2 ≤ cy + row.sum / rw → x ≤ p.1 → p.1 ≤ x + rw →
    ∃ q ∈ stripsV row x cy rw, q.contains p := by
  intro row
  induction row with
  | nil => intro x cy rw _ _ hne; exact absurd rfl hne
  | cons r rs ih =>
    intro x cy rw hrw hpos _ p h1 h2 h3 h4
    have hrs : ∀ a ∈ rs, 0 < a := fun a ha => hpos a (by simp [ha])
    by_cases hc : p.2 ≤ cy + r / rw
    · refine ⟨⟨x, cy, rw, r / rw⟩, ?_, h3, h4, h1, hc⟩
      simp [stripsV, if_pos hrw]
    · cases rs with
      | nil =>
        exact absurd (by simpa using h2) hc
      | cons r2 rs2 =>
        have h2' : p.2 ≤ (cy + r / rw) + (r2 :: rs2).sum / rw := by
          simp only [List.sum_cons] at h2 ⊢
          rw [add_div] at h2
          linarith [h2]
        obtain ⟨q, hqmem, hqc⟩ :=
          ih x (cy + r / rw) rw hrw hrs (by simp) p (le_of_lt (lt_of_not_le hc)) h2' h3 h4
        refine ⟨q, ?_, hqc⟩
        rw [stripsV_cons r _ x cy rw hrw]
        exact List.mem_cons_of_mem _ hqmem

theorem rect_split_y (x y w h rh : ℚ) (h0 : 0 ≤ rh) (h1 : rh ≤ h) (p : ℚ × ℚ) :
    Rect.contains ⟨x, y, w, h⟩ p ↔
      (Rect.contains ⟨x, y, w, rh⟩ p ∨ Rect.contains ⟨x, y + rh, w, h - rh⟩ p) := by
  simp only [Rect.contains]
  constructor
  · rintro ⟨a, b, c, d⟩
    by_cases hc : p.2 ≤ y + rh
    · exact Or.inl ⟨a, b, c, hc⟩
    · exact Or.inr ⟨a, b, le_of_lt (lt_of_not_le hc), by simpa using d⟩
  · rintro (⟨a, b, c, d⟩ | ⟨a, b, c, d⟩) <;>
      exact ⟨a, b, by linarith, by linarith⟩

theorem rect_split_x (x y w h rw : ℚ) (h0 : 0 ≤ rw) (h1 : rw ≤ w) (p : ℚ × ℚ) :
    Rect.contains ⟨x, y, w, h⟩ p ↔
      (Rect.contains ⟨x, y, rw, h⟩ p ∨ Rect.contains ⟨x + rw, y, w - rw, h⟩ p) := by
  simp only [Rect.contains]
  constructor
  · rintro ⟨a, b, c, d⟩
    by_cases hc : p.1 ≤ x + rw
    · exact Or.inl ⟨a, hc, c, d⟩
    · exact Or.inr ⟨le_of_lt (lt_of_not_le hc), by simpa using b, c, d⟩
  · rintro (⟨a, b, c, d⟩ | ⟨a, b, c, d⟩) <;>
      exact ⟨by linarith, by linarith, c, d⟩

/-! ## Part I: lemmas about `layout_row` and the squarify loop -/

theorem layout_row_of_le (row : List ℚ) (x y w h : ℚ) (hw : 0 < w)
    (hhw : h ≤ w) :
    layout_row row x y w h =
      (stripsH row x y (row.sum / w), x, y + row.sum / w, w, h - row.sum / w) := by
  simp [layout_row, if_pos hhw, if_pos hw]

theorem layout_row_of_gt (row : List ℚ) (x y w h : ℚ) (hh : 0 < h)
    (hhw : ¬ h ≤ w) :
    layout_row row x y w h =
      (stripsV row x y (row.sum / h), x + row.sum / h, y, w - row.sum / h, h) := by
  simp [layout_row, if_neg hhw, if_pos hh]

theorem layout_row_fst_length (row : List ℚ) (x y w h : ℚ) :
    (layout_row row x y w h).1.length = row.length := by
  unfold layout_row
  split
  · exact stripsH_length row x y _
  · exact stripsV_length row x y _

theorem squarifyLoop_nil_cons (r : ℚ) (row : List ℚ) (x y w h : ℚ) :
    squarifyLoop [] (r :: row) x y w h = (layout_row (r :: row) x y w h).1 := rfl

theorem squarifyLoop_cons_nil (c : ℚ) (rest : List ℚ) (x y w h : ℚ) :
    squarifyLoop (c :: rest) [] x y w h = squarifyLoop rest [c] x y w h := rfl

theorem squarifyLoop_commit (c : ℚ) (rest : List ℚ) (r : ℚ) (row : List ℚ)
    (x y w h : ℚ)
    (hgt : ratioGT (worst_ratio ((r :: row) ++ [c]) (min w h))
      (worst_ratio (r :: row) (min w h)) = true) :
    squarifyLoop (c :: rest) (r :: row) x y w h =
      (layout_row (r :: row) x y w h).1 ++
        squarifyLoop rest [c] (layout_row (r :: row) x y w h).2.1
          (layout_row (r :: row) x y w h).2.2.1
          (layout_row (r :: row) x y w h).2.2.2.1
          (layout_row (r :: row) x y w h).2.2.2.2 := by
  conv_lhs => rw [squarifyLoop]
  simp only [List.isEmpty_cons, Bool.false_eq_true, if_false, hgt, if_true]

theorem squarifyLoop_accept (c : ℚ) (rest : List ℚ) (r : ℚ) (row : List ℚ)
    (x y w h : ℚ)
    (hgt : ratioGT (worst_ratio ((r :: row) ++ [c]) (min w h))
      (worst_ratio (r :: row) (min w h)) = false) :
    squarifyLoop (c :: rest) (r :: row) x y w h =
      squarifyLoop rest ((r :: row) ++ [c]) x y w h := by
  conv_lhs => rw [squarifyLoop]
  simp only [List.isEmpty_cons, Bool.false_eq_true, if_false, hgt, if_true]

theorem squarifyLoop_length : ∀ (rem row : List ℚ) (x y w h : ℚ),
    (squarifyLoop rem row x y w h).length = rem.length + row.length := by
  intro rem
  induction rem with
  | nil =>
    intro row x y w h
    cases row with
    | nil => rfl
    | cons r rs =>
      rw [squarifyLoop_nil_cons, layout_row_fst_length]
      simp
  | cons c rest ih =>
    intro row x y w h
    cases row with
    | nil =>
      rw [squarifyLoop_cons_nil, ih]
      simp
    | cons r rs =>
      cases hgt : ratioGT (worst_ratio ((r :: rs) ++ [c]) (min w h))
          (worst_ratio (r :: rs) (min w h)) with
      | false =>
        rw [squarifyLoop_accept c rest r rs x y w h hgt, ih]
        simp
        omega
      | true =>
        rw [squarifyLoop_commit c rest r rs x y w h hgt]
        rw [List.length_append, layout_row_fst_length, ih]
        simp
        omega

theorem rect_inside_iff (q : Rect) (X Y W H : ℚ) :
    q.inside ⟨X, Y, W, H⟩ ↔
      (X ≤ q.x ∧ q.x + q.w ≤ X + W ∧ Y ≤ q.y ∧ q.y + q.h ≤ Y + H) := Iff.rfl

theorem rect_contains_iff (X Y W H : ℚ) (p : ℚ × ℚ) :
    Rect.contains ⟨X, Y, W, H⟩ p ↔
      (X ≤ p.1 ∧ p.1 ≤ X + W ∧ Y ≤ p.2 ∧ p.2 ≤ Y + H) := Iff.rfl

theorem squarifyLoop_spec : ∀ (rem row : List ℚ) (x y w h : ℚ),
    (∀ r ∈ row, 0 < r) → (∀ r ∈ rem, 0 < r) → 0 < w → 0 < h →
    row.sum + rem.sum = w * h →
    (((squarifyLoop rem row x y w h).map Rect.area).sum = w * h)
    ∧ (∀ q ∈ squarifyLoop rem row x y w h, q.inside ⟨x, y, w, h⟩)
    ∧ (squarifyLoop rem row x y w h).Pairwise (fun a b => ¬ a.overlaps b)
    ∧ (∀ p : ℚ × ℚ, Rect.contains ⟨x, y, w, h⟩ p ↔
        ∃ q ∈ squarifyLoop rem row x y w h, q.contains p) := by
  intro rem
  induction rem with
  | nil =>
    intro row x y w h hrow _ hw hh hsum
    simp only [List.sum_nil, add_zero] at hsum
    have hwh : 0 < w * h := mul_pos hw hh
    cases row with
    | nil =>
      rw [List.sum_nil] at hsum
      exact absurd hsum.symm (ne_of_gt hwh)
    | cons r rs =>
      have hne : (r :: rs) ≠ [] := by simp
      have hspos : 0 < (r :: rs).sum := List.sum_pos _ hrow hne
      rw [squarifyLoop_nil_cons]
      by_cases hhw : h ≤ w
      · rw [layout_row_of_le _ _ _ _ _ hw hhw]
        dsimp only
        set rh := (r :: rs).sum / w with hrhdef
        have hrh : 0 < rh := div_pos hspos hw
        have hrh_eq : rh = h := by
          rw [hrhdef, hsum, mul_comm, mul_div_assoc, div_self (ne_of_gt hw), mul_one]
        have hcov : (r :: rs).sum / rh = w := by
          rw [hrhdef, div_div_eq_mul_div, mul_comm, mul_div_assoc,
            div_self (ne_of_gt hspos), mul_one]
        have hmem := stripsH_mem (r :: rs) x y rh hrh hrow
        refine ⟨?_, ?_, ?_, ?_⟩
        · rw [stripsH_area_sum _ _ _ _ hrh, hsum]
        · intro q hq
          rw [rect_inside_iff]
          obtain ⟨h1, h2, h3, h4, h5⟩ := hmem q hq
          rw [hcov] at h5
          exact ⟨h3, h5, by linarith, by linarith⟩
        · exact (stripsH_pairwiseX _ _ _ _ hrh hrow).imp
            (fun hab => rect_not_overlaps_of_x _ _ hab)
        · intro p
          rw [rect_contains_iff]
          constructor
          · rintro ⟨h1, h2, h3, h4⟩
            exact stripsH_cover (r :: rs) x y rh hrh hrow hne p h1
              (by rw [hcov]; exact h2) h3 (by rw [hrh_eq]; exact h4)
          · rintro ⟨q, hq, c1, c2, c3, c4⟩
            obtain ⟨h1, h2, h3, h4, h5⟩ := hmem q hq
            rw [hcov] at h5
            exact ⟨by linarith, by linarith, by linarith, by linarith⟩
      · rw [layout_row_of_gt _ _ _ _ _ hh hhw]
        dsimp only
        set rw0 := (r :: rs).sum / h with hrwdef
        have hrw : 0 < rw0 := div_pos hspos hh
        have hrw_eq : rw0 = w := by
          rw [hrwdef, hsum, mul_div_assoc, div_self (ne_of_gt hh), mul_one]
        have hcov : (r :: rs).sum / rw0 = h := by
          rw [hrwdef, div_div_eq_mul_div, mul_comm, mul_div_assoc,
            div_self (ne_of_gt hspos), mul_one]
        have hmem := stripsV_mem (r :: rs) x y rw0 hrw hrow
        refine ⟨?_, ?_, ?_, ?_⟩
        · rw [stripsV_area_sum _ _ _ _ hrw, hsum]
        · intro q hq
          rw [rect_inside_iff]
          obtain ⟨h1, h2, h3, h4, h5⟩ := hmem q hq
          rw [hcov] at h5
          exact ⟨by linarith, by linarith, h3, h5⟩
        · exact (stripsV_pairwiseY _ _ _ _ hrw hrow).imp
            (fun hab => rect_not_overlaps_of_y _ _ hab)
        · intro p
          rw [rect_contains_iff]
          constructor
          · rintro ⟨h1, h2, h3, h4⟩
            exact stripsV_cover (r :: rs) x y rw0 hrw hrow hne p h3
              (by rw [hcov]; exact h4) h1 (by rw [hrw_eq]; exact h2)
          · rintro ⟨q, hq, c1, c2, c3, c4⟩
            obtain ⟨h1, h2, h3, h4, h5⟩ := hmem q hq
            rw [hcov] at h5
            exact ⟨by linarith, by linarith, by linarith, by linarith⟩
  | cons c rest ih =>
    intro row x y w h hrow hrem hw hh hsum
    have hc : 0 < c := hrem c (by simp)
    have hrest : ∀ r ∈ rest, 0 < r := fun r hr => hrem r (by simp [hr])
    have hrestsum : 0 ≤ rest.sum := List.sum_nonneg fun a ha => le_of_lt (hrest a ha)
    simp only [List.sum_cons] at hsum
    cases row with
    | nil =>
      rw [squarifyLoop_cons_nil]
      refine ih [c] x y w h ?_ hrest hw hh ?_
      · intro a ha
        rw [List.mem_singleton] at ha
        subst ha
        exact hc
      · simp only [List.sum_cons, List.sum_nil, add_zero]
        simp only [List.sum_nil, zero_add] at hsum
        linarith
    | cons r rs =>
      have hne : (r :: rs) ≠ [] := by simp
      have hspos : 0 < (r :: rs).sum := List.sum_pos _ hrow hne
      have hrow' : ∀ a ∈ (r :: rs) ++ [c], 0 < a := by
        intro a ha
        rcases List.mem_append.1 ha with h' | h'
        · exact hrow a h'
        · rw [List.mem_singleton] at h'
          subst h'
          exact hc
      have hslt : (r :: rs).sum < w * h := by linarith
      cases hgt : ratioGT (worst_ratio ((r :: rs) ++ [c]) (min w h))
          (worst_ratio (r :: rs) (min w h)) with
      | false =>
        rw [squarifyLoop_accept c rest r rs x y w h hgt]
        refine ih ((r :: rs) ++ [c]) x y w h hrow' hrest hw hh ?_
        rw [List.sum_append]
        have hcs : ([c] : List ℚ).sum = c := by simp
        rw [hcs]
        linarith
      | true =>
        rw [squarifyLoop_commit c rest r rs x y w h hgt]
        by_cases hhw : h ≤ w
        · rw [layout_row_of_le _ _ _ _ _ hw hhw]
          dsimp only
          set rh := (r :: rs).sum / w with hrhdef
          have hrh : 0 < rh := div_pos hspos hw
          have hwrh : w * rh = (r :: rs).sum := by
            rw [hrhdef, mul_comm, div_mul_cancel₀ _ (ne_of_gt hw)]
          have hrhlt : rh < h := by
            rw [hrhdef, div_lt_iff₀ hw]
            calc (r :: rs).sum < w * h := hslt
            _ = h * w := mul_comm w h
          have hh' : 0 < h - rh := by linarith
          have hsum2 : ([c]).sum + rest.sum = w * (h - rh) := by
            have hexp : w * (h - rh) = w * h - w * rh := by ring
            simp only [List.sum_cons, List.sum_nil, add_zero]
            linarith
          obtain ⟨ihA, ihB, ihC, ihD⟩ := ih [c] x (y + rh) w (h - rh)
            (by intro a ha; rw [List.mem_singleton] at ha; subst ha; exact hc)
            hrest hw hh' hsum2
          simp only [rect_inside_iff] at ihB
          have hcov : (r :: rs).sum / rh = w := by
            rw [hrhdef, div_div_eq_mul_div, mul_comm, mul_div_assoc,
              div_self (ne_of_gt hspos), mul_one]
          have hmem := stripsH_mem (r :: rs) x y rh hrh hrow
          refine ⟨?_, ?_, ?_, ?_⟩
          · rw [List.map_append, List.sum_append, stripsH_area_sum _ _ _ _ hrh, ihA]
            have hexp : w * (h - rh) = w * h - w * rh := by ring
            linarith
          · intro q hq
            rw [rect_inside_iff]
            rcases List.mem_append.1 hq with hq | hq
            · obtain ⟨h1, h2, h3, h4, h5⟩ := hmem q hq
              rw [hcov] at h5
              exact ⟨h3, h5, by linarith, by linarith⟩
            · obtain ⟨i1, i2, i3, i4⟩ := ihB q hq
              exact ⟨i1, i2, by linarith, by linarith⟩
          · rw [List.pairwise_append]
            refine ⟨(stripsH_pairwiseX _ _ _ _ hrh hrow).imp
              (fun hab => rect_not_overlaps_of_x _ _ hab), ihC, ?_⟩
            intro a ha b hb
            obtain ⟨h1, h2, -, -, -⟩ := hmem a ha
            obtain ⟨-, -, i3, -⟩ := ihB b hb
            exact rect_not_overlaps_of_y a b (by linarith)
          · intro p
            rw [rect_split_y x y w h rh (le_of_lt hrh) (le_of_lt hrhlt) p]
            simp only [rect_contains_iff] at ihD ⊢
            constructor
            · rintro (hp | hp)
              · obtain ⟨q, hq, hqc⟩ := stripsH_cover (r :: rs) x y rh hrh hrow hne p
                  hp.1 (by rw [hcov]; exact hp.2.1) hp.2.2.1 hp.2.2.2
                exact ⟨q, List.mem_append.2 (Or.inl hq), hqc⟩
              · obtain ⟨q, hq, hqc⟩ := (ihD p).1 hp
                exact ⟨q, List.mem_append.2 (Or.inr hq), hqc⟩
            · rintro ⟨q, hq, hqc⟩
              rcases List.mem_append.1 hq with hq | hq
              · left
                obtain ⟨h1, h2, h3, h4, h5⟩ := hmem q hq
                rw [hcov] at h5
                obtain ⟨c1, c2, c3, c4⟩ := hqc
                exact ⟨by linarith, by linarith, by linarith, by linarith⟩
              · right
                exact (ihD p).2 ⟨q, hq, hqc⟩
        · rw [layout_row_of_gt _ _ _ _ _ hh hhw]
          dsimp only
          set rw0 := (r :: rs).sum / h with hrwdef
          have hrw : 0 < rw0 := div_pos hspos hh
          have hhrw : h * rw0 = (r :: rs).sum := by
            rw [hrwdef, mul_comm, div_mul_cancel₀ _ (ne_of_gt hh)]
          have hrwlt : rw0 < w := by
            rw [hrwdef, div_lt_iff₀ hh]
            exact hslt
          have hw' : 0 < w - rw0 := by linarith
          have hsum2 : ([c]).sum + rest.sum = (w - rw0) * h := by
            have hexp : (w - rw0) * h = w * h - h * rw0 := by ring
            simp only [List.sum_cons, List.sum_nil, add_zero]
            linarith
          obtain ⟨ihA, ihB, ihC, ihD⟩ := ih [c] (x + rw0) y (w - rw0) h
            (by intro a ha; rw [List.mem_singleton] at ha; subst ha; exact hc)
            hrest hw' hh hsum2
          simp only [rect_inside_iff] at ihB
          have hcov : (r :: rs).sum / rw0 = h := by
            rw [hrwdef, div_div_eq_mul_div, mul_comm, mul_div_assoc,
              div_self (ne_of_gt hspos), mul_one]
          have hmem := stripsV_mem (r :: rs) x y rw0 hrw hrow
          refine ⟨?_, ?_, ?_, ?_⟩
          · rw [List.map_append, List.sum_append, stripsV_area_sum _ _ _ _ hrw, ihA]
            have hexp : (w - rw0) * h = w * h - h * rw0 := by ring
            linarith
          · intro q hq
            rw [rect_inside_iff]
            rcases List.mem_append.1 hq with hq | hq
            · obtain ⟨h1, h2, h3, h4, h5⟩ := hmem q hq
              rw [hcov] at h5
              exact ⟨by linarith, by linarith, h3, h5⟩
            · obtain ⟨i1, i2, i3, i4⟩ := ihB q hq
              exact ⟨by linarith, by linarith, i3, i4⟩
          · rw [List.pairwise_append]
            refine ⟨(stripsV_pairwiseY _ _ _ _ hrw hrow).imp
              (fun hab => rect_not_overlaps_of_y _ _ hab), ihC, ?_⟩
            intro a ha b hb
            obtain ⟨h1, h2, -, -, -⟩ := hmem a ha
            obtain ⟨i1, -, -, -⟩ := ihB b hb
            exact rect_not_overlaps_of_x a b (by linarith)
          · intro p
            rw [rect_split_x x y w h rw0 (le_of_lt hrw) (le_of_lt hrwlt) p]
            simp only [rect_contains_iff] at ihD ⊢
            constructor
            · rintro (hp | hp)
              · obtain ⟨q, hq, hqc⟩ := stripsV_cover (r :: rs) x y rw0 hrw hrow hne p
                  hp.2.2.1 (by rw [hcov]; exact hp.2.2.2) hp.1 hp.2.1
                exact ⟨q, List.mem_append.2 (Or.inl hq), hqc⟩
              · obtain ⟨q, hq, hqc⟩ := (ihD p).1 hp
                exact ⟨q, List.mem_append.2 (Or.inr hq), hqc⟩
            · rintro ⟨q, hq, hqc⟩
              rcases List.mem_append.1 hq with hq | hq
              · left
                obtain ⟨h1, h2, h3, h4, h5⟩ := hmem q hq
                rw [hcov] at h5
                obtain ⟨c1, c2, c3, c4⟩ := hqc
                exact ⟨by linarith, by linarith, by linarith, by linarith⟩
              · right
                exact (ihD p).2 ⟨q, hq, hqc⟩

/-! ## Part I: claim theorems about the layout engine -/

theorem list_sum_map_mul (l : List ℚ) (c : ℚ) :
    (l.map (fun s => s * c)).sum = l.sum * c := by
  induction l with
  | nil => simp
  | cons a as ih => simp [ih, add_mul]

theorem stripsH_zero_area (row : List ℚ) (cx y0 : ℚ) :
    ∀ q ∈ stripsH row cx y0 0, q.area = 0 := by
  induction row generalizing cx with
  | nil => simp [stripsH]
  | cons r rs ih =>
    intro q hq
    simp only [stripsH, lt_self_iff_false, if_false, List.mem_cons] at hq
    rcases hq with rfl | hq
    · simp [Rect.area]
    · exact ih _ q hq

/-- C2 (counterexample): the claim quantifies over every list of strictly
positive weights, which includes the empty list; there `treemap_rects`
returns no rectangles, so their areas sum to `0`, not to the target area
`S = 1 * 1`, and the union is empty rather than the target rectangle. -/
theorem C2_counterexample :
    treemap_rects [] 0 0 1 1 = [] ∧
    ((treemap_rects [] 0 0 1 1).map Rect.area).sum ≠ 1 * 1 := by
  have h : treemap_rects [] 0 0 1 1 = [] := by
    norm_num [treemap_rects, normalize_sizes, squarifyLoop]
  refine ⟨h, ?_⟩
  rw [h]
  norm_num

/-- C2 (amended: at least one weight): for every nonempty list of strictly
positive weights and every target rectangle of positive width and height,
`treemap_rects` returns one rectangle per weight, the areas sum exactly to
`w * h` (exact in `ℚ`, hence within any tolerance), no two rectangles
overlap in area, every rectangle lies inside the target, and the union of
the rectangles is exactly the target rectangle. -/
theorem C2_layout_tiling (sizes : List ℚ) (x y w h : ℚ)
    (hsz : ∀ s ∈ sizes, 0 < s) (hne : sizes ≠ []) (hw : 0 < w) (hh : 0 < h) :
    (treemap_rects sizes x y w h).length = sizes.length
    ∧ ((treemap_rects sizes x y w h).map Rect.area).sum = w * h
    ∧ (treemap_rects sizes x y w h).Pairwise (fun a b => ¬ a.overlaps b)
    ∧ (∀ q ∈ treemap_rects sizes x y w h, q.inside ⟨x, y, w, h⟩)
    ∧ (∀ p : ℚ × ℚ, Rect.contains ⟨x, y, w, h⟩ p ↔
        ∃ q ∈ treemap_rects sizes x y w h, q.contains p) := by
  have htot : 0 < sizes.sum := List.sum_pos _ hsz hne
  have hfac : 0 < (w * h) / sizes.sum := div_pos (mul_pos hw hh) htot
  have hnorm : normalize_sizes sizes w h
      = sizes.map (fun s => s * ((w * h) / sizes.sum)) := by
    simp only [normalize_sizes, if_neg (not_le.2 htot)]
  have hpos' : ∀ a ∈ normalize_sizes sizes w h, 0 < a := by
    rw [hnorm]
    intro a ha
    obtain ⟨s, hs, rfl⟩ := List.mem_map.1 ha
    exact mul_pos (hsz s hs) hfac
  have hfil : (normalize_sizes sizes w h).filter (fun s => decide (0 < s))
      = normalize_sizes sizes w h := by
    rw [List.filter_eq_self]
    intro a ha
    exact decide_eq_true (hpos' a ha)
  have hsum : (normalize_sizes sizes w h).sum = w * h := by
    rw [hnorm, list_sum_map_mul, mul_comm, div_mul_cancel₀ _ (ne_of_gt htot)]
  have hmain := squarifyLoop_spec (normalize_sizes sizes w h) [] x y w h
    (by simp) hpos' hw hh (by simpa using hsum)
  obtain ⟨A, B, C, D⟩ := hmain
  have hlen : (squarifyLoop (normalize_sizes sizes w h) [] x y w h).length
      = sizes.length := by
    rw [squarifyLoop_length]
    simp [hnorm]
  have heq : treemap_rects sizes x y w h
      = squarifyLoop (normalize_sizes sizes w h) [] x y w h := by
    unfold treemap_rects
    rw [hfil]
  rw [heq]
  exact ⟨hlen, A, C, B, D⟩

/-- C2 (witness): the amended layout-tiling theorem applied to the
weights `[3, 1]` and the target rectangle at `(0, 0)` of width and
height `2`. -/
theorem C2_layout_tiling_witness :
    ((∀ s ∈ [(3 : ℚ), 1], 0 < s) ∧ ([(3 : ℚ), 1] ≠ []) ∧ (0 < (2 : ℚ)))
    ∧ ((treemap_rects [(3 : ℚ), 1] 0 0 2 2).length = [(3 : ℚ), 1].length
      ∧ ((treemap_rects [(3 : ℚ), 1] 0 0 2 2).map Rect.area).sum = 2 * 2
      ∧ (treemap_rects [(3 : ℚ), 1] 0 0 2 2).Pairwise (fun a b => ¬ a.overlaps b)
      ∧ (∀ q ∈ treemap_rects [(3 : ℚ), 1] 0 0 2 2, q.inside ⟨0, 0, 2, 2⟩)
      ∧ (∀ p : ℚ × ℚ, Rect.contains ⟨0, 0, 2, 2⟩ p ↔
          ∃ q ∈ treemap_rects [(3 : ℚ), 1] 0 0 2 2, q.contains p)) :=
  ⟨⟨by intro s hs; fin_cases hs <;> norm_num, by simp, by norm_num⟩,
   C2_layout_tiling [3, 1] 0 0 2 2
     (by intro s hs; fin_cases hs <;> norm_num) (by simp) (by norm_num) (by norm_num)⟩

set_option maxHeartbeats 2000000 in
theorem squarify_golden_eval :
    treemap_committed_rows [6, 6, 4, 3, 2, 2, 1] 0 0 6 4 =
      [[6, 6], [4], [3], [2], [2], [1]] := by
  norm_num [treemap_committed_rows, normalize_sizes, squarifyRows, worst_ratio,
    ratioGT, layout_row, stripsH, stripsV, min_def, max_def, List.filter,
    List.foldl, decide_eq_true_eq]

/-- C4 (counterexample): on the weights `[6, 6, 4, 3, 2, 2, 1]` with the
`6 × 4` target, the second committed row of the source's loop is `[4]`
alone, not `[4, 3, 2, 2, 1]`: `_layout_row` slices along the longer
dimension of the remaining rectangle (height `2` of the `6 × 2` remainder
after the first row), so adding `3` to the row `[4]` worsens the worst
ratio and the row is committed immediately. -/
theorem C4_counterexample :
    treemap_committed_rows [6, 6, 4, 3, 2, 2, 1] 0 0 6 4 ≠
      [[6, 6], [4, 3, 2, 2, 1]] := by
  rw [squarify_golden_eval]
  simp

/-- C4 (amended): on the weights `[6, 6, 4, 3, 2, 2, 1]` with a `6 × 4`
target (area 24, normalization the identity), the loop commits the row
`[6, 6]` first, and then commits every remaining weight as a singleton
row: the committed rows are `[6, 6], [4], [3], [2], [2], [1]`.  This
diverges from the published squarify layout (second row `[4, 3]`) because
`_layout_row` slices along the longer side of the remaining rectangle. -/
theorem C4_golden_rows :
    treemap_committed_rows [6, 6, 4, 3, 2, 2, 1] 0 0 6 4 =
      [[6, 6], [4], [3], [2], [2], [1]] := squarify_golden_eval

/-- C6: degenerate layout inputs.  An empty weight list yields an empty
rectangle list (for any target, even degenerate), and a single positive
weight with a positive-size target yields exactly one rectangle equal to
the target rectangle. -/
theorem C6_degenerate_inputs :
    (∀ x y w h : ℚ, treemap_rects [] x y w h = [])
    ∧ (∀ s x y w h : ℚ, 0 < s → 0 < w → 0 < h →
        treemap_rects [s] x y w h = [⟨x, y, w, h⟩]) := by
  constructor
  · intro x y w h
    norm_num [treemap_rects, normalize_sizes, squarifyLoop]
  · intro s x y w h hs hw hh
    have hwh : 0 < w * h := mul_pos hw hh
    have hsum1 : ([s] : List ℚ).sum = s := by simp
    have hnorm : normalize_sizes [s] w h = [w * h] := by
      simp only [normalize_sizes, hsum1, if_neg (not_le.2 hs), List.map_cons,
        List.map_nil]
      congr 1
      rw [mul_comm, div_mul_cancel₀ _ (ne_of_gt hs)]
    have hfil : ((normalize_sizes [s] w h).filter (fun a => decide (0 < a)))
        = [w * h] := by
      rw [hnorm]
      simp [List.filter, decide_eq_true hwh]
    show squarifyLoop ((normalize_sizes [s] w h).filter (fun a => decide (0 < a)))
        [] x y w h = [⟨x, y, w, h⟩]
    rw [hfil, squarifyLoop_cons_nil, squarifyLoop_nil_cons]
    have hsumwh : ([w * h] : List ℚ).sum = w * h := by simp
    by_cases hhw : h ≤ w
    · rw [layout_row_of_le _ _ _ _ _ hw hhw]
      dsimp only
      rw [hsumwh]
      have hrh : w * h / w = h := by
        rw [mul_comm, mul_div_assoc, div_self (ne_of_gt hw), mul_one]
      rw [hrh, stripsH_cons _ _ _ _ _ hh]
      have hww : w * h / h = w := by
        rw [mul_div_assoc, div_self (ne_of_gt hh), mul_one]
      rw [hww]
      rfl
    · rw [layout_row_of_gt _ _ _ _ _ hh hhw]
      dsimp only
      rw [hsumwh]
      have hrw : w * h / h = w := by
        rw [mul_div_assoc, div_self (ne_of_gt hh), mul_one]
      rw [hrw, stripsV_cons _ _ _ _ _ hw]
      have hhh : w * h / w = h := by
        rw [mul_comm, mul_div_assoc, div_self (ne_of_gt hw), mul_one]
      rw [hhh]
      rfl

/-- C6 (witness): the degenerate-input theorem applied to the empty list
with target `(0, 0, 3, 2)` and to the single weight `5` with target
`(1, 1, 3, 2)`. -/
theorem C6_degenerate_inputs_witness :
    ((0 : ℚ) < 5 ∧ (0 : ℚ) < 3 ∧ (0 : ℚ) < 2)
    ∧ treemap_rects [] 0 0 3 2 = []
    ∧ treemap_rects [(5 : ℚ)] 1 1 3 2 = [⟨1, 1, 3, 2⟩] :=
  ⟨⟨by norm_num, by norm_num, by norm_num⟩,
   C6_degenerate_inputs.1 0 0 3 2,
   C6_degenerate_inputs.2 5 1 1 3 2 (by norm_num) (by norm_num) (by norm_num)⟩

/-- C7: degenerate target safety.  With a zero-width or zero-height
target every weight normalizes to `0` and is filtered out, so the output
is empty and (vacuously) every produced rectangle has zero area; and the
division guards of the source hold: `_worst_ratio` yields the infinite
ratio (`none`) for an empty row, a nonpositive side, or a nonpositive
minimum weight, and `_layout_row` on a fully degenerate remaining
rectangle substitutes `0` for the guarded quotients, so each of its
rectangles has zero area. -/
theorem C7_degenerate_target (sizes : List ℚ) (x y w h : ℚ)
    (hdeg : w = 0 ∨ h = 0) :
    treemap_rects sizes x y w h = []
    ∧ (∀ q ∈ treemap_rects sizes x y w h, q.area = 0)
    ∧ (∀ (row : List ℚ) (side : ℚ), side ≤ 0 → worst_ratio row side = none)
    ∧ (∀ side : ℚ, worst_ratio [] side = none)
    ∧ (∀ (r : ℚ) (rs : List ℚ) (side : ℚ), rs.foldl min r ≤ 0 →
        worst_ratio (r :: rs) side = none)
    ∧ (∀ (row : List ℚ) (x0 y0 : ℚ), ∀ q ∈ (layout_row row x0 y0 0 0).1,
        q.area = 0) := by
  have hwh : w * h = 0 := by
    rcases hdeg with rfl | rfl
    · exact zero_mul h
    · exact mul_zero w
  have hallzero : ∀ a ∈ normalize_sizes sizes w h, a = 0 := by
    intro a ha
    unfold normalize_sizes at ha
    by_cases htot : sizes.sum ≤ 0
    · rw [if_pos htot] at ha
      obtain ⟨s, -, rfl⟩ := List.mem_map.1 ha
      rfl
    · rw [if_neg htot] at ha
      obtain ⟨s, -, rfl⟩ := List.mem_map.1 ha
      rw [hwh, zero_div, mul_zero]
  have hfil : (normalize_sizes sizes w h).filter (fun a => decide (0 < a)) = [] := by
    rw [List.filter_eq_nil_iff]
    intro a ha
    rw [hallzero a ha]
    simp
  have hempty : treemap_rects sizes x y w h = [] := by
    show squarifyLoop ((normalize_sizes sizes w h).filter (fun a => decide (0 < a)))
        [] x y w h = []
    rw [hfil]
    rfl
  refine ⟨hempty, ?_, ?_, ?_, ?_, ?_⟩
  · intro q hq
    rw [hempty] at hq
    exact absurd hq (List.not_mem_nil q)
  · intro row side hside
    cases row with
    | nil => rfl
    | cons r rs => simp [worst_ratio, if_pos hside]
  · intro side
    rfl
  · intro r rs side hmn
    by_cases hside : side ≤ 0
    · simp [worst_ratio, if_pos hside]
    · simp [worst_ratio, if_neg hside, if_pos hmn]
  · intro row x0 y0 q hq
    have hlr : (layout_row row x0 y0 0 0).1 = stripsH row x0 y0 0 := by
      simp [layout_row]
    rw [hlr] at hq
    exact stripsH_zero_area row x0 y0 q hq

/-- C7 (witness): the degenerate-target theorem applied to the weights
`[1, 2]` with a zero-width target rectangle. -/
theorem C7_degenerate_target_witness :
    ((0 : ℚ) = 0 ∨ (5 : ℚ) = 0)
    ∧ (treemap_rects [1, 2] 0 0 0 5 = []
      ∧ (∀ q ∈ treemap_rects [1, 2] 0 0 0 5, q.area = 0)
      ∧ (∀ (row : List ℚ) (side : ℚ), side ≤ 0 → worst_ratio row side = none)
      ∧ (∀ side : ℚ, worst_ratio [] side = none)
      ∧ (∀ (r : ℚ) (rs : List ℚ) (side : ℚ), rs.foldl min r ≤ 0 →
          worst_ratio (r :: rs) side = none)
      ∧ (∀ (row : List ℚ) (x0 y0 : ℚ), ∀ q ∈ (layout_row row x0 y0 0 0).1,
          q.area = 0)) :=
  ⟨Or.inl rfl, C7_degenerate_target [1, 2] 0 0 0 5 (Or.inl rfl)⟩

/-! ## Part II: theorems about the aggregator -/

theorem walkInduct {Q : List FSTree → Prop}
    (hnil : Q [])
    (hfile : ∀ n s m sym e ts, Q ts → Q (.file n s m sym e :: ts))
    (hother : ∀ n ts, Q ts → Q (.other n :: ts))
    (hdir : ∀ n sym e cs ts, Q cs → Q ts → Q (.dir n sym e cs :: ts)) :
    ∀ ts, Q ts := by
  have H : ∀ N, ∀ ts : List FSTree, sizeOf ts ≤ N → Q ts := by
    intro N
    induction N with
    | zero =>
      intro ts h
      cases ts <;> simp at h
    | succ N ih =>
      intro ts h
      match ts with
      | [] => exact hnil
      | .file n s m sym e :: ts =>
        refine hfile n s m sym e ts (ih ts ?_)
        simp at h
        omega
      | .other n :: ts =>
        refine hother n ts (ih ts ?_)
        simp at h
        omega
      | .dir n sym e cs :: ts =>
        refine hdir n sym e cs ts (ih cs ?_) (ih ts ?_) <;> (simp at h; omega)
  exact fun ts => H (sizeOf ts) ts le_rfl

/-- C8: `scan_directory` fails with `FileNotFoundError` when the root
path does not exist and with `NotADirectoryError` when it exists but is
not a directory; the check happens before any traversal and an error
outcome carries no `ScanResult` at all (no partial output). -/
theorem C8_fatal_precondition :
    (∀ (root : String) (opts : ScanOptions) (n : Int),
      scan_directory root none opts n = .error (.fileNotFound root)
        ∧ (scan_directory root none opts n).toOption = none)
    ∧ (∀ (root nm : String) (sz : Nat) (mt : Int) (sym : Bool)
        (exc : Option String) (opts : ScanOptions) (n : Int),
      scan_directory root (some (.file nm sz mt sym exc)) opts n
          = .error (.notADirectory root)
        ∧ (scan_directory root (some (.file nm sz mt sym exc)) opts n).toOption
          = none)
    ∧ (∀ (root nm : String) (opts : ScanOptions) (n : Int),
      scan_directory root (some (.other nm)) opts n
          = .error (.notADirectory root)
        ∧ (scan_directory root (some (.other nm)) opts n).toOption = none) :=
  ⟨fun _ _ _ => ⟨rfl, rfl⟩,
   fun _ _ _ _ _ _ _ _ => ⟨rfl, rfl⟩,
   fun _ _ _ _ => ⟨rfl, rfl⟩⟩

theorem walk_size_conservation (opts : ScanOptions) (root : String) :
    ∀ (ts : List FSTree) (rel : List String) (acc : ScanAcc),
      (walkChildren opts root rel ts acc).1 = includedFilesSize opts rel ts := by
  intro ts
  induction ts using walkInduct with
  | hnil => intro rel acc; rfl
  | hfile n s m sym e ts ih =>
    intro rel acc
    show (walkEntry opts root rel (.file n s m sym e) acc).1
        + (walkChildren opts root rel ts _).1
      = includedEntrySize opts rel (.file n s m sym e)
        + includedFilesSize opts rel ts
    rw [ih]
    congr 1
    cases h1 : shouldSkip opts (posixOf (rel ++ [n])) n with
    | true => simp [walkEntry, includedEntrySize, h1]
    | false =>
      cases h2 : sym && !opts.follow_symlinks with
      | true => simp [walkEntry, includedEntrySize, h1, h2]
      | false =>
        cases e with
        | none => simp [walkEntry, includedEntrySize, h1, h2]
        | some msg => simp [walkEntry, includedEntrySize, h1, h2]
  | hother n ts ih =>
    intro rel acc
    show (walkEntry opts root rel (.other n) acc).1
        + (walkChildren opts root rel ts _).1
      = includedEntrySize opts rel (.other n) + includedFilesSize opts rel ts
    rw [ih]
    rfl
  | hdir n sym e cs ts ihc iht =>
    intro rel acc
    show (walkEntry opts root rel (.dir n sym e cs) acc).1
        + (walkChildren opts root rel ts _).1
      = includedEntrySize opts rel (.dir n sym e cs)
        + includedFilesSize opts rel ts
    rw [iht]
    congr 1
    cases h1 : shouldSkip opts (posixOf (rel ++ [n])) n with
    | true => simp [walkEntry, includedEntrySize, h1]
    | false =>
      cases h2 : sym && !opts.follow_symlinks with
      | true => simp [walkEntry, includedEntrySize, h1, h2]
      | false =>
        cases e with
        | none => simp [walkEntry, includedEntrySize, h1, h2, ihc]
        | some msg => simp [walkEntry, includedEntrySize, h1, h2]

theorem entry_direct_plus_sub (opts : ScanOptions) (root : String)
    (rel : List String) (t : FSTree) :
    includedEntrySize opts rel t
      = directFilesSize opts rel [t]
        + (if includedEntry opts rel t && isDirB t then walkSizeOf opts root rel t
           else 0) := by
  cases t with
  | file n s m sym e =>
    cases h1 : shouldSkip opts (posixOf (rel ++ [n])) n with
    | true =>
      simp [includedEntrySize, directFilesSize, includedEntry, entryName,
        entryIsSymlink, isDirB, h1]
    | false =>
      cases h2 : sym && !opts.follow_symlinks with
      | true =>
        simp [includedEntrySize, directFilesSize, includedEntry, entryName,
          entryIsSymlink, isDirB, h1, h2]
      | false =>
        cases e with
        | none =>
          simp [includedEntrySize, directFilesSize, includedEntry, entryName,
            entryIsSymlink, isDirB, h1, h2]
        | some msg =>
          simp [includedEntrySize, directFilesSize, includedEntry, entryName,
            entryIsSymlink, isDirB, h1, h2]
  | other n =>
    simp [includedEntrySize, directFilesSize, includedEntry, entryName,
      entryIsSymlink, isDirB]
  | dir n sym e cs =>
    cases h1 : shouldSkip opts (posixOf (rel ++ [n])) n with
    | true =>
      simp [includedEntrySize, directFilesSize, includedEntry, entryName,
        entryIsSymlink, isDirB, h1]
    | false =>
      cases h2 : sym && !opts.follow_symlinks with
      | true =>
        simp [includedEntrySize, directFilesSize, includedEntry, entryName,
          entryIsSymlink, isDirB, h1, h2]
      | false =>
        cases e with
        | none =>
          have hw : walkSizeOf opts root rel (.dir n sym none cs)
              = includedFilesSize opts (rel ++ [n]) cs := by
            show (walkChildren opts root (rel ++ [n]) cs emptyAcc).1 = _
            exact walk_size_conservation opts root cs (rel ++ [n]) emptyAcc
          simp [includedEntrySize, directFilesSize, includedEntry, entryName,
            entryIsSymlink, isDirB, h1, h2, hw]
        | some msg =>
          have hw : walkSizeOf opts root rel (.dir n sym (some msg) cs) = 0 := rfl
          simp [includedEntrySize, directFilesSize, includedEntry, entryName,
            entryIsSymlink, isDirB, h1, h2, hw]

theorem includedSubdirs_cons_sum (opts : ScanOptions) (root : String)
    (rel : List String) (t : FSTree) (rest : List FSTree) :
    ((includedSubdirs opts rel (t :: rest)).map (walkSizeOf opts root rel)).sum
      = (if includedEntry opts rel t && isDirB t then walkSizeOf opts root rel t
         else 0)
        + ((includedSubdirs opts rel rest).map (walkSizeOf opts root rel)).sum := by
  cases h : includedEntry opts rel t && isDirB t with
  | true => simp [includedSubdirs, List.filter_cons, h]
  | false => simp [includedSubdirs, List.filter_cons, h]

theorem includedFilesSize_split (opts : ScanOptions) (root : String) :
    ∀ (ts : List FSTree) (rel : List String),
      includedFilesSize opts rel ts
        = directFilesSize opts rel ts
          + ((includedSubdirs opts rel ts).map (walkSizeOf opts root rel)).sum := by
  intro ts
  induction ts with
  | nil => intro rel; rfl
  | cons t rest ih =>
    intro rel
    have h1 : includedFilesSize opts rel (t :: rest)
        = includedEntrySize opts rel t + includedFilesSize opts rel rest := rfl
    have h2 : directFilesSize opts rel (t :: rest)
        = directFilesSize opts rel [t] + directFilesSize opts rel rest := by
      show _ + directFilesSize opts rel rest = (_ + 0) + directFilesSize opts rel rest
      omega
    rw [h1, h2, ih rel, includedSubdirs_cons_sum opts root rel t rest,
      entry_direct_plus_sub opts root rel t]
    omega

/-- C3: aggregator conservation.  For every directory the walk visits
with a successful listing, the computed total size equals the sum of the
included files' sizes below it (files skipped as hidden, glob-excluded or
symlinks, stat failures, and everything below unreadable directories are
not counted); it also equals its direct included files plus the recursive
totals of its included subdirectories; an unreadable directory totals
zero; and the `ScanResult` total is the root summary's total. -/
theorem C3_aggregator_conservation (opts : ScanOptions) (root : String) :
    (∀ (rel : List String) (ts : List FSTree) (acc : ScanAcc),
      (walkDir opts root rel none ts acc).1.size_bytes
        = includedFilesSize opts rel ts)
    ∧ (∀ (rel : List String) (ts : List FSTree) (acc : ScanAcc),
      (walkDir opts root rel none ts acc).1.size_bytes
        = directFilesSize opts rel ts
          + ((includedSubdirs opts rel ts).map (walkSizeOf opts root rel)).sum)
    ∧ (∀ (rel : List String) (e : String) (cs : List FSTree) (acc : ScanAcc),
      (walkDir opts root rel (some e) cs acc).1.size_bytes = 0)
    ∧ (∀ (listExc : Option String) (children : List FSTree) (nl : Int),
      (scanDirRoot root listExc children opts nl).total_size_bytes
        = (walkDir opts root [] listExc children emptyAcc).1.size_bytes) := by
  refine ⟨?_, ?_, fun _ _ _ _ => rfl, fun _ _ _ => rfl⟩
  · intro rel ts acc
    exact walk_size_conservation opts root ts rel acc
  · intro rel ts acc
    calc (walkDir opts root rel none ts acc).1.size_bytes
        = includedFilesSize opts rel ts :=
          walk_size_conservation opts root ts rel acc
      _ = _ := includedFilesSize_split opts root ts rel

theorem bump_sumVals (l : List (String × Nat)) (k : String) (v : Nat) :
    sumVals (bump l k v) = sumVals l + v := by
  induction l with
  | nil => simp [bump, sumVals]
  | cons kv rest ih =>
    obtain ⟨k0, v0⟩ := kv
    by_cases h : k0 = k
    · simp [bump, h, sumVals]
      omega
    · simp [bump, h, sumVals] at ih ⊢
      omega

theorem insertDescBy_perm {α : Type} (key : α → Nat) (a : α) (l : List α) :
    (insertDescBy key a l).Perm (a :: l) := by
  induction l with
  | nil => simp [insertDescBy]
  | cons b bs ih =>
    simp only [insertDescBy]
    split
    · exact List.Perm.refl _
    · exact (ih.cons b).trans (List.Perm.swap a b bs)

theorem sortDescBy_perm {α : Type} (key : α → Nat) (l : List α) :
    (sortDescBy key l).Perm l := by
  induction l with
  | nil => simp [sortDescBy]
  | cons a as ih =>
    exact (insertDescBy_perm key a _).trans (ih.cons a)

theorem sortDescBy_sumVals (key : (String × Nat) → Nat) (l : List (String × Nat)) :
    sumVals (sortDescBy key l) = sumVals l := by
  unfold sumVals
  exact ((sortDescBy_perm key l).map (fun kv => kv.2)).sum_eq

theorem walk_ext_evolution (opts : ScanOptions) (root : String) :
    ∀ (ts : List FSTree) (rel : List String) (acc : ScanAcc),
      sumVals ((walkChildren opts root rel ts acc).2.2.2.extBytes)
          = sumVals acc.extBytes + (walkChildren opts root rel ts acc).1
        ∧ sumVals ((walkChildren opts root rel ts acc).2.2.2.extCounts)
          = sumVals acc.extCounts + (walkChildren opts root rel ts acc).2.1 := by
  intro ts
  induction ts using walkInduct with
  | hnil => intro rel acc; exact ⟨rfl, rfl⟩
  | hfile n s m sym e ts ih =>
    intro rel acc
    have hstep : ∀ acc', walkChildren opts root rel (.file n s m sym e :: ts) acc'
        = ((walkEntry opts root rel (.file n s m sym e) acc').1
            + (walkChildren opts root rel ts (walkEntry opts root rel (.file n s m sym e) acc').2.2.2).1,
          (walkEntry opts root rel (.file n s m sym e) acc').2.1
            + (walkChildren opts root rel ts (walkEntry opts root rel (.file n s m sym e) acc').2.2.2).2.1,
          (walkEntry opts root rel (.file n s m sym e) acc').2.2.1
            + (walkChildren opts root rel ts (walkEntry opts root rel (.file n s m sym e) acc').2.2.2).2.2.1,
          (walkChildren opts root rel ts (walkEntry opts root rel (.file n s m sym e) acc').2.2.2).2.2.2) :=
      fun _ => rfl
    rw [hstep]
    cases h1 : shouldSkip opts (posixOf (rel ++ [n])) n with
    | true =>
      have he : walkEntry opts root rel (.file n s m sym e) acc = (0, 0, 0, acc) := by
        simp [walkEntry, h1]
      rw [he]
      dsimp only
      obtain ⟨ihB, ihC⟩ := ih rel acc
      constructor
      · simp only [ihB]; omega
      · simp only [ihC]; omega
    | false =>
      cases h2 : sym && !opts.follow_symlinks with
      | true =>
        have he : walkEntry opts root rel (.file n s m sym e) acc = (0, 0, 0, acc) := by
          simp [walkEntry, h1, h2]
        rw [he]
        dsimp only
        obtain ⟨ihB, ihC⟩ := ih rel acc
        constructor
        · simp only [ihB]; omega
        · simp only [ihC]; omega
      | false =>
        cases e with
        | some msg =>
          have he : walkEntry opts root rel (.file n s m sym (some msg)) acc
              = (0, 0, 0, { acc with errors := acc.errors ++
                  ["Failed to stat file " ++ pathStr root (rel ++ [n]) ++ ": " ++ msg] }) := by
            simp [walkEntry, h1, h2]
          rw [he]
          dsimp only
          obtain ⟨ihB, ihC⟩ := ih rel { acc with errors := acc.errors ++
            ["Failed to stat file " ++ pathStr root (rel ++ [n]) ++ ": " ++ msg] }
          have e1 : ({ acc with errors := acc.errors ++
              ["Failed to stat file " ++ pathStr root (rel ++ [n]) ++ ": " ++ msg] }
              : ScanAcc).extBytes = acc.extBytes := rfl
          have e2 : ({ acc with errors := acc.errors ++
              ["Failed to stat file " ++ pathStr root (rel ++ [n]) ++ ": " ++ msg] }
              : ScanAcc).extCounts = acc.extCounts := rfl
          constructor
          · rw [ihB, e1]; omega
          · rw [ihC, e2]; omega
        | none =>
          have he : walkEntry opts root rel (.file n s m sym none) acc
              = (s, 1, 0, record_file (pathStr root (rel ++ [n])) n s m acc) := by
            simp [walkEntry, h1, h2]
          rw [he]
          dsimp only
          obtain ⟨ihB, ihC⟩ := ih rel (record_file (pathStr root (rel ++ [n])) n s m acc)
          have hrb : sumVals ((record_file (pathStr root (rel ++ [n])) n s m acc).extBytes)
              = sumVals acc.extBytes + s := by
            simp [record_file, bump_sumVals]
          have hrc : sumVals ((record_file (pathStr root (rel ++ [n])) n s m acc).extCounts)
              = sumVals acc.extCounts + 1 := by
            simp [record_file, bump_sumVals]
          constructor
          · simp only [ihB, hrb]; omega
          · simp only [ihC, hrc]; omega
  | hother n ts ih =>
    intro rel acc
    have hstep : walkChildren opts root rel (.other n :: ts) acc
        = (0 + (walkChildren opts root rel ts acc).1,
          0 + (walkChildren opts root rel ts acc).2.1,
          0 + (walkChildren opts root rel ts acc).2.2.1,
          (walkChildren opts root rel ts acc).2.2.2) := rfl
    rw [hstep]
    obtain ⟨ihB, ihC⟩ := ih rel acc
    constructor
    · simp only [ihB]; omega
    · simp only [ihC]; omega
  | hdir n sym e cs ts ihc iht =>
    intro rel acc
    have hstep : ∀ acc', walkChildren opts root rel (.dir n sym e cs :: ts) acc'
        = ((walkEntry opts root rel (.dir n sym e cs) acc').1
            + (walkChildren opts root rel ts (walkEntry opts root rel (.dir n sym e cs) acc').2.2.2).1,
          (walkEntry opts root rel (.dir n sym e cs) acc').2.1
            + (walkChildren opts root rel ts (walkEntry opts root rel (.dir n sym e cs) acc').2.2.2).2.1,
          (walkEntry opts root rel (.dir n sym e cs) acc').2.2.1
            + (walkChildren opts root rel ts (walkEntry opts root rel (.dir n sym e cs) acc').2.2.2).2.2.1,
          (walkChildren opts root rel ts (walkEntry opts root rel (.dir n sym e cs) acc').2.2.2).2.2.2) :=
      fun _ => rfl
    rw [hstep]
    cases h1 : shouldSkip opts (posixOf (rel ++ [n])) n with
    | true =>
      have he : walkEntry opts root rel (.dir n sym e cs) acc = (0, 0, 0, acc) := by
        simp [walkEntry, h1]
      rw [he]
      dsimp only
      obtain ⟨ihB, ihC⟩ := iht rel acc
      constructor
      · simp only [ihB]; omega
      · simp only [ihC]; omega
    | false =>
      cases h2 : sym && !opts.follow_symlinks with
      | true =>
        have he : walkEntry opts root rel (.dir n sym e cs) acc = (0, 0, 0, acc) := by
          simp [walkEntry, h1, h2]
        rw [he]
        dsimp only
        obtain ⟨ihB, ihC⟩ := iht rel acc
        constructor
        · simp only [ihB]; omega
        · simp only [ihC]; omega
      | false =>
        cases e with
        | some msg =>
          have he : walkEntry opts root rel (.dir n sym (some msg) cs) acc
              = (0, 0, 1, { acc with
                  errors := acc.errors ++
                    ["Failed to list " ++ pathStr root (rel ++ [n]) ++ ": " ++ msg],
                  dirSummaries := acc.dirSummaries
                    ++ [(rel ++ [n], ⟨rel ++ [n], 0, 0, 0⟩)] }) := by
            simp [walkEntry, h1, h2]
          rw [he]
          dsimp only
          obtain ⟨ihB, ihC⟩ := iht rel { acc with
            errors := acc.errors ++
              ["Failed to list " ++ pathStr root (rel ++ [n]) ++ ": " ++ msg],
            dirSummaries := acc.dirSummaries
              ++ [(rel ++ [n], ⟨rel ++ [n], 0, 0, 0⟩)] }
          have e1 : ({ acc with
              errors := acc.errors ++
                ["Failed to list " ++ pathStr root (rel ++ [n]) ++ ": " ++ msg],
              dirSummaries := acc.dirSummaries
                ++ [(rel ++ [n], ⟨rel ++ [n], 0, 0, 0⟩)] }
              : ScanAcc).extBytes = acc.extBytes := rfl
          have e2 : ({ acc with
              errors := acc.errors ++
                ["Failed to list " ++ pathStr root (rel ++ [n]) ++ ": " ++ msg],
              dirSummaries := acc.dirSummaries
                ++ [(rel ++ [n], ⟨rel ++ [n], 0, 0, 0⟩)] }
              : ScanAcc).extCounts = acc.extCounts := rfl
          constructor
          · rw [ihB, e1]; omega
          · rw [ihC, e2]; omega
        | none =>
          have he : walkEntry opts root rel (.dir n sym none cs) acc
              = ((walkChildren opts root (rel ++ [n]) cs acc).1,
                (walkChildren opts root (rel ++ [n]) cs acc).2.1,
                1 + (walkChildren opts root (rel ++ [n]) cs acc).2.2.1,
                ⟨(walkChildren opts root (rel ++ [n]) cs acc).2.2.2.extBytes,
                 (walkChildren opts root (rel ++ [n]) cs acc).2.2.2.extCounts,
                 (walkChildren opts root (rel ++ [n]) cs acc).2.2.2.largest,
                 (walkChildren opts root (rel ++ [n]) cs acc).2.2.2.dirSummaries
                   ++ [(rel ++ [n],
                     ⟨rel ++ [n], (walkChildren opts root (rel ++ [n]) cs acc).1,
                       (walkChildren opts root (rel ++ [n]) cs acc).2.1,
                       (walkChildren opts root (rel ++ [n]) cs acc).2.2.1⟩)],
                 (walkChildren opts root (rel ++ [n]) cs acc).2.2.2.errors⟩) := by
            simp [walkEntry, h1, h2]
          rw [he]
          dsimp only
          obtain ⟨ihcB, ihcC⟩ := ihc (rel ++ [n]) acc
          obtain ⟨ihB, ihC⟩ := iht rel
            ⟨(walkChildren opts root (rel ++ [n]) cs acc).2.2.2.extBytes,
             (walkChildren opts root (rel ++ [n]) cs acc).2.2.2.extCounts,
             (walkChildren opts root (rel ++ [n]) cs acc).2.2.2.largest,
             (walkChildren opts root (rel ++ [n]) cs acc).2.2.2.dirSummaries
               ++ [(rel ++ [n],
                 ⟨rel ++ [n], (walkChildren opts root (rel ++ [n]) cs acc).1,
                   (walkChildren opts root (rel ++ [n]) cs acc).2.1,
                   (walkChildren opts root (rel ++ [n]) cs acc).2.2.1⟩)],
             (walkChildren opts root (rel ++ [n]) cs acc).2.2.2.errors⟩
          dsimp only at ihB ihC
          rw [ihB] at *
          rw [ihC] at *
          constructor
          · rw [ihcB]
            omega
          · rw [ihcC]
            omega

/-- C10: histogram conservation.  For every scan `scan_directory`
completes (any root directory snapshot, options and largest-files cap),
the values of `extension_bytes` sum to `total_size_bytes` and the values
of `extension_counts` sum to `total_file_count`: `record_file` updates
the histograms exactly when a file's size is added to the totals. -/
theorem C10_histogram_conservation (root : String) (listExc : Option String)
    (children : List FSTree) (opts : ScanOptions) (nl : Int) :
    sumVals (scanDirRoot root listExc children opts nl).extension_bytes
      = (scanDirRoot root listExc children opts nl).total_size_bytes
    ∧ sumVals (scanDirRoot root listExc children opts nl).extension_counts
      = (scanDirRoot root listExc children opts nl).total_file_count := by
  cases listExc with
  | some e =>
    constructor <;> rfl
  | none =>
    have hs : (scanDirRoot root none children opts nl).extension_bytes
        = sortDescBy (fun kv => kv.2)
          (walkChildren opts root [] children emptyAcc).2.2.2.extBytes := rfl
    have hc : (scanDirRoot root none children opts nl).extension_counts
        = sortDescBy (fun kv => kv.2)
          (walkChildren opts root [] children emptyAcc).2.2.2.extCounts := rfl
    have ht : (scanDirRoot root none children opts nl).total_size_bytes
        = (walkChildren opts root [] children emptyAcc).1 := rfl
    have hf : (scanDirRoot root none children opts nl).total_file_count
        = (walkChildren opts root [] children emptyAcc).2.1 := rfl
    obtain ⟨hB, hC⟩ := walk_ext_evolution opts root children [] emptyAcc
    constructor
    · rw [hs, ht, sortDescBy_sumVals, hB]
      simp [emptyAcc, sumVals]
    · rw [hc, hf, sortDescBy_sumVals, hC]
      simp [emptyAcc, sumVals]

/-- C9: per-entry recoverable failure.  A file whose stat fails
contributes nothing to any total or accumulator except a warning string
naming the offending path and the underlying cause, after which the walk
continues with the remaining entries exactly as if started on them; an
unlistable directory likewise only records its warning and zero-total
summary (contributing only to the directory count); and the collected
warnings are returned as the `ScanResult`'s `errors` field, so a single
unreadable entry never aborts the aggregation. -/
theorem C9_per_entry_failure (opts : ScanOptions) (root : String)
    (rel : List String) (n : String) (sz : Nat) (mt : Int) (sym : Bool)
    (e : String) (cs : List FSTree) (rest : List FSTree) (acc : ScanAcc)
    (hskip : shouldSkip opts (posixOf (rel ++ [n])) n = false)
    (hsym : (sym && !opts.follow_symlinks) = false) :
    (walkChildren opts root rel (.file n sz mt sym (some e) :: rest) acc
      = walkChildren opts root rel rest
          { acc with errors := acc.errors ++
              ["Failed to stat file " ++ pathStr root (rel ++ [n]) ++ ": " ++ e] })
    ∧ (walkChildren opts root rel (.dir n sym (some e) cs :: rest) acc
      = ((walkChildren opts root rel rest
            { acc with
              errors := acc.errors ++
                ["Failed to list " ++ pathStr root (rel ++ [n]) ++ ": " ++ e],
              dirSummaries := acc.dirSummaries
                ++ [(rel ++ [n], ⟨rel ++ [n], 0, 0, 0⟩)] }).1,
          (walkChildren opts root rel rest
            { acc with
              errors := acc.errors ++
                ["Failed to list " ++ pathStr root (rel ++ [n]) ++ ": " ++ e],
              dirSummaries := acc.dirSummaries
                ++ [(rel ++ [n], ⟨rel ++ [n], 0, 0, 0⟩)] }).2.1,
          1 + (walkChildren opts root rel rest
            { acc with
              errors := acc.errors ++
                ["Failed to list " ++ pathStr root (rel ++ [n]) ++ ": " ++ e],
              dirSummaries := acc.dirSummaries
                ++ [(rel ++ [n], ⟨rel ++ [n], 0, 0, 0⟩)] }).2.2.1,
          (walkChildren opts root rel rest
            { acc with
              errors := acc.errors ++
                ["Failed to list " ++ pathStr root (rel ++ [n]) ++ ": " ++ e],
              dirSummaries := acc.dirSummaries
                ++ [(rel ++ [n], ⟨rel ++ [n], 0, 0, 0⟩)] }).2.2.2))
    ∧ (∀ (listExc : Option String) (children : List FSTree) (nl : Int),
        (scanDirRoot root listExc children opts nl).errors
          = (walkDir opts root [] listExc children emptyAcc).2.errors) := by
  refine ⟨?_, ?_, fun _ _ _ => rfl⟩
  · have he : walkEntry opts root rel (.file n sz mt sym (some e)) acc
        = (0, 0, 0, { acc with errors := acc.errors ++
            ["Failed to stat file " ++ pathStr root (rel ++ [n]) ++ ": " ++ e] }) := by
      simp [walkEntry, hskip, hsym]
    show ((walkEntry opts root rel (.file n sz mt sym (some e)) acc).1 + _,
        _ + _, _ + _, _) = _
    rw [he]
    dsimp only
    simp
  · have he : walkEntry opts root rel (.dir n sym (some e) cs) acc
        = (0, 0, 1, { acc with
            errors := acc.errors ++
              ["Failed to list " ++ pathStr root (rel ++ [n]) ++ ": " ++ e],
            dirSummaries := acc.dirSummaries
              ++ [(rel ++ [n], ⟨rel ++ [n], 0, 0, 0⟩)] }) := by
      simp [walkEntry, hskip, hsym]
    show ((walkEntry opts root rel (.dir n sym (some e) cs) acc).1 + _,
        _ + _, _ + _, _) = _
    rw [he]
    dsimp only
    simp

/-- C9 (witness): the per-entry-failure theorem applied to a scan of
`r` containing one unreadable file `f`, with plain options (no globs, no
hidden files included, no symlink following). -/
theorem C9_per_entry_failure_witness :
    (shouldSkip ⟨false, false, fun _ => false⟩ (posixOf ["f"]) "f" = false)
    ∧ ((false && !(false : Bool)) = false)
    ∧ (walkChildren ⟨false, false, fun _ => false⟩ "r" []
        [.file "f" 3 0 false (some "denied")] emptyAcc
      = walkChildren ⟨false, false, fun _ => false⟩ "r" [] []
          { emptyAcc with errors := emptyAcc.errors ++
              ["Failed to stat file " ++ pathStr "r" ["f"] ++ ": " ++ "denied"] }) :=
  ⟨rfl, rfl,
   (C9_per_entry_failure ⟨false, false, fun _ => false⟩ "r" [] "f" 3 0 false
     "denied" [] [] emptyAcc rfl rfl).1⟩

/-! ## Part III: structure of the walk's summary list -/

theorem walkChildren_cons_eq (opts : ScanOptions) (root : String)
    (rel : List String) (t : FSTree) (ts : List FSTree) (acc : ScanAcc) :
    walkChildren opts root rel (t :: ts) acc
      = ((walkEntry opts root rel t acc).1
          + (walkChildren opts root rel ts (walkEntry opts root rel t acc).2.2.2).1,
        (walkEntry opts root rel t acc).2.1
          + (walkChildren opts root rel ts (walkEntry opts root rel t acc).2.2.2).2.1,
        (walkEntry opts root rel t acc).2.2.1
          + (walkChildren opts root rel ts (walkEntry opts root rel t acc).2.2.2).2.2.1,
        (walkChildren opts root rel ts (walkEntry opts root rel t acc).2.2.2).2.2.2) := rfl

theorem walk_cons_combine (opts : ScanOptions) (root : String) (t : FSTree)
    (ts : List FSTree) (hE : entryAccFacts opts root t)
    (hT : forestAccFacts opts root ts) :
    forestAccFacts opts root (t :: ts) := by
  intro rel acc
  rw [walkChildren_cons_eq opts root rel t ts acc,
    walkChildren_cons_eq opts root rel t ts emptyAcc]
  dsimp only
  obtain ⟨e1, e2, e3, e4⟩ := hE rel acc
  obtain ⟨f1, f2, f3, f4⟩ := hE rel emptyAcc
  obtain ⟨a1, a2, a3, a4⟩ := hT rel (walkEntry opts root rel t acc).2.2.2
  obtain ⟨b1, b2, b3, b4⟩ := hT rel (walkEntry opts root rel t emptyAcc).2.2.2
  have hws : walkSumms opts root rel (t :: ts)
      = entrySumms opts root rel t ++ walkSumms opts root rel ts := by
    show (walkChildren opts root rel (t :: ts) emptyAcc).2.2.2.dirSummaries = _
    rw [walkChildren_cons_eq opts root rel t ts emptyAcc]
    dsimp only
    rw [b4, f4]
    simp [emptyAcc]
  refine ⟨by rw [a1, b1, e1], by rw [a2, b2, e2], by rw [a3, b3, e3], ?_⟩
  rw [a4, e4, hws]
  simp

theorem walk_acc_facts (opts : ScanOptions) (root : String) :
    ∀ ts : List FSTree, forestAccFacts opts root ts := by
  intro ts
  induction ts using walkInduct with
  | hnil =>
    intro rel acc
    refine ⟨rfl, rfl, rfl, ?_⟩
    show acc.dirSummaries = acc.dirSummaries ++ emptyAcc.dirSummaries
    simp [emptyAcc]
  | hfile n s m sym e ts ih =>
    refine walk_cons_combine opts root _ ts ?_ ih
    intro rel acc
    cases h1 : shouldSkip opts (posixOf (rel ++ [n])) n with
    | true =>
      refine ⟨by simp [walkEntry, h1], by simp [walkEntry, h1],
        by simp [walkEntry, h1], ?_⟩
      simp [walkEntry, entrySumms, h1, emptyAcc]
    | false =>
      cases h2 : sym && !opts.follow_symlinks with
      | true =>
        refine ⟨by simp [walkEntry, h1, h2], by simp [walkEntry, h1, h2],
          by simp [walkEntry, h1, h2], ?_⟩
        simp [walkEntry, entrySumms, h1, h2, emptyAcc]
      | false =>
        cases e with
        | some msg =>
          refine ⟨by simp [walkEntry, h1, h2], by simp [walkEntry, h1, h2],
            by simp [walkEntry, h1, h2], ?_⟩
          simp [walkEntry, entrySumms, h1, h2, emptyAcc]
        | none =>
          refine ⟨by simp [walkEntry, h1, h2], by simp [walkEntry, h1, h2],
            by simp [walkEntry, h1, h2], ?_⟩
          simp [walkEntry, entrySumms, record_file, h1, h2, emptyAcc]
  | hother n ts ih =>
    refine walk_cons_combine opts root _ ts ?_ ih
    intro rel acc
    refine ⟨rfl, rfl, rfl, ?_⟩
    simp [walkEntry, entrySumms, emptyAcc]
  | hdir n sym e cs ts ihc iht =>
    refine walk_cons_combine opts root _ ts ?_ iht
    intro rel acc
    cases h1 : shouldSkip opts (posixOf (rel ++ [n])) n with
    | true =>
      refine ⟨by simp [walkEntry, h1], by simp [walkEntry, h1],
        by simp [walkEntry, h1], ?_⟩
      simp [walkEntry, entrySumms, h1, emptyAcc]
    | false =>
      cases h2 : sym && !opts.follow_symlinks with
      | true =>
        refine ⟨by simp [walkEntry, h1, h2], by simp [walkEntry, h1, h2],
          by simp [walkEntry, h1, h2], ?_⟩
        simp [walkEntry, entrySumms, h1, h2, emptyAcc]
      | false =>
        cases e with
        | some msg =>
          refine ⟨by simp [walkEntry, h1, h2], by simp [walkEntry, h1, h2],
            by simp [walkEntry, h1, h2], ?_⟩
          simp [walkEntry, entrySumms, h1, h2, emptyAcc]
        | none =>
          obtain ⟨c1, c2, c3, c4⟩ := ihc (rel ++ [n]) acc
          have he : ∀ acc' : ScanAcc, walkEntry opts root rel (.dir n sym none cs) acc'
              = ((walkChildren opts root (rel ++ [n]) cs acc').1,
                (walkChildren opts root (rel ++ [n]) cs acc').2.1,
                1 + (walkChildren opts root (rel ++ [n]) cs acc').2.2.1,
                ⟨(walkChildren opts root (rel ++ [n]) cs acc').2.2.2.extBytes,
                 (walkChildren opts root (rel ++ [n]) cs acc').2.2.2.extCounts,
                 (walkChildren opts root (rel ++ [n]) cs acc').2.2.2.largest,
                 (walkChildren opts root (rel ++ [n]) cs acc').2.2.2.dirSummaries
                   ++ [(rel ++ [n],
                     ⟨rel ++ [n], (walkChildren opts root (rel ++ [n]) cs acc').1,
                       (walkChildren opts root (rel ++ [n]) cs acc').2.1,
                       (walkChildren opts root (rel ++ [n]) cs acc').2.2.1⟩)],
                 (walkChildren opts root (rel ++ [n]) cs acc').2.2.2.errors⟩) := by
            intro acc'
            simp [walkEntry, h1, h2]
          rw [he acc, he emptyAcc]
          dsimp only
          refine ⟨c1, c2, by rw [c3], ?_⟩
          rw [c4]
          show acc.dirSummaries ++ walkSumms opts root (rel ++ [n]) cs
              ++ [(rel ++ [n], _)]
            = acc.dirSummaries ++ entrySumms opts root rel (.dir n sym none cs)
          have hent : entrySumms opts root rel (.dir n sym none cs)
              = walkSumms opts root (rel ++ [n]) cs
                ++ [(rel ++ [n],
                  ⟨rel ++ [n], (walkChildren opts root (rel ++ [n]) cs emptyAcc).1,
                    (walkChildren opts root (rel ++ [n]) cs emptyAcc).2.1,
                    (walkChildren opts root (rel ++ [n]) cs emptyAcc).2.2.1⟩)] := by
            show (walkEntry opts root rel (.dir n sym none cs) emptyAcc).2.2.2.dirSummaries = _
            rw [he emptyAcc]
            dsimp only
            obtain ⟨-, -, -, d4⟩ := ihc (rel ++ [n]) emptyAcc
            rw [d4]
            rfl
          rw [hent, c1, c2, c3]
          simp

theorem walkChildren_nil (opts : ScanOptions) (root : String)
    (rel : List String) (acc : ScanAcc) :
    walkChildren opts root rel [] acc = (0, 0, 0, acc) := rfl

theorem entryAccFacts_all (opts : ScanOptions) (root : String) (t : FSTree) :
    entryAccFacts opts root t := by
  intro rel acc
  have h := walk_acc_facts opts root [t] rel acc
  simp only [walkChildren_cons_eq, walkChildren_nil] at h
  obtain ⟨h1, h2, h3, h4⟩ := h
  exact ⟨by simpa using h1, by simpa using h2, by simpa using h3, h4⟩

theorem walkSumms_nil (opts : ScanOptions) (root : String)
    (rel : List String) : walkSumms opts root rel [] = [] := rfl

theorem walkSumms_cons (opts : ScanOptions) (root : String)
    (rel : List String) (t : FSTree) (ts : List FSTree) :
    walkSumms opts root rel (t :: ts)
      = entrySumms opts root rel t ++ walkSumms opts root rel ts := by
  show (walkChildren opts root rel (t :: ts) emptyAcc).2.2.2.dirSummaries = _
  rw [walkChildren_cons_eq]
  dsimp only
  obtain ⟨-, -, -, h4⟩ :=
    walk_acc_facts opts root ts rel (walkEntry opts root rel t emptyAcc).2.2.2
  rw [h4]
  obtain ⟨-, -, -, e4⟩ := entryAccFacts_all opts root t rel emptyAcc
  rw [e4]
  simp [emptyAcc]

/-- The per-constructor values of `entrySumms`: nothing for files, other
nodes and skipped entries; a single zero summary for an unlistable
directory; the subtree's summaries followed by the post-order summary for
a readable directory. -/
theorem entrySumms_file (opts : ScanOptions) (root : String)
    (rel : List String) (n : String) (s : Nat) (m : Int) (sym : Bool)
    (e : Option String) :
    entrySumms opts root rel (.file n s m sym e) = [] := by
  unfold entrySumms walkEntry
  cases h1 : shouldSkip opts (posixOf (rel ++ [n])) n
  · cases h2 : sym && !opts.follow_symlinks
    · cases e <;> simp [h1, h2, record_file, emptyAcc]
    · simp [h1, h2, emptyAcc]
  · simp [h1, emptyAcc]

theorem entrySumms_other (opts : ScanOptions) (root : String)
    (rel : List String) (n : String) :
    entrySumms opts root rel (.other n) = [] := rfl

theorem entrySumms_dir_skip (opts : ScanOptions) (root : String)
    (rel : List String) (n : String) (sym : Bool) (e : Option String)
    (cs : List FSTree)
    (h : includedEntry opts rel (.dir n sym e cs) = false) :
    entrySumms opts root rel (.dir n sym e cs) = [] := by
  unfold entrySumms walkEntry
  cases h1 : shouldSkip opts (posixOf (rel ++ [n])) n with
  | true => simp [h1, emptyAcc]
  | false =>
    cases h2 : sym && !opts.follow_symlinks with
    | true => simp [h1, h2, emptyAcc]
    | false =>
      exfalso
      simp [includedEntry, entryName, entryIsSymlink, h1, h2] at h

theorem entrySumms_dir_exc (opts : ScanOptions) (root : String)
    (rel : List String) (n : String) (sym : Bool) (msg : String)
    (cs : List FSTree)
    (h : includedEntry opts rel (.dir n sym (some msg) cs) = true) :
    entrySumms opts root rel (.dir n sym (some msg) cs)
      = [(rel ++ [n], ⟨rel ++ [n], 0, 0, 0⟩)] := by
  unfold entrySumms walkEntry
  simp only [includedEntry, entryName, entryIsSymlink, Bool.and_eq_true,
    Bool.not_eq_true'] at h
  simp [h.1, h.2, emptyAcc]

theorem entrySumms_dir_ok (opts : ScanOptions) (root : String)
    (rel : List String) (n : String) (sym : Bool) (cs : List FSTree)
    (h : includedEntry opts rel (.dir n sym none cs) = true) :
    entrySumms opts root rel (.dir n sym none cs)
      = walkSumms opts root (rel ++ [n]) cs
        ++ [(rel ++ [n], walkTotalsSumm opts root (rel ++ [n]) cs)] := by
  unfold entrySumms walkEntry
  simp only [includedEntry, entryName, entryIsSymlink, Bool.and_eq_true,
    Bool.not_eq_true'] at h
  simp only [h.1, h.2, Bool.false_eq_true, if_false]
  rfl

/-- Key shape: every summary the walk records for a forest at `rel` is
keyed at a path that extends `rel` by the name of one of the entries and
then possibly further segments. -/
theorem walkSumms_key_shape (opts : ScanOptions) (root : String) :
    ∀ (ts : List FSTree) (rel : List String) (q : List String × DirSummary),
      q ∈ walkSumms opts root rel ts →
      ∃ t ∈ ts, ∃ u, q.1 = rel ++ entryName t :: u := by
  intro ts
  induction ts using walkInduct with
  | hnil => intro rel q hq; simp [walkSumms_nil] at hq
  | hfile n s m sym e ts ih =>
    intro rel q hq
    rw [walkSumms_cons, entrySumms_file] at hq
    simp only [List.nil_append] at hq
    obtain ⟨t, ht, u, hu⟩ := ih rel q hq
    exact ⟨t, List.mem_cons_of_mem _ ht, u, hu⟩
  | hother n ts ih =>
    intro rel q hq
    rw [walkSumms_cons, entrySumms_other] at hq
    simp only [List.nil_append] at hq
    obtain ⟨t, ht, u, hu⟩ := ih rel q hq
    exact ⟨t, List.mem_cons_of_mem _ ht, u, hu⟩
  | hdir n sym e cs ts ihc iht =>
    intro rel q hq
    rw [walkSumms_cons] at hq
    rcases List.mem_append.mp hq with hq | hq
    · cases hinc : includedEntry opts rel (.dir n sym e cs) with
      | false => rw [entrySumms_dir_skip opts root rel n sym e cs hinc] at hq; simp at hq
      | true =>
        cases e with
        | some msg =>
          rw [entrySumms_dir_exc opts root rel n sym msg cs hinc] at hq
          simp only [List.mem_singleton] at hq
          exact ⟨.dir n sym (some msg) cs, List.mem_cons_self _ _,
            [], by rw [hq]; rfl⟩
        | none =>
          rw [entrySumms_dir_ok opts root rel n sym cs hinc] at hq
          rcases List.mem_append.mp hq with hq | hq
          · obtain ⟨t, ht, u, hu⟩ := ihc (rel ++ [n]) q hq
            exact ⟨.dir n sym none cs, List.mem_cons_self _ _,
              entryName t :: u, by rw [hu]; simp [entryName]⟩
          · simp only [List.mem_singleton] at hq
            exact ⟨.dir n sym none cs, List.mem_cons_self _ _,
              [], by rw [hq]; rfl⟩
    · obtain ⟨t, ht, u, hu⟩ := iht rel q hq
      exact ⟨t, List.mem_cons_of_mem _ ht, u, hu⟩

theorem childSumOf_nil (p : List String) : childSumOf [] p = 0 := rfl

theorem childSumOf_append (S1 S2 : List (List String × DirSummary))
    (p : List String) :
    childSumOf (S1 ++ S2) p = childSumOf S1 p + childSumOf S2 p := by
  unfold childSumOf
  rw [List.filter_append, List.map_append, List.sum_append]

theorem childSumOf_root_entry (s : DirSummary) (p : List String) :
    childSumOf [([], s)] p = 0 := by
  simp [childSumOf]

/-- A path of the shape `rel ++ m :: u` is never an immediate parent of a
key recorded below a sibling whose name differs from `m`. -/
theorem childSumOf_block_ne (opts : ScanOptions) (root : String)
    (ts : List FSTree) (rel : List String) (m : String)
    (hm : ∀ t ∈ ts, entryName t ≠ m) (u : List String) :
    childSumOf (walkSumms opts root rel ts) (rel ++ m :: u) = 0 := by
  unfold childSumOf
  have hfil : (walkSumms opts root rel ts).filter
      (fun e => decide (e.1 ≠ []) && decide (e.1.dropLast = rel ++ m :: u)) = [] := by
    apply List.filter_eq_nil_iff.mpr
    intro e he
    obtain ⟨t, ht, w, hw⟩ := walkSumms_key_shape opts root ts rel e he
    simp only [Bool.and_eq_true, decide_eq_true_eq, not_and]
    intro _
    rw [hw]
    cases w with
    | nil =>
      rw [List.dropLast_concat]
      intro hcon
      have := congrArg List.length hcon
      simp at this
    | cons v w' =>
      rw [List.dropLast_append_cons]
      intro hcon
      have := List.append_cancel_left hcon
      rw [show (entryName t :: v :: w').dropLast = entryName t :: (v :: w').dropLast
        from @List.dropLast_append_cons String [entryName t] v w'] at this
      exact hm t ht (List.cons.injEq .. ▸ this).1
  rw [hfil]
  rfl

/-- Keys recorded strictly below `rel'` are too long for their parent to
be any path shorter than `rel'`. -/
theorem childSumOf_short (opts : ScanOptions) (root : String)
    (ts : List FSTree) (rel' p : List String) (hp : p.length < rel'.length) :
    childSumOf (walkSumms opts root rel' ts) p = 0 := by
  unfold childSumOf
  have hfil : (walkSumms opts root rel' ts).filter
      (fun e => decide (e.1 ≠ []) && decide (e.1.dropLast = p)) = [] := by
    apply List.filter_eq_nil_iff.mpr
    intro e he
    obtain ⟨t, ht, w, hw⟩ := walkSumms_key_shape opts root ts rel' e he
    simp only [Bool.and_eq_true, decide_eq_true_eq, not_and]
    intro _ hcon
    have hlen := congrArg List.length hcon
    rw [hw] at hlen
    simp [List.length_dropLast] at hlen
    omega
  rw [hfil]
  rfl

/-- The child sum a subtree's own summaries produce at the subtree's
root: the sum of the walked totals of the included direct
subdirectories. -/
theorem childSumOf_walkSumms_self (opts : ScanOptions) (root : String) :
    ∀ (ts : List FSTree) (rel : List String),
      childSumOf (walkSumms opts root rel ts) rel
        = ((includedSubdirs opts rel ts).map (walkSizeOf opts root rel)).sum := by
  intro ts
  induction ts using walkInduct with
  | hnil => intro rel; simp [walkSumms_nil, childSumOf_nil, includedSubdirs]
  | hfile n s m sym e ts ih =>
    intro rel
    rw [walkSumms_cons, entrySumms_file, List.nil_append, ih,
      includedSubdirs_cons_sum opts root]
    simp [isDirB]
  | hother n ts ih =>
    intro rel
    rw [walkSumms_cons, entrySumms_other, List.nil_append, ih,
      includedSubdirs_cons_sum opts root]
    simp [isDirB]
  | hdir n sym e cs ts ihc iht =>
    intro rel
    rw [walkSumms_cons, childSumOf_append, iht,
      includedSubdirs_cons_sum opts root]
    cases hinc : includedEntry opts rel (.dir n sym e cs) with
    | false =>
      rw [entrySumms_dir_skip opts root rel n sym e cs hinc, childSumOf_nil]
      simp [hinc]
    | true =>
      cases e with
      | some msg =>
        rw [entrySumms_dir_exc opts root rel n sym msg cs hinc]
        have h1 : childSumOf [(rel ++ [n], (⟨rel ++ [n], 0, 0, 0⟩ : DirSummary))] rel
            = 0 := by
          simp [childSumOf, List.filter, List.dropLast_concat]
        rw [h1]
        simp [hinc, isDirB, walkSizeOf, walkDir]
      | none =>
        rw [entrySumms_dir_ok opts root rel n sym cs hinc, childSumOf_append,
          childSumOf_short opts root cs (rel ++ [n]) rel (by simp)]
        have h1 : childSumOf [(rel ++ [n], walkTotalsSumm opts root (rel ++ [n]) cs)] rel
            = (walkTotalsSumm opts root (rel ++ [n]) cs).size_bytes := by
          simp [childSumOf, List.filter, List.dropLast_concat]
        rw [h1]
        have h2 : walkSizeOf opts root rel (.dir n sym none cs)
            = (walkTotalsSumm opts root (rel ++ [n]) cs).size_bytes := rfl
        simp [hinc, isDirB, h2]

theorem addBucket_sumVals (g : List (String × Nat)) (l : String) (s : Nat) :
    sumVals (addBucket g l s) = sumVals g + s := by
  unfold addBucket
  split
  · omega
  · exact bump_sumVals g l s

theorem dirBucketsStep_sumVals (S : List (List String × DirSummary))
    (depth : Nat) (g : List (String × Nat)) (e : List String × DirSummary) :
    sumVals (if e.1 = [] then g
      else
        let direct := e.2.size_bytes - childSumOf S e.1
        if depth = 0 then addBucket g (posixOf e.1 ++ "/·files") direct
        else if e.1.length < depth then addBucket g (posixOf e.1 ++ "/·files") direct
        else if e.1.length = depth then addBucket g (posixOf e.1 ++ "/") e.2.size_bytes
        else g)
      = sumVals g + bucketContrib S depth e := by
  unfold bucketContrib
  by_cases h0 : e.1 = []
  · simp [h0]
  · simp only [h0, if_false]
    by_cases h1 : depth = 0
    · simp [h1, addBucket_sumVals]
    · simp only [h1, if_false]
      by_cases h2 : e.1.length < depth
      · simp [h2, addBucket_sumVals]
      · simp only [h2, if_false]
        by_cases h3 : e.1.length = depth
        · simp [h3, addBucket_sumVals]
        · simp [h3]

theorem dirBuckets_foldl_sum (S : List (List String × DirSummary))
    (depth : Nat) :
    ∀ (L : List (List String × DirSummary)) (g : List (String × Nat)),
      sumVals (L.foldl (fun g e =>
        if e.1 = [] then g
        else
          let direct := e.2.size_bytes - childSumOf S e.1
          if depth = 0 then addBucket g (posixOf e.1 ++ "/·files") direct
          else if e.1.length < depth then addBucket g (posixOf e.1 ++ "/·files") direct
          else if e.1.length = depth then addBucket g (posixOf e.1 ++ "/") e.2.size_bytes
          else g) g)
        = sumVals g + (L.map (bucketContrib S depth)).sum := by
  intro L
  induction L with
  | nil => intro g; simp
  | cons e L ih =>
    intro g
    rw [List.foldl_cons, ih, dirBucketsStep_sumVals]
    simp [Nat.add_assoc]

theorem dirBuckets_sumVals (S : List (List String × DirSummary))
    (depth : Nat) (g : List (String × Nat)) :
    sumVals (dirBuckets S depth g)
      = sumVals g + (S.map (bucketContrib S depth)).sum := by
  unfold dirBuckets
  exact dirBuckets_foldl_sum S depth S g

theorem rootFilesFold_sum :
    ∀ (cs : List FSTree) (g : List (String × Nat)),
      sumVals (cs.foldl (fun g c =>
        match c with
        | .file nm sz _ _ none => addBucket g nm sz
        | _ => g) g)
        = sumVals g + rootFilesSum cs := by
  intro cs
  induction cs with
  | nil => intro g; simp [rootFilesSum]
  | cons c cs ih =>
    intro g
    rw [List.foldl_cons, ih]
    cases c with
    | file nm sz m sym e =>
      cases e with
      | none => simp [rootFilesSum, addBucket_sumVals, Nat.add_assoc]
      | some msg => simp [rootFilesSum]
    | dir n sym e cs' => simp [rootFilesSum]
    | other n => simp [rootFilesSum]

theorem rootFileBuckets_sumVals (rn : String) (rs : Bool) (cs : List FSTree)
    (g : List (String × Nat)) :
    sumVals (rootFileBuckets (.dir rn rs none cs) g)
      = sumVals g + rootFilesSum cs := by
  unfold rootFileBuckets
  exact rootFilesFold_sum cs g

theorem rootFilesSum_eq_direct (opts : ScanOptions) :
    ∀ cs : List FSTree, (∀ c ∈ cs, rootFileOkP opts c) →
      rootFilesSum cs = directFilesSize opts [] cs := by
  intro cs
  induction cs with
  | nil => intro _; rfl
  | cons c cs ih =>
    intro h
    have hc := h c (List.mem_cons_self _ _)
    have htail := ih (fun c' hc' => h c' (List.mem_cons_of_mem _ hc'))
    cases c with
    | file nm sz m sym e =>
      cases e with
      | none =>
        have hinc : includedEntry opts [] (.file nm sz m sym none) = true := hc
        simp [rootFilesSum, directFilesSize, hinc, htail]
      | some msg =>
        simp only [rootFilesSum, directFilesSize, htail]
        split <;> omega
    | dir n sym e cs' =>
      simp only [rootFilesSum, directFilesSize, htail]
      split <;> omega
    | other n =>
      simp only [rootFilesSum, directFilesSize, htail]
      split <;> omega

theorem filter_pos_sumVals (g : List (String × Nat)) :
    ((g.filter (fun kv => decide (0 < kv.2))).map (fun kv => kv.2)).sum
      = sumVals g := by
  induction g with
  | nil => rfl
  | cons kv g ih =>
    obtain ⟨k, v⟩ := kv
    rw [List.filter_cons]
    by_cases hv : 0 < v
    · have hd : decide (0 < v) = true := by simpa using hv
      rw [if_pos hd, List.map_cons, List.sum_cons, ih]
      simp [sumVals]
    · have hd : decide (0 < v) = false := by simpa using hv
      have hv0 : v = 0 := by omega
      rw [if_neg (by simp [hd]), ih]
      simp [sumVals, hv0]

theorem sumSizes_group (tree : FSTree) (scan : ScanResult) (depth : Nat) :
    sumSizes (group_sizes_for_treemap tree scan depth)
      = sumVals (dirBuckets scan.dir_summaries depth
          (rootFileBuckets tree [])) := by
  unfold group_sizes_for_treemap sumSizes
  dsimp only
  have hperm := sortDescBy_perm (fun it : TreemapItem => it.size)
    (List.map (fun kv => TreemapItem.mk kv.1 kv.2)
      (List.filter (fun kv => decide (0 < kv.2))
        (dirBuckets scan.dir_summaries depth (rootFileBuckets tree []))))
  rw [(hperm.map (fun it : TreemapItem => it.size)).sum_eq, List.map_map]
  exact filter_pos_sumVals _

theorem walkSumms_singleton (opts : ScanOptions) (root : String)
    (rel : List String) (t : FSTree) :
    walkSumms opts root rel [t] = entrySumms opts root rel t := by
  rw [walkSumms_cons, walkSumms_nil, List.append_nil]

theorem childSumOf_single_ne (k : List String) (s : DirSummary)
    (p : List String) (h : ¬(k ≠ [] ∧ k.dropLast = p)) :
    childSumOf [(k, s)] p = 0 := by
  unfold childSumOf
  have hf : List.filter (fun e => decide (e.1 ≠ []) && decide (e.1.dropLast = p))
      [(k, s)] = [] := by
    apply List.filter_eq_nil_iff.mpr
    intro e he
    simp only [List.mem_singleton] at he
    subst he
    simp only [Bool.and_eq_true, decide_eq_true_eq]
    exact h
  rw [hf]
  rfl

theorem childSumOf_single_eq (k : List String) (s : DirSummary)
    (p : List String) (h1 : k ≠ []) (h2 : k.dropLast = p) :
    childSumOf [(k, s)] p = s.size_bytes := by
  unfold childSumOf
  have hf : List.filter (fun e => decide (e.1 ≠ []) && decide (e.1.dropLast = p))
      [(k, s)] = [(k, s)] := by
    apply List.filter_eq_self.mpr
    intro e he
    simp only [List.mem_singleton] at he
    subst he
    simp only [Bool.and_eq_true, decide_eq_true_eq]
    exact ⟨h1, h2⟩
  rw [hf]
  simp

/-- The telescoping sum of step 2's bucket contributions over the
summaries of a walked forest: above or at the grouping boundary the
blocks sum to the walked totals of the included direct subdirectories;
strictly below the boundary they vanish. -/
theorem walkSumms_bucket_sum (opts : ScanOptions) (root : String)
    (depth : Nat) :
    ∀ (ts : List FSTree) (rel : List String)
      (S : List (List String × DirSummary)),
      distinctB (ts.map entryName) = true →
      wfForestList ts = true →
      (∀ q ∈ walkSumms opts root rel ts,
        childSumOf S q.1 = childSumOf (walkSumms opts root rel ts) q.1) →
      ((walkSumms opts root rel ts).map (bucketContrib S depth)).sum
        = if depth = 0 ∨ rel.length + 1 ≤ depth
          then ((includedSubdirs opts rel ts).map (walkSizeOf opts root rel)).sum
          else 0 := by
  intro ts
  induction ts using walkInduct with
  | hnil =>
    intro rel S _ _ _
    simp [walkSumms_nil, includedSubdirs]
  | hfile n s m sym e ts ih =>
    intro rel S hdist hwf hloc
    rw [walkSumms_cons, entrySumms_file, List.nil_append] at hloc ⊢
    have hdist' : distinctB (ts.map entryName) = true := by
      simp only [List.map_cons, distinctB, Bool.and_eq_true] at hdist
      exact hdist.2
    have hwf' : wfForestList ts = true := by
      simp only [wfForestList, Bool.and_eq_true] at hwf
      exact hwf.2
    rw [ih rel S hdist' hwf' hloc, includedSubdirs_cons_sum opts root]
    simp [isDirB]
  | hother n ts ih =>
    intro rel S hdist hwf hloc
    rw [walkSumms_cons, entrySumms_other, List.nil_append] at hloc ⊢
    have hdist' : distinctB (ts.map entryName) = true := by
      simp only [List.map_cons, distinctB, Bool.and_eq_true] at hdist
      exact hdist.2
    have hwf' : wfForestList ts = true := by
      simp only [wfForestList, Bool.and_eq_true] at hwf
      exact hwf.2
    rw [ih rel S hdist' hwf' hloc, includedSubdirs_cons_sum opts root]
    simp [isDirB]
  | hdir n sym e cs ts ihc iht =>
    intro rel S hdist hwf hloc
    have hdist' : distinctB (ts.map entryName) = true := by
      simp only [List.map_cons, distinctB, Bool.and_eq_true] at hdist
      exact hdist.2
    have hnames : ∀ t' ∈ ts, entryName t' ≠ n := by
      intro t' ht' hcon
      simp only [List.map_cons, distinctB, Bool.and_eq_true,
        Bool.not_eq_true', entryName] at hdist
      have hmem : n ∈ ts.map entryName := List.mem_map.mpr ⟨t', ht', hcon⟩
      have helem : (ts.map entryName).contains n = true := List.elem_iff.mpr hmem
      rw [helem] at hdist
      exact absurd hdist.1 (by simp)
    have hwfd : wfTree (.dir n sym e cs) = true ∧ wfForestList ts = true := by
      simp only [wfForestList, Bool.and_eq_true] at hwf
      exact hwf
    rw [walkSumms_cons] at hloc ⊢
    rw [List.map_append, List.sum_append]
    have hlocT : ∀ q ∈ walkSumms opts root rel ts,
        childSumOf S q.1 = childSumOf (walkSumms opts root rel ts) q.1 := by
      intro q hq
      have h1 := hloc q (List.mem_append.mpr (Or.inr hq))
      rw [childSumOf_append] at h1
      obtain ⟨t'', ht'', u, hu⟩ := walkSumms_key_shape opts root ts rel q hq
      have hcross : childSumOf (entrySumms opts root rel (.dir n sym e cs)) q.1
          = 0 := by
        rw [← walkSumms_singleton, hu]
        refine childSumOf_block_ne opts root [.dir n sym e cs] rel
          (entryName t'') ?_ u
        intro t ht
        simp only [List.mem_singleton] at ht
        subst ht
        exact fun hcon => hnames t'' ht'' (by rw [← hcon]; rfl)
      rw [hcross, Nat.zero_add] at h1
      exact h1
    have htail := iht rel S hdist' hwfd.2 hlocT
    cases hinc : includedEntry opts rel (.dir n sym e cs) with
    | false =>
      rw [entrySumms_dir_skip opts root rel n sym e cs hinc, htail,
        includedSubdirs_cons_sum opts root]
      simp [hinc]
    | true =>
      cases e with
      | some msg =>
        rw [entrySumms_dir_exc opts root rel n sym msg cs hinc, htail,
          includedSubdirs_cons_sum opts root]
        have hcontrib : bucketContrib S depth
            (rel ++ [n], (⟨rel ++ [n], 0, 0, 0⟩ : DirSummary)) = 0 := by
          unfold bucketContrib
          split_ifs <;> simp
        have hwsz : walkSizeOf opts root rel (.dir n sym (some msg) cs) = 0 := rfl
        by_cases hcond : depth = 0 ∨ rel.length + 1 ≤ depth
        · simp [hcond, hcontrib, hinc, isDirB, hwsz]
        · simp [hcond, hcontrib]
      | none =>
        rw [entrySumms_dir_ok opts root rel n sym cs hinc] at hloc ⊢
        rw [List.map_append, List.sum_append]
        have hcsfacts : distinctB (cs.map entryName) = true
            ∧ (cs.map entryName).all okName = true
            ∧ wfForestList cs = true := by
          have hwft := hwfd.1
          simp only [wfTree, Bool.and_eq_true] at hwft
          exact ⟨hwft.1.1, hwft.1.2, hwft.2⟩
        have hcS : childSumOf S (rel ++ [n])
            = ((includedSubdirs opts (rel ++ [n]) cs).map
                (walkSizeOf opts root (rel ++ [n]))).sum := by
          have hPmem : ((rel ++ [n], walkTotalsSumm opts root (rel ++ [n]) cs) :
              List String × DirSummary)
              ∈ (walkSumms opts root (rel ++ [n]) cs
                  ++ [(rel ++ [n], walkTotalsSumm opts root (rel ++ [n]) cs)])
                ++ walkSumms opts root rel ts := by simp
          have h1 := hloc _ hPmem
          rw [childSumOf_append, childSumOf_append] at h1
          have hsing : childSumOf
              [(rel ++ [n], walkTotalsSumm opts root (rel ++ [n]) cs)]
              (rel ++ [n]) = 0 := by
            apply childSumOf_single_ne
            rintro ⟨-, h2⟩
            rw [List.dropLast_concat] at h2
            simp at h2
          have hT0 : childSumOf (walkSumms opts root rel ts) (rel ++ [n]) = 0 :=
            childSumOf_block_ne opts root ts rel n hnames []
          rw [hsing, hT0, childSumOf_walkSumms_self opts root cs (rel ++ [n])] at h1
          simp only [Nat.add_zero] at h1
          exact h1
        have hlocI : ∀ q ∈ walkSumms opts root (rel ++ [n]) cs,
            childSumOf S q.1
              = childSumOf (walkSumms opts root (rel ++ [n]) cs) q.1 := by
          intro q hq
          have h2 := hloc q (by simp [hq])
          rw [childSumOf_append, childSumOf_append] at h2
          obtain ⟨t'', ht'', u, hu⟩ :=
            walkSumms_key_shape opts root cs (rel ++ [n]) q hq
          have hq1 : q.1 = rel ++ n :: entryName t'' :: u := by rw [hu]; simp
          have hsing : childSumOf
              [(rel ++ [n], walkTotalsSumm opts root (rel ++ [n]) cs)] q.1
              = 0 := by
            apply childSumOf_single_ne
            rintro ⟨-, h3⟩
            rw [List.dropLast_concat, hq1] at h3
            have hl := congrArg List.length h3
            simp at hl
          have hT0 : childSumOf (walkSumms opts root rel ts) q.1 = 0 := by
            rw [hq1]
            exact childSumOf_block_ne opts root ts rel n hnames
              (entryName t'' :: u)
          rw [hsing, hT0] at h2
          simp only [Nat.add_zero] at h2
          exact h2
        have hinner := ihc (rel ++ [n]) S hcsfacts.1 hcsfacts.2.2 hlocI
        have hlen : (rel ++ [n]).length = rel.length + 1 := by simp
        rw [hlen] at hinner
        have hsummsz : (walkTotalsSumm opts root (rel ++ [n]) cs).size_bytes
            = directFilesSize opts (rel ++ [n]) cs
              + ((includedSubdirs opts (rel ++ [n]) cs).map
                  (walkSizeOf opts root (rel ++ [n]))).sum := by
          show (walkChildren opts root (rel ++ [n]) cs emptyAcc).1 = _
          rw [walk_size_conservation opts root cs (rel ++ [n]) emptyAcc]
          exact includedFilesSize_split opts root cs (rel ++ [n])
        have hwsz0 : walkSizeOf opts root rel (.dir n sym none cs)
            = (walkTotalsSumm opts root (rel ++ [n]) cs).size_bytes := rfl
        have hcontrib : bucketContrib S depth
            (rel ++ [n], walkTotalsSumm opts root (rel ++ [n]) cs)
            = if depth = 0 then directFilesSize opts (rel ++ [n]) cs
              else if rel.length + 1 < depth then
                directFilesSize opts (rel ++ [n]) cs
              else if rel.length + 1 = depth then
                directFilesSize opts (rel ++ [n]) cs
                  + ((includedSubdirs opts (rel ++ [n]) cs).map
                      (walkSizeOf opts root (rel ++ [n]))).sum
              else 0 := by
          unfold bucketContrib
          dsimp only
          rw [if_neg (by simp : ¬(rel ++ [n] = [])), hcS, hsummsz, hlen]
          have hd : directFilesSize opts (rel ++ [n]) cs
              + ((includedSubdirs opts (rel ++ [n]) cs).map
                  (walkSizeOf opts root (rel ++ [n]))).sum
              - ((includedSubdirs opts (rel ++ [n]) cs).map
                  (walkSizeOf opts root (rel ++ [n]))).sum
              = directFilesSize opts (rel ++ [n]) cs := by omega
          simp only [hd]
        rw [htail, hinner, includedSubdirs_cons_sum opts root]
        simp only [List.map_cons, List.map_nil, List.sum_cons, List.sum_nil,
          Nat.add_zero]
        rw [hcontrib, hwsz0, hsummsz]
        simp [hinc, isDirB]
        split_ifs <;> omega

/-- C1 (amended): bucket conservation.  For every scanned directory tree
whose sibling names are distinct usable filesystem names, and whose
root-level regular files are all included by the scan's skip rules, the
sum of the sizes of all buckets returned by `group_sizes_for_treemap`
(before any truncation) equals the root's total size as computed by the
aggregator, for every grouping depth.  Without the root-file condition
step 1 of the source counts hidden, glob-ignored or symlinked root files
that the aggregator skipped, and conservation fails
(`C1_counterexample`). -/
theorem C1_bucket_conservation (root rn : String) (rs : Bool)
    (exc : Option String) (children : List FSTree) (opts : ScanOptions)
    (lf : Int) (depth : Nat) (res : ScanResult)
    (hscan : scan_directory root (some (.dir rn rs exc children)) opts lf
      = .ok res)
    (hwf : wfForest children = true)
    (hroot : ∀ c ∈ children, rootFileOkP opts c) :
    sumSizes (group_sizes_for_treemap (.dir rn rs exc children) res depth)
      = res.total_size_bytes := by
  have hres : res = scanDirRoot root exc children opts lf := by
    simp only [scan_directory, Except.ok.injEq] at hscan
    exact hscan.symm
  subst hres
  cases exc with
  | some msg => rfl
  | none =>
    rw [sumSizes_group]
    have hS : (scanDirRoot root none children opts lf).dir_summaries
        = walkSumms opts root [] children
          ++ [([], walkTotalsSumm opts root [] children)] := rfl
    rw [hS, dirBuckets_sumVals, rootFileBuckets_sumVals rn rs children [],
      List.map_append, List.sum_append]
    have hroot0 : bucketContrib
        (walkSumms opts root [] children
          ++ [([], walkTotalsSumm opts root [] children)]) depth
        ([], walkTotalsSumm opts root [] children) = 0 := by
      unfold bucketContrib
      simp
    have hloc : ∀ q ∈ walkSumms opts root [] children,
        childSumOf (walkSumms opts root [] children
            ++ [([], walkTotalsSumm opts root [] children)]) q.1
          = childSumOf (walkSumms opts root [] children) q.1 := by
      intro q _
      rw [childSumOf_append, childSumOf_root_entry, Nat.add_zero]
    have hwf' := hwf
    simp only [wfForest, Bool.and_eq_true] at hwf'
    have hts := walkSumms_bucket_sum opts root depth children []
      (walkSumms opts root [] children
        ++ [([], walkTotalsSumm opts root [] children)])
      hwf'.1.1 hwf'.2 hloc
    have hcond : depth = 0 ∨ ([] : List String).length + 1 ≤ depth := by
      simp only [List.length_nil]
      omega
    rw [if_pos hcond] at hts
    rw [hts, rootFilesSum_eq_direct opts children hroot]
    have htot : (scanDirRoot root none children opts lf).total_size_bytes
        = includedFilesSize opts [] children := by
      show (walkChildren opts root [] children emptyAcc).1 = _
      exact walk_size_conservation opts root children [] emptyAcc
    rw [htot, includedFilesSize_split opts root children []]
    simp only [List.map_cons, List.map_nil, List.sum_cons, List.sum_nil,
      hroot0, sumVals, List.map_nil, List.sum_nil]
    omega

/-- C1, counterexample to the claim as frozen: a hidden file directly in
the root (`.h`, 5 bytes, with `include_hidden = false`).  The aggregator
skips it, so the scan's total is 0; but step 1 of
`_group_sizes_for_treemap` iterates the root's entries without applying
the skip rules, so the bucketizer emits a 5-byte bucket for it and the
bucket sum is 5 ≠ 0. -/
theorem C1_counterexample :
    scan_directory "r"
        (some (.dir "r" false none [.file ".h" 5 0 false none]))
        (⟨false, false, fun _ => false⟩ : ScanOptions) 10
      = .ok (scanDirRoot "r" none [.file ".h" 5 0 false none]
          (⟨false, false, fun _ => false⟩ : ScanOptions) 10)
    ∧ (scanDirRoot "r" none [.file ".h" 5 0 false none]
        (⟨false, false, fun _ => false⟩ : ScanOptions) 10).total_size_bytes
      = 0
    ∧ sumSizes (group_sizes_for_treemap
        (.dir "r" false none [.file ".h" 5 0 false none])
        (scanDirRoot "r" none [.file ".h" 5 0 false none]
          (⟨false, false, fun _ => false⟩ : ScanOptions) 10) 1) = 5 := by
  exact ⟨rfl, by decide, by decide⟩

/-- C1, witness: the amended conservation theorem applied to a concrete
two-entry tree (a visible root file and a subdirectory with one file). -/
theorem C1_bucket_conservation_witness :
    sumSizes (group_sizes_for_treemap
        (.dir "r" false none
          [.file "a" 3 0 false none,
           .dir "d" false none [.file "b" 2 0 false none]])
        (scanDirRoot "r" none
          [.file "a" 3 0 false none,
           .dir "d" false none [.file "b" 2 0 false none]]
          (⟨false, false, fun _ => false⟩ : ScanOptions) 10) 1)
      = (scanDirRoot "r" none
          [.file "a" 3 0 false none,
           .dir "d" false none [.file "b" 2 0 false none]]
          (⟨false, false, fun _ => false⟩ : ScanOptions) 10).total_size_bytes :=
  C1_bucket_conservation "r" "r" false none
    [.file "a" 3 0 false none,
     .dir "d" false none [.file "b" 2 0 false none]]
    (⟨false, false, fun _ => false⟩ : ScanOptions) 10 1 _ rfl (by decide)
    (by
      intro c hc
      simp only [List.mem_cons, List.not_mem_nil, or_false] at hc
      rcases hc with rfl | rfl
      · show includedEntry _ [] _ = true
        decide
      · trivial)

theorem intercalate_go_data :
    ∀ (l : List String) (acc : String),
      (String.intercalate.go acc "/" l).data = acc.data ++ charJoinTail l := by
  intro l
  induction l with
  | nil => intro acc; simp [String.intercalate.go, charJoinTail]
  | cons b r ih =>
    intro acc
    show (String.intercalate.go (acc ++ "/" ++ b) "/" r).data = _
    rw [ih]
    simp [String.data_append, charJoinTail,
      show ("/" : String).data = ['/'] from rfl]

theorem posixOf_data_cons (a : String) (r : List String) :
    (posixOf (a :: r)).data = a.data ++ charJoinTail r := by
  show (String.intercalate.go a "/" r).data = _
  exact intercalate_go_data r a

theorem okName_data_ne_nil {n : String} (h : okName n = true) :
    n.data ≠ [] := by
  intro hd
  have hn : n = "" := String.ext hd
  rw [hn] at h
  simp [okName] at h

theorem okName_no_slash {n : String} (h : okName n = true) :
    '/' ∉ n.data := by
  intro hmem
  simp only [okName, Bool.and_eq_true, Bool.not_eq_true'] at h
  have : n.toList.contains '/' = true := List.elem_iff.mpr hmem
  rw [this] at h
  exact absurd h.2 (by simp)

theorem slash_split :
    ∀ (l1 l2 : List Char) (x y : List Char), '/' ∉ l1 → '/' ∉ l2 →
      l1 ++ '/' :: x = l2 ++ '/' :: y → l1 = l2 ∧ x = y := by
  intro l1
  induction l1 with
  | nil =>
    intro l2 x y _ h2 heq
    cases l2 with
    | nil => simpa using heq
    | cons d l2' =>
      exfalso
      simp only [List.nil_append, List.cons_append, List.cons.injEq] at heq
      exact h2 (heq.1 ▸ List.mem_cons_self _ _)
  | cons c l1' ih =>
    intro l2 x y h1 h2 heq
    cases l2 with
    | nil =>
      exfalso
      simp only [List.nil_append, List.cons_append, List.cons.injEq] at heq
      exact h1 (heq.1 ▸ List.mem_cons_self _ _)
    | cons d l2' =>
      simp only [List.cons_append, List.cons.injEq] at heq
      obtain ⟨rfl, heq'⟩ := heq
      obtain ⟨h3, h4⟩ := ih l2' x y (fun hm => h1 (List.mem_cons_of_mem _ hm))
        (fun hm => h2 (List.mem_cons_of_mem _ hm)) heq'
      exact ⟨by rw [h3], h4⟩

theorem posixOf_inj :
    ∀ (p : List String), p.all okName = true →
      ∀ (q : List String), q.all okName = true →
        posixOf p = posixOf q → p = q := by
  intro p
  induction p with
  | nil =>
    intro _ q hq heq
    cases q with
    | nil => rfl
    | cons b s =>
      exfalso
      have hd := congrArg String.data heq
      rw [posixOf_data_cons] at hd
      have hb : okName b = true := by simp [List.all_cons] at hq; exact hq.1
      have : b.data = [] ∧ charJoinTail s = [] :=
        List.append_eq_nil.mp hd.symm
      exact okName_data_ne_nil hb this.1
  | cons a r ih =>
    intro hp q hq heq
    have hpa : okName a = true ∧ r.all okName = true := by
      simpa [List.all_cons] using hp
    cases q with
    | nil =>
      exfalso
      have hd := congrArg String.data heq
      rw [posixOf_data_cons] at hd
      have : a.data = [] ∧ charJoinTail r = [] := List.append_eq_nil.mp hd
      exact okName_data_ne_nil hpa.1 this.1
    | cons b s =>
      have hqb : okName b = true ∧ s.all okName = true := by
        simpa [List.all_cons] using hq
      have hd : a.data ++ charJoinTail r = b.data ++ charJoinTail s := by
        rw [← posixOf_data_cons, ← posixOf_data_cons, heq]
      cases r with
      | nil =>
        cases s with
        | nil =>
          simp only [charJoinTail, List.append_nil] at hd
          rw [String.ext hd]
        | cons c s' =>
          exfalso
          simp only [charJoinTail, List.append_nil] at hd
          exact okName_no_slash hpa.1
            (hd ▸ List.mem_append_right _ (List.mem_cons_self _ _))
      | cons c r' =>
        cases s with
        | nil =>
          exfalso
          simp only [charJoinTail, List.append_nil] at hd
          exact okName_no_slash hqb.1
            (hd ▸ List.mem_append_right _ (List.mem_cons_self _ _))
        | cons d s' =>
          simp only [charJoinTail] at hd
          obtain ⟨hab, htails⟩ := slash_split a.data b.data _ _
            (okName_no_slash hpa.1) (okName_no_slash hqb.1) hd
          have htl : posixOf (c :: r') = posixOf (d :: s') :=
            String.ext (by rw [posixOf_data_cons, posixOf_data_cons]; exact htails)
          rw [String.ext hab, ih hpa.2 (d :: s') hqb.2 htl]

theorem dir_label_inj {p q : List String} (hp : p.all okName = true)
    (hq : q.all okName = true) (h : posixOf p ++ "/" = posixOf q ++ "/") :
    p = q := by
  have hd := congrArg String.data h
  rw [String.data_append, String.data_append] at hd
  exact posixOf_inj p hp q hq (String.ext (List.append_cancel_right hd))

theorem files_label_inj {p q : List String} (hp : p.all okName = true)
    (hq : q.all okName = true)
    (h : posixOf p ++ "/·files" = posixOf q ++ "/·files") : p = q := by
  have hd := congrArg String.data h
  rw [String.data_append, String.data_append] at hd
  exact posixOf_inj p hp q hq (String.ext (List.append_cancel_right hd))

theorem dir_label_ne_files_label (p q : List String) :
    posixOf p ++ "/" ≠ posixOf q ++ "/·files" := by
  intro h
  have h2 := congrArg (fun s : String => s.data.reverse) h
  simp only [String.data_append] at h2
  simp [List.reverse_append] at h2

theorem name_ne_dir_label {n : String} (hn : okName n = true)
    (p : List String) : n ≠ posixOf p ++ "/" := by
  intro h
  apply okName_no_slash hn
  rw [h, String.data_append]
  exact List.mem_append_right _ (by
    rw [show ("/" : String).data = ['/'] from rfl]
    exact List.mem_singleton.mpr rfl)

theorem name_ne_files_label {n : String} (hn : okName n = true)
    (p : List String) : n ≠ posixOf p ++ "/·files" := by
  intro h
  apply okName_no_slash hn
  rw [h, String.data_append]
  exact List.mem_append_right _ (by
    rw [show ("/·files" : String).data = ['/', '·', 'f', 'i', 'l', 'e', 's']
      from rfl]
    exact List.mem_cons_self _ _)

/-- Every key the walk records consists of nonempty, slash-free segments
when the snapshot is well-formed. -/
theorem walkSumms_key_okseg (opts : ScanOptions) (root : String) :
    ∀ (ts : List FSTree) (rel : List String),
      (ts.map entryName).all okName = true → wfForestList ts = true →
      ∀ q ∈ walkSumms opts root rel ts,
        ∃ v, q.1 = rel ++ v ∧ v ≠ [] ∧ v.all okName = true := by
  intro ts
  induction ts using walkInduct with
  | hnil => intro rel _ _ q hq; simp [walkSumms_nil] at hq
  | hfile n s m sym e ts ih =>
    intro rel hok hwf q hq
    rw [walkSumms_cons, entrySumms_file, List.nil_append] at hq
    have hok' : (ts.map entryName).all okName = true := by
      simp only [List.map_cons, List.all_cons, Bool.and_eq_true] at hok
      exact hok.2
    have hwf2 : wfForestList ts = true := by
      simp only [wfForestList, Bool.and_eq_true] at hwf
      exact hwf.2
    exact ih rel hok' hwf2 q hq
  | hother n ts ih =>
    intro rel hok hwf q hq
    rw [walkSumms_cons, entrySumms_other, List.nil_append] at hq
    have hok' : (ts.map entryName).all okName = true := by
      simp only [List.map_cons, List.all_cons, Bool.and_eq_true] at hok
      exact hok.2
    have hwf2 : wfForestList ts = true := by
      simp only [wfForestList, Bool.and_eq_true] at hwf
      exact hwf.2
    exact ih rel hok' hwf2 q hq
  | hdir n sym e cs ts ihc iht =>
    intro rel hok hwf q hq
    have hokn : okName n = true ∧ (ts.map entryName).all okName = true := by
      simpa [List.all_cons, entryName] using hok
    have hwf' : wfTree (.dir n sym e cs) = true ∧ wfForestList ts = true := by
      simpa [wfForestList, Bool.and_eq_true] using hwf
    rw [walkSumms_cons] at hq
    rcases List.mem_append.mp hq with hq | hq
    · cases hinc : includedEntry opts rel (.dir n sym e cs) with
      | false =>
        rw [entrySumms_dir_skip opts root rel n sym e cs hinc] at hq
        simp at hq
      | true =>
        cases e with
        | some msg =>
          rw [entrySumms_dir_exc opts root rel n sym msg cs hinc] at hq
          simp only [List.mem_singleton] at hq
          exact ⟨[n], by rw [hq], by simp, by simp [hokn.1]⟩
        | none =>
          rw [entrySumms_dir_ok opts root rel n sym cs hinc] at hq
          rcases List.mem_append.mp hq with hq | hq
          · have hcs : (cs.map entryName).all okName = true
                ∧ wfForestList cs = true := by
              have h := hwf'.1
              simp only [wfTree, Bool.and_eq_true] at h
              exact ⟨h.1.2, h.2⟩
            obtain ⟨v, hv, hvne, hvok⟩ := ihc (rel ++ [n]) hcs.1 hcs.2 q hq
            exact ⟨n :: v, by rw [hv]; simp, by simp,
              by simp [List.all_cons, hokn.1, hvok]⟩
          · simp only [List.mem_singleton] at hq
            exact ⟨[n], by rw [hq], by simp, by simp [hokn.1]⟩
    · obtain ⟨v, hv, hvne, hvok⟩ := iht rel hokn.2 hwf'.2 q hq
      exact ⟨v, hv, hvne, hvok⟩

/-- Under distinct well-formed sibling names the walk's summary keys are
pairwise distinct. -/
theorem walkSumms_keys_nodup (opts : ScanOptions) (root : String) :
    ∀ (ts : List FSTree) (rel : List String),
      distinctB (ts.map entryName) = true → wfForestList ts = true →
      ((walkSumms opts root rel ts).map (fun q => q.1)).Nodup := by
  intro ts
  induction ts using walkInduct with
  | hnil => intro rel _ _; simp [walkSumms_nil]
  | hfile n s m sym e ts ih =>
    intro rel hdist hwf
    rw [walkSumms_cons, entrySumms_file, List.nil_append]
    have hdist' : distinctB (ts.map entryName) = true := by
      simp only [List.map_cons, distinctB, Bool.and_eq_true] at hdist
      exact hdist.2
    have hwf2 : wfForestList ts = true := by
      simp only [wfForestList, Bool.and_eq_true] at hwf
      exact hwf.2
    exact ih rel hdist' hwf2
  | hother n ts ih =>
    intro rel hdist hwf
    rw [walkSumms_cons, entrySumms_other, List.nil_append]
    have hdist' : distinctB (ts.map entryName) = true := by
      simp only [List.map_cons, distinctB, Bool.and_eq_true] at hdist
      exact hdist.2
    have hwf2 : wfForestList ts = true := by
      simp only [wfForestList, Bool.and_eq_true] at hwf
      exact hwf.2
    exact ih rel hdist' hwf2
  | hdir n sym e cs ts ihc iht =>
    intro rel hdist hwf
    have hdist' : distinctB (ts.map entryName) = true := by
      simp only [List.map_cons, distinctB, Bool.and_eq_true] at hdist
      exact hdist.2
    have hnames : ∀ t' ∈ ts, entryName t' ≠ n := by
      intro t' ht' hcon
      simp only [List.map_cons, distinctB, Bool.and_eq_true,
        Bool.not_eq_true', entryName] at hdist
      have hmem : n ∈ ts.map entryName := List.mem_map.mpr ⟨t', ht', hcon⟩
      have helem : (ts.map entryName).contains n = true := List.elem_iff.mpr hmem
      rw [helem] at hdist
      exact absurd hdist.1 (by simp)
    have hwf' : wfTree (.dir n sym e cs) = true ∧ wfForestList ts = true := by
      simpa [wfForestList, Bool.and_eq_true] using hwf
    rw [walkSumms_cons, List.map_append, List.nodup_append]
    refine ⟨?_, iht rel hdist' hwf'.2, ?_⟩
    · cases hinc : includedEntry opts rel (.dir n sym e cs) with
      | false => rw [entrySumms_dir_skip opts root rel n sym e cs hinc]; simp
      | true =>
        cases e with
        | some msg =>
          rw [entrySumms_dir_exc opts root rel n sym msg cs hinc]; simp
        | none =>
          rw [entrySumms_dir_ok opts root rel n sym cs hinc, List.map_append,
            List.nodup_append]
          have hcs : distinctB (cs.map entryName) = true
              ∧ wfForestList cs = true := by
            have h := hwf'.1
            simp only [wfTree, Bool.and_eq_true] at h
            exact ⟨h.1.1, h.2⟩
          refine ⟨ihc (rel ++ [n]) hcs.1 hcs.2, by simp, ?_⟩
          intro a ha hb
          simp only [List.map_cons, List.map_nil, List.mem_singleton] at hb
          obtain ⟨q, hq, rfl⟩ := List.mem_map.mp ha
          obtain ⟨t', ht', u, hu⟩ :=
            walkSumms_key_shape opts root cs (rel ++ [n]) q hq
          rw [hu] at hb
          have := congrArg List.length hb
          simp at this
    · intro a ha hb
      obtain ⟨q, hq, rfl⟩ := List.mem_map.mp ha
      obtain ⟨q', hq', hq'1⟩ := List.mem_map.mp hb
      rw [← walkSumms_singleton] at hq
      obtain ⟨t0, ht0, u, hu⟩ :=
        walkSumms_key_shape opts root [.dir n sym e cs] rel q hq
      simp only [List.mem_singleton] at ht0
      subst ht0
      obtain ⟨t'', ht'', u'', hu''⟩ :=
        walkSumms_key_shape opts root ts rel q' hq'
      rw [hq'1, hu] at hu''
      have hcan := List.append_cancel_left hu''
      simp only [entryName, List.cons.injEq] at hcan
      exact hnames t'' ht'' hcan.1.symm

theorem lookupV_bump_self (g : List (String × Nat)) (k : String) (v : Nat) :
    lookupV (bump g k v) k = some ((lookupV g k).getD 0 + v) := by
  induction g with
  | nil => simp [bump, lookupV]
  | cons kv rest ih =>
    obtain ⟨k0, v0⟩ := kv
    by_cases h : k0 = k
    · subst h
      simp [bump, lookupV]
    · simp [bump, lookupV, h, ih]

theorem lookupV_bump_ne (g : List (String × Nat)) (k key : String) (v : Nat)
    (h : key ≠ k) : lookupV (bump g k v) key = lookupV g key := by
  induction g with
  | nil => simp [bump, lookupV, Ne.symm h]
  | cons kv rest ih =>
    obtain ⟨k0, v0⟩ := kv
    by_cases h0 : k0 = k
    · subst h0
      simp [bump, lookupV, Ne.symm h]
    · by_cases h1 : k0 = key
      · simp [bump, lookupV, h0, h1, h]
      · simp [bump, lookupV, h0, h1, ih]

theorem lookupV_addBucket_self (g : List (String × Nat)) (lab : String)
    (sz : Nat) :
    lookupV (addBucket g lab sz) lab
      = if sz = 0 then lookupV g lab
        else some ((lookupV g lab).getD 0 + sz) := by
  unfold addBucket
  split
  · rfl
  · exact lookupV_bump_self g lab sz

theorem lookupV_addBucket_ne (g : List (String × Nat)) (lab key : String)
    (sz : Nat) (h : key ≠ lab) :
    lookupV (addBucket g lab sz) key = lookupV g key := by
  unfold addBucket
  split
  · rfl
  · exact lookupV_bump_ne g lab key sz h

theorem dirBucketsStep_lookup_ne (S : List (List String × DirSummary))
    (depth : Nat) (g : List (String × Nat)) (e : List String × DirSummary)
    (lab : String) (h : entryLabel depth e ≠ some lab) :
    lookupV (if e.1 = [] then g
      else
        let direct := e.2.size_bytes - childSumOf S e.1
        if depth = 0 then addBucket g (posixOf e.1 ++ "/·files") direct
        else if e.1.length < depth then addBucket g (posixOf e.1 ++ "/·files") direct
        else if e.1.length = depth then addBucket g (posixOf e.1 ++ "/") e.2.size_bytes
        else g) lab
      = lookupV g lab := by
  unfold entryLabel at h
  by_cases h0 : e.1 = []
  · simp [h0]
  · simp only [h0, if_false] at h ⊢
    by_cases h1 : depth = 0
    · simp only [h1, if_true] at h ⊢
      exact lookupV_addBucket_ne _ _ _ _ (fun hc => h (by rw [hc]))
    · simp only [h1, if_false] at h ⊢
      by_cases h2 : e.1.length < depth
      · simp only [h2, if_true] at h ⊢
        exact lookupV_addBucket_ne _ _ _ _ (fun hc => h (by rw [hc]))
      · simp only [h2, if_false] at h ⊢
        by_cases h3 : e.1.length = depth
        · simp only [h3, if_true] at h ⊢
          exact lookupV_addBucket_ne _ _ _ _ (fun hc => h (by rw [hc]))
        · simp [h3]

theorem dirBucketsStep_lookup_self (S : List (List String × DirSummary))
    (depth : Nat) (g : List (String × Nat)) (e : List String × DirSummary)
    (lab : String) (h : entryLabel depth e = some lab) :
    lookupV (if e.1 = [] then g
      else
        let direct := e.2.size_bytes - childSumOf S e.1
        if depth = 0 then addBucket g (posixOf e.1 ++ "/·files") direct
        else if e.1.length < depth then addBucket g (posixOf e.1 ++ "/·files") direct
        else if e.1.length = depth then addBucket g (posixOf e.1 ++ "/") e.2.size_bytes
        else g) lab
      = if bucketContrib S depth e = 0 then lookupV g lab
        else some ((lookupV g lab).getD 0 + bucketContrib S depth e) := by
  unfold entryLabel at h
  unfold bucketContrib
  by_cases h0 : e.1 = []
  · simp [h0] at h
  · simp only [h0, if_false] at h ⊢
    by_cases h1 : depth = 0
    · simp only [h1, if_true] at h ⊢
      obtain rfl : posixOf e.1 ++ "/·files" = lab := by
        simpa using h
      exact lookupV_addBucket_self g _ _
    · simp only [h1, if_false] at h ⊢
      by_cases h2 : e.1.length < depth
      · simp only [h2, if_true] at h ⊢
        obtain rfl : posixOf e.1 ++ "/·files" = lab := by
          simpa using h
        exact lookupV_addBucket_self g _ _
      · simp only [h2, if_false] at h ⊢
        by_cases h3 : e.1.length = depth
        · simp only [h3, if_true] at h ⊢
          obtain rfl : posixOf e.1 ++ "/" = lab := by
            simpa using h
          exact lookupV_addBucket_self g _ _
        · simp [h3] at h

theorem dirBuckets_foldl_lookup_none (S : List (List String × DirSummary))
    (depth : Nat) :
    ∀ (L : List (List String × DirSummary)) (g : List (String × Nat))
      (lab : String), (∀ e ∈ L, entryLabel depth e ≠ some lab) →
      lookupV (L.foldl (fun g e =>
        if e.1 = [] then g
        else
          let direct := e.2.size_bytes - childSumOf S e.1
          if depth = 0 then addBucket g (posixOf e.1 ++ "/·files") direct
          else if e.1.length < depth then addBucket g (posixOf e.1 ++ "/·files") direct
          else if e.1.length = depth then addBucket g (posixOf e.1 ++ "/") e.2.size_bytes
          else g) g) lab
        = lookupV g lab := by
  intro L
  induction L with
  | nil => intro g lab _; rfl
  | cons e L ih =>
    intro g lab hall
    rw [List.foldl_cons, ih _ lab (fun e' he' => hall e' (List.mem_cons_of_mem _ he')),
      dirBucketsStep_lookup_ne S depth g e lab (hall e (List.mem_cons_self _ _))]

theorem dirBuckets_lookup_decomp (S L1 L2 : List (List String × DirSummary))
    (e : List String × DirSummary) (depth : Nat) (g0 : List (String × Nat))
    (lab : String) (hS : S = L1 ++ e :: L2)
    (h1 : ∀ e' ∈ L1, entryLabel depth e' ≠ some lab)
    (h2 : ∀ e' ∈ L2, entryLabel depth e' ≠ some lab)
    (he : entryLabel depth e = some lab) :
    lookupV (dirBuckets S depth g0) lab
      = if bucketContrib S depth e = 0 then lookupV g0 lab
        else some ((lookupV g0 lab).getD 0 + bucketContrib S depth e) := by
  unfold dirBuckets
  rw [congrArg (List.foldl _ g0) hS, List.foldl_append, List.foldl_cons]
  rw [dirBuckets_foldl_lookup_none S depth L2 _ lab h2]
  rw [dirBucketsStep_lookup_self S depth _ e lab he]
  rw [dirBuckets_foldl_lookup_none S depth L1 g0 lab h1]

theorem dirBuckets_lookup_none (S : List (List String × DirSummary))
    (depth : Nat) (g0 : List (String × Nat)) (lab : String)
    (hall : ∀ e ∈ S, entryLabel depth e ≠ some lab) :
    lookupV (dirBuckets S depth g0) lab = lookupV g0 lab := by
  unfold dirBuckets
  exact dirBuckets_foldl_lookup_none S depth S g0 lab hall

theorem bump_keys (g : List (String × Nat)) (k : String) (v : Nat) :
    (bump g k v).map (fun kv => kv.1)
      = if k ∈ g.map (fun kv => kv.1) then g.map (fun kv => kv.1)
        else g.map (fun kv => kv.1) ++ [k] := by
  induction g with
  | nil => simp [bump]
  | cons kv rest ih =>
    obtain ⟨k0, v0⟩ := kv
    by_cases h : k0 = k
    · subst h
      simp [bump]
    · simp only [bump, h, if_false, List.map_cons, ih, List.mem_cons]
      by_cases h2 : k ∈ rest.map (fun kv => kv.1)
      · simp [h2, Ne.symm h]
      · simp [h2, Ne.symm h]

theorem bump_keys_nodup (g : List (String × Nat)) (k : String) (v : Nat)
    (h : (g.map (fun kv => kv.1)).Nodup) :
    ((bump g k v).map (fun kv => kv.1)).Nodup := by
  rw [bump_keys]
  split
  · exact h
  · simp only [List.nodup_append, List.nodup_singleton]
    exact ⟨h, trivial, by
      intro a ha hb
      simp only [List.mem_singleton] at hb
      subst hb
      exact absurd ha (by assumption)⟩

theorem addBucket_keys_nodup (g : List (String × Nat)) (lab : String)
    (sz : Nat) (h : (g.map (fun kv => kv.1)).Nodup) :
    ((addBucket g lab sz).map (fun kv => kv.1)).Nodup := by
  unfold addBucket
  split
  · exact h
  · exact bump_keys_nodup g lab sz h

theorem dirBuckets_foldl_keys_nodup (S : List (List String × DirSummary))
    (depth : Nat) :
    ∀ (L : List (List String × DirSummary)) (g : List (String × Nat)),
      (g.map (fun kv => kv.1)).Nodup →
      (((L.foldl (fun g e =>
        if e.1 = [] then g
        else
          let direct := e.2.size_bytes - childSumOf S e.1
          if depth = 0 then addBucket g (posixOf e.1 ++ "/·files") direct
          else if e.1.length < depth then addBucket g (posixOf e.1 ++ "/·files") direct
          else if e.1.length = depth then addBucket g (posixOf e.1 ++ "/") e.2.size_bytes
          else g) g)).map (fun kv => kv.1)).Nodup := by
  intro L
  induction L with
  | nil => intro g hg; exact hg
  | cons e L ih =>
    intro g hg
    rw [List.foldl_cons]
    apply ih
    by_cases h0 : e.1 = []
    · simpa [h0] using hg
    · simp only [h0, if_false]
      by_cases h1 : depth = 0
      · simpa [h1] using addBucket_keys_nodup g _ _ hg
      · simp only [h1, if_false]
        by_cases h2 : e.1.length < depth
        · simpa [h2] using addBucket_keys_nodup g _ _ hg
        · simp only [h2, if_false]
          by_cases h3 : e.1.length = depth
          · simpa [h3] using addBucket_keys_nodup g _ _ hg
          · simpa [h3] using hg

theorem dirBuckets_keys_nodup (S : List (List String × DirSummary))
    (depth : Nat) (g : List (String × Nat))
    (hg : (g.map (fun kv => kv.1)).Nodup) :
    ((dirBuckets S depth g).map (fun kv => kv.1)).Nodup := by
  unfold dirBuckets
  exact dirBuckets_foldl_keys_nodup S depth S g hg

theorem rootFileBuckets_foldl_keys (cs : List FSTree) :
    ∀ (g : List (String × Nat)) (k : String),
      k ∈ ((cs.foldl (fun g c =>
        match c with
        | .file nm sz _ _ none => addBucket g nm sz
        | _ => g) g).map (fun kv => kv.1)) →
      k ∈ g.map (fun kv => kv.1) ∨ ∃ t ∈ cs, entryName t = k := by
  induction cs with
  | nil => intro g k hk; exact Or.inl hk
  | cons c cs ih =>
    intro g k hk
    rw [List.foldl_cons] at hk
    rcases ih _ k hk with hk' | ⟨t, ht, hname⟩
    · cases c with
      | file nm sz m sym e =>
        cases e with
        | none =>
          simp only at hk'
          rw [show (addBucket g nm sz).map (fun kv => kv.1)
              = if sz = 0 then g.map (fun kv => kv.1)
                else (bump g nm sz).map (fun kv => kv.1) from by
            unfold addBucket; split <;> simp_all] at hk'
          by_cases hsz : sz = 0
          · rw [if_pos hsz] at hk'
            exact Or.inl hk'
          · rw [if_neg hsz, bump_keys] at hk'
            split at hk'
            · exact Or.inl hk'
            · rcases List.mem_append.mp hk' with h | h
              · exact Or.inl h
              · simp only [List.mem_singleton] at h
                exact Or.inr ⟨.file nm sz m sym none, List.mem_cons_self _ _,
                  h.symm⟩
        | some msg => exact Or.inl hk'
      | dir nm sym e cs' => exact Or.inl hk'
      | other nm => exact Or.inl hk'
    · exact Or.inr ⟨t, List.mem_cons_of_mem _ ht, hname⟩

theorem rootFileBuckets_keys (rn : String) (rs : Bool) (cs : List FSTree)
    (k : String)
    (hk : k ∈ ((rootFileBuckets (.dir rn rs none cs) []).map (fun kv => kv.1))) :
    ∃ t ∈ cs, entryName t = k := by
  unfold rootFileBuckets at hk
  rcases rootFileBuckets_foldl_keys cs [] k hk with h | h
  · simp at h
  · exact h

theorem rootFileBuckets_foldl_keys_nodup (cs : List FSTree) :
    ∀ (g : List (String × Nat)), (g.map (fun kv => kv.1)).Nodup →
      ((cs.foldl (fun g c =>
        match c with
        | .file nm sz _ _ none => addBucket g nm sz
        | _ => g) g).map (fun kv => kv.1)).Nodup := by
  induction cs with
  | nil => intro g hg; exact hg
  | cons c cs ih =>
    intro g hg
    rw [List.foldl_cons]
    apply ih
    cases c with
    | file nm sz m sym e =>
      cases e with
      | none => exact addBucket_keys_nodup g nm sz hg
      | some msg => exact hg
    | dir nm sym e cs' => exact hg
    | other nm => exact hg

theorem lookupV_eq_none_of_ne (g : List (String × Nat)) (lab : String)
    (h : ∀ k ∈ g.map (fun kv => kv.1), k ≠ lab) : lookupV g lab = none := by
  induction g with
  | nil => rfl
  | cons kv rest ih =>
    obtain ⟨k0, v0⟩ := kv
    have h0 : k0 ≠ lab := h k0 (by simp)
    simp only [lookupV, h0, if_false]
    exact ih (fun k hk => h k (by simp [hk]))

theorem lookupV_of_mem_nodup (g : List (String × Nat))
    (kv : String × Nat) (hmem : kv ∈ g)
    (hnd : (g.map (fun kv => kv.1)).Nodup) : lookupV g kv.1 = some kv.2 := by
  induction g with
  | nil => simp at hmem
  | cons kv0 rest ih =>
    obtain ⟨k0, v0⟩ := kv0
    rcases List.mem_cons.mp hmem with rfl | hmem'
    · simp [lookupV]
    · have h0 : k0 ≠ kv.1 := by
        intro hc
        simp only [List.map_cons, List.nodup_cons] at hnd
        exact hnd.1 (hc ▸ List.mem_map.mpr ⟨kv, hmem', rfl⟩)
      simp only [lookupV, h0, if_false]
      exact ih hmem' (by
        simp only [List.map_cons, List.nodup_cons] at hnd
        exact hnd.2)

theorem countP_label_lookup :
    ∀ (g : List (String × Nat)) (lab : String),
      ((g.map (fun kv => kv.1)).Nodup) →
      ((g.filter (fun kv => decide (0 < kv.2))).countP
          (fun kv => decide (kv.1 = lab)))
        = match lookupV g lab with
          | none => 0
          | some v => if 0 < v then 1 else 0 := by
  intro g
  induction g with
  | nil => intro lab _; rfl
  | cons kv rest ih =>
    intro lab hnd
    obtain ⟨k0, v0⟩ := kv
    have hnd' : (rest.map (fun kv => kv.1)).Nodup ∧
        k0 ∉ rest.map (fun kv => kv.1) := by
      simp only [List.map_cons, List.nodup_cons] at hnd
      exact ⟨hnd.2, hnd.1⟩
    rw [List.filter_cons]
    by_cases hk : k0 = lab
    · subst hk
      have hrest0 : (rest.filter (fun kv => decide (0 < kv.2))).countP
          (fun kv => decide (kv.1 = k0)) = 0 := by
        apply List.countP_eq_zero.mpr
        intro kv hkv
        simp only [decide_eq_true_eq]
        intro hc
        exact hnd'.2 (List.mem_map.mpr ⟨kv, List.mem_of_mem_filter hkv, hc⟩)
      by_cases hv : 0 < v0
      · rw [if_pos (by simpa using hv), List.countP_cons]
        simp only [lookupV, if_pos rfl, hrest0, decide_eq_true_eq]
        simp [hv]
      · rw [if_neg (by simpa using hv), hrest0]
        simp only [lookupV, if_pos rfl]
        simp [hv]
    · have hlk : lookupV ((k0, v0) :: rest) lab = lookupV rest lab := by
        simp [lookupV, hk]
      rw [hlk]
      by_cases hv : 0 < v0
      · rw [if_pos (by simpa using hv), List.countP_cons]
        simp only [decide_eq_true_eq, hk]
        rw [ih lab hnd'.1]
        simp
      · rw [if_neg (by simpa using hv)]
        exact ih lab hnd'.1

theorem countP_group (tree : FSTree) (scan : ScanResult) (depth : Nat)
    (lab : String)
    (hnd : (((dirBuckets scan.dir_summaries depth
        (rootFileBuckets tree [])).map (fun kv => kv.1)).Nodup)) :
    (group_sizes_for_treemap tree scan depth).countP
        (fun it => decide (it.label = lab))
      = match lookupV (dirBuckets scan.dir_summaries depth
            (rootFileBuckets tree [])) lab with
        | none => 0
        | some v => if 0 < v then 1 else 0 := by
  unfold group_sizes_for_treemap
  dsimp only
  rw [List.Perm.countP_eq _ (sortDescBy_perm (fun it : TreemapItem => it.size) _),
    List.countP_map]
  exact countP_label_lookup _ lab hnd

theorem mem_group_size (tree : FSTree) (scan : ScanResult) (depth : Nat)
    (it : TreemapItem) (lab : String)
    (hnd : (((dirBuckets scan.dir_summaries depth
        (rootFileBuckets tree [])).map (fun kv => kv.1)).Nodup))
    (hit : it ∈ group_sizes_for_treemap tree scan depth)
    (hlab : it.label = lab) :
    lookupV (dirBuckets scan.dir_summaries depth (rootFileBuckets tree []))
      lab = some it.size := by
  unfold group_sizes_for_treemap at hit
  dsimp only at hit
  rw [List.Perm.mem_iff (sortDescBy_perm (fun it : TreemapItem => it.size) _)]
    at hit
  obtain ⟨kv, hkv, hmk⟩ := List.mem_map.mp hit
  have hkv' := List.mem_of_mem_filter hkv
  have := lookupV_of_mem_nodup _ kv hkv' hnd
  have h1 : kv.1 = lab := by rw [← hlab, ← hmk]
  have h2 : kv.2 = it.size := by rw [← hmk]
  rw [h1, h2] at this
  exact this

theorem entryLabel_forms (depth : Nat) (e : List String × DirSummary)
    (lab : String) (h : entryLabel depth e = some lab) :
    e.1 ≠ []
    ∧ (lab = posixOf e.1 ++ "/" ∨ lab = posixOf e.1 ++ "/·files") := by
  unfold entryLabel at h
  by_cases h0 : e.1 = []
  · simp [h0] at h
  · refine ⟨h0, ?_⟩
    simp only [h0, if_false] at h
    by_cases h1 : depth = 0
    · simp only [h1, if_true, Option.some.injEq] at h
      exact Or.inr h.symm
    · simp only [h1, if_false] at h
      by_cases h2 : e.1.length < depth
      · simp only [h2, if_true, Option.some.injEq] at h
        exact Or.inr h.symm
      · simp only [h2, if_false] at h
        by_cases h3 : e.1.length = depth
        · simp only [h3, if_true, Option.some.injEq] at h
          exact Or.inl h.symm
        · simp [h3] at h

theorem entryLabel_ne_of_key_ne (depth : Nat) (e : List String × DirSummary)
    (p : List String) (hoke : e.1.all okName = true)
    (hokp : p.all okName = true) (hne : e.1 ≠ p) :
    entryLabel depth e ≠ some (posixOf p ++ "/")
    ∧ entryLabel depth e ≠ some (posixOf p ++ "/·files") := by
  constructor
  · intro h
    obtain ⟨h0, hforms⟩ := entryLabel_forms depth e _ h
    rcases hforms with hf | hf
    · exact hne (dir_label_inj hoke hokp hf.symm)
    · exact dir_label_ne_files_label p e.1 hf
  · intro h
    obtain ⟨h0, hforms⟩ := entryLabel_forms depth e _ h
    rcases hforms with hf | hf
    · exact dir_label_ne_files_label e.1 p hf.symm
    · exact hne (files_label_inj hoke hokp hf.symm)

theorem eq_of_mem_nodup_keys {α β : Type} :
    ∀ (l : List (α × β)), ((l.map (fun q => q.1)).Nodup) →
      ∀ (a b : α × β), a ∈ l → b ∈ l → a.1 = b.1 → a = b := by
  intro l
  induction l with
  | nil => intro _ a b ha _ _; simp at ha
  | cons c l ih =>
    intro hnd a b ha hb hk
    simp only [List.map_cons, List.nodup_cons] at hnd
    rcases List.mem_cons.mp ha with rfl | ha'
    · rcases List.mem_cons.mp hb with rfl | hb'
      · rfl
      · exact absurd (by rw [hk]; exact List.mem_map.mpr ⟨b, hb', rfl⟩) hnd.1
    · rcases List.mem_cons.mp hb with rfl | hb'
      · exact absurd (by rw [← hk]; exact List.mem_map.mpr ⟨a, ha', rfl⟩) hnd.1
      · exact ih hnd.2 a b ha' hb' hk

/-- The value the final grouped dict carries at one of the two labels a
`dir_summaries` entry `(p, summ)` can produce: the entry's own bucket
contribution when the entry reaches `add_bucket` with that label and a
positive size, and nothing otherwise. -/
theorem gfin_lookup_main (root rn : String) (rs : Bool)
    (children : List FSTree) (opts : ScanOptions) (lf : Int) (D : Nat)
    (hwf : wfForest children = true) (p : List String) (summ : DirSummary)
    (hmem : (p, summ) ∈ (scanDirRoot root none children opts lf).dir_summaries)
    (hp : p ≠ []) (lab : String)
    (hlab : lab = posixOf p ++ "/" ∨ lab = posixOf p ++ "/·files") :
    lookupV (dirBuckets (scanDirRoot root none children opts lf).dir_summaries
        D (rootFileBuckets (.dir rn rs none children) [])) lab
      = if entryLabel D (p, summ) = some lab then
          (if bucketContrib
              (scanDirRoot root none children opts lf).dir_summaries D
              (p, summ) = 0 then none
           else some (bucketContrib
              (scanDirRoot root none children opts lf).dir_summaries D
              (p, summ)))
        else none := by
  have hw : (distinctB (children.map entryName) = true
        ∧ (children.map entryName).all okName = true)
      ∧ wfForestList children = true := by
    simpa [wfForest, Bool.and_eq_true] using hwf
  have hSdef : (scanDirRoot root none children opts lf).dir_summaries
      = walkSumms opts root [] children
        ++ [([], walkTotalsSumm opts root [] children)] := rfl
  have hmemW : (p, summ) ∈ walkSumms opts root [] children := by
    have hmem' := hmem
    rw [hSdef] at hmem'
    rcases List.mem_append.mp hmem' with h | h
    · exact h
    · exfalso
      simp only [List.mem_singleton, Prod.mk.injEq] at h
      exact hp h.1
  have hokkey : ∀ q ∈ walkSumms opts root [] children,
      q.1.all okName = true ∧ q.1 ≠ [] := by
    intro q hq
    obtain ⟨v, hv, hvne, hvok⟩ :=
      walkSumms_key_okseg opts root children [] hw.1.2 hw.2 q hq
    rw [List.nil_append] at hv
    exact ⟨hv ▸ hvok, hv ▸ hvne⟩
  have hokp : p.all okName = true := (hokkey _ hmemW).1
  have hSnd : (((scanDirRoot root none children opts lf).dir_summaries).map
      (fun q => q.1)).Nodup := by
    rw [hSdef, List.map_append, List.nodup_append]
    refine ⟨walkSumms_keys_nodup opts root children [] hw.1.1 hw.2,
      by simp, ?_⟩
    intro a ha hb
    simp only [List.map_cons, List.map_nil, List.mem_singleton] at hb
    obtain ⟨q, hq, rfl⟩ := List.mem_map.mp ha
    exact (hokkey q hq).2 hb
  have hg0 : lookupV (rootFileBuckets (.dir rn rs none children) []) lab
      = none := by
    apply lookupV_eq_none_of_ne
    intro k hk hkeq
    obtain ⟨t, ht, hname⟩ := rootFileBuckets_keys rn rs children k hk
    have hokk : okName k = true := by
      have h2 := hw.1.2
      rw [List.all_eq_true] at h2
      exact h2 _ (List.mem_map.mpr ⟨t, ht, hname⟩)
    rcases hlab with hl | hl
    · exact name_ne_dir_label hokk p (hl ▸ hkeq)
    · exact name_ne_files_label hokk p (hl ▸ hkeq)
  have hother : ∀ e ∈ (scanDirRoot root none children opts lf).dir_summaries,
      e ≠ (p, summ) → entryLabel D e ≠ some lab := by
    intro e he hne
    rw [hSdef] at he
    rcases List.mem_append.mp he with h | h
    · have hkne : e.1 ≠ p := by
        intro hkeq
        exact hne (eq_of_mem_nodup_keys _ hSnd e (p, summ)
          (by rw [hSdef]; exact List.mem_append_left _ h)
          (by rw [hSdef]; exact List.mem_append_left _ hmemW) hkeq)
      have hne2 := entryLabel_ne_of_key_ne D e p (hokkey e h).1 hokp hkne
      rcases hlab with hl | hl
      · exact hl ▸ hne2.1
      · exact hl ▸ hne2.2
    · simp only [List.mem_singleton] at h
      rw [h]
      simp [entryLabel]
  by_cases he : entryLabel D (p, summ) = some lab
  · rw [if_pos he]
    obtain ⟨L1, L2, hS⟩ := List.append_of_mem hmem
    have hpL : p ∉ (L1.map (fun q => q.1)) ∧ p ∉ (L2.map (fun q => q.1)) := by
      have hnd2 := hSnd
      rw [hS, List.map_append, List.map_cons, List.nodup_append] at hnd2
      exact ⟨fun hmp => hnd2.2.2 hmp (List.mem_cons_self _ _),
        (List.nodup_cons.mp hnd2.2.1).1⟩
    have hL1 : ∀ e' ∈ L1, entryLabel D e' ≠ some lab := by
      intro e' he'
      apply hother e' (by rw [hS]; exact List.mem_append_left _ he')
      intro hcon
      have hek : e'.1 = p := congrArg Prod.fst hcon
      exact hpL.1 (hek ▸ List.mem_map.mpr ⟨e', he', rfl⟩)
    have hL2 : ∀ e' ∈ L2, entryLabel D e' ≠ some lab := by
      intro e' he'
      have hmm : e' ∈ (scanDirRoot root none children opts lf).dir_summaries := by
        rw [hS]
        exact List.mem_append_right _ (List.mem_cons_of_mem _ he')
      apply hother e' hmm
      intro hcon
      have hek : e'.1 = p := congrArg Prod.fst hcon
      exact hpL.2 (hek ▸ List.mem_map.mpr ⟨e', he', rfl⟩)
    rw [dirBuckets_lookup_decomp _ L1 L2 (p, summ) D _ lab hS hL1 hL2 he, hg0]
    by_cases hc : bucketContrib
        (scanDirRoot root none children opts lf).dir_summaries D (p, summ) = 0
    · rw [if_pos hc, if_pos hc]
    · rw [if_neg hc, if_neg hc]
      simp
  · rw [if_neg he]
    have hall : ∀ e ∈ (scanDirRoot root none children opts lf).dir_summaries,
        entryLabel D e ≠ some lab := by
      intro e hemem
      by_cases hcase : e = (p, summ)
      · rw [hcase]; exact he
      · exact hother e hemem hcase
    rw [dirBuckets_lookup_none _ D _ lab hall, hg0]

/-- C5 (amended): depth-D attribution.  For every scanned well-formed
tree, grouping depth D ≥ 1 and recorded non-root directory summary
`(p, summ)`: at depth exactly D the output contains a subtree bucket
`posix(p) + "/"` sized at the directory's full recursive total — exactly
one if that total is positive and none if it is zero (the positivity
proviso is the amendment, see `C5_counterexample`) — and no direct-files
bucket for `p`; below the boundary (depth > D) the directory contributes
no bucket of its own under either label; above the boundary
(1 ≤ depth < D) it contributes only a direct-files bucket
`posix(p) + "/·files"` sized at its recursive total minus the sum of its
immediate child directories' totals, present exactly when that size is
positive. -/
theorem C5_depth_attribution (root rn : String) (rs : Bool)
    (exc : Option String) (children : List FSTree) (opts : ScanOptions)
    (lf : Int) (D : Nat) (res : ScanResult)
    (hscan : scan_directory root (some (.dir rn rs exc children)) opts lf
      = .ok res)
    (hwf : wfForest children = true) (hD : 1 ≤ D)
    (p : List String) (summ : DirSummary)
    (hmem : (p, summ) ∈ res.dir_summaries) (hp : p ≠ []) :
    (p.length = D →
      (group_sizes_for_treemap (.dir rn rs exc children) res D).countP
          (fun it => decide (it.label = posixOf p ++ "/"))
        = (if 0 < summ.size_bytes then 1 else 0)
      ∧ (∀ it ∈ group_sizes_for_treemap (.dir rn rs exc children) res D,
          it.label = posixOf p ++ "/" → it.size = summ.size_bytes)
      ∧ (group_sizes_for_treemap (.dir rn rs exc children) res D).countP
          (fun it => decide (it.label = posixOf p ++ "/·files")) = 0)
    ∧ (D < p.length →
      (group_sizes_for_treemap (.dir rn rs exc children) res D).countP
          (fun it => decide (it.label = posixOf p ++ "/")) = 0
      ∧ (group_sizes_for_treemap (.dir rn rs exc children) res D).countP
          (fun it => decide (it.label = posixOf p ++ "/·files")) = 0)
    ∧ (p.length < D →
      (group_sizes_for_treemap (.dir rn rs exc children) res D).countP
          (fun it => decide (it.label = posixOf p ++ "/")) = 0
      ∧ (group_sizes_for_treemap (.dir rn rs exc children) res D).countP
          (fun it => decide (it.label = posixOf p ++ "/·files"))
        = (if 0 < summ.size_bytes - childSumOf res.dir_summaries p then 1
           else 0)
      ∧ (∀ it ∈ group_sizes_for_treemap (.dir rn rs exc children) res D,
          it.label = posixOf p ++ "/·files" →
          it.size = summ.size_bytes - childSumOf res.dir_summaries p)) := by
  have hres : res = scanDirRoot root exc children opts lf := by
    simp only [scan_directory, Except.ok.injEq] at hscan
    exact hscan.symm
  subst hres
  cases exc with
  | some msg =>
    exfalso
    have h := hmem
    rw [show (scanDirRoot root (some msg) children opts lf).dir_summaries
      = [([], ⟨[], 0, 0, 0⟩)] from rfl] at h
    simp only [List.mem_singleton, Prod.mk.injEq] at h
    exact hp h.1
  | none =>
    have hD0 : ¬(D = 0) := by omega
    have hg0nd : ((rootFileBuckets (.dir rn rs none children) []).map
        (fun kv => kv.1)).Nodup :=
      rootFileBuckets_foldl_keys_nodup children [] (by simp)
    have hnd : (((dirBuckets
        (scanDirRoot root none children opts lf).dir_summaries D
        (rootFileBuckets (.dir rn rs none children) [])).map
        (fun kv => kv.1)).Nodup) :=
      dirBuckets_keys_nodup _ D _ hg0nd
    refine ⟨?_, ?_, ?_⟩
    · intro hpl
      have he1 : entryLabel D (p, summ) = some (posixOf p ++ "/") := by
        unfold entryLabel
        dsimp only
        rw [if_neg hp, if_neg hD0, if_neg (by omega : ¬ p.length < D),
          if_pos hpl]
      have hbc : bucketContrib
          (scanDirRoot root none children opts lf).dir_summaries D (p, summ)
          = summ.size_bytes := by
        unfold bucketContrib
        dsimp only
        rw [if_neg hp, if_neg hD0, if_neg (by omega : ¬ p.length < D),
          if_pos hpl]
      have he1ne2 : entryLabel D (p, summ)
          ≠ some (posixOf p ++ "/·files") := by
        rw [he1]
        intro hcon
        exact dir_label_ne_files_label p p (Option.some.inj hcon)
      refine ⟨?_, ?_, ?_⟩
      · have hcount := countP_group (.dir rn rs none children)
          (scanDirRoot root none children opts lf) D (posixOf p ++ "/") hnd
        rw [gfin_lookup_main root rn rs children opts lf D hwf p summ hmem hp
          (posixOf p ++ "/") (Or.inl rfl), if_pos he1, hbc] at hcount
        by_cases hsz : summ.size_bytes = 0
        · rw [if_pos hsz] at hcount
          rw [hcount, hsz]
          rfl
        · rw [if_neg hsz] at hcount
          rw [hcount]
      · intro it hit hlab
        have hlk := mem_group_size (.dir rn rs none children)
          (scanDirRoot root none children opts lf) D it (posixOf p ++ "/")
          hnd hit hlab
        rw [gfin_lookup_main root rn rs children opts lf D hwf p summ hmem hp
          (posixOf p ++ "/") (Or.inl rfl), if_pos he1, hbc] at hlk
        by_cases hsz : summ.size_bytes = 0
        · rw [if_pos hsz] at hlk
          exact absurd hlk (by simp)
        · rw [if_neg hsz] at hlk
          exact (Option.some.inj hlk).symm
      · have hcount := countP_group (.dir rn rs none children)
          (scanDirRoot root none children opts lf) D (posixOf p ++ "/·files")
          hnd
        rw [gfin_lookup_main root rn rs children opts lf D hwf p summ hmem hp
          (posixOf p ++ "/·files") (Or.inr rfl), if_neg he1ne2] at hcount
        exact hcount
    · intro hpl
      have heN : entryLabel D (p, summ) = none := by
        unfold entryLabel
        dsimp only
        rw [if_neg hp, if_neg hD0, if_neg (by omega : ¬ p.length < D),
          if_neg (by omega : ¬ p.length = D)]
      constructor
      · have hcount := countP_group (.dir rn rs none children)
          (scanDirRoot root none children opts lf) D (posixOf p ++ "/") hnd
        rw [gfin_lookup_main root rn rs children opts lf D hwf p summ hmem hp
          (posixOf p ++ "/") (Or.inl rfl), if_neg (by simp [heN])] at hcount
        exact hcount
      · have hcount := countP_group (.dir rn rs none children)
          (scanDirRoot root none children opts lf) D (posixOf p ++ "/·files")
          hnd
        rw [gfin_lookup_main root rn rs children opts lf D hwf p summ hmem hp
          (posixOf p ++ "/·files") (Or.inr rfl), if_neg (by simp [heN])]
          at hcount
        exact hcount
    · intro hpl
      have he2 : entryLabel D (p, summ)
          = some (posixOf p ++ "/·files") := by
        unfold entryLabel
        dsimp only
        rw [if_neg hp, if_neg hD0, if_pos hpl]
      have hbc : bucketContrib
          (scanDirRoot root none children opts lf).dir_summaries D (p, summ)
          = summ.size_bytes - childSumOf
              (scanDirRoot root none children opts lf).dir_summaries p := by
        unfold bucketContrib
        dsimp only
        rw [if_neg hp, if_neg hD0, if_pos hpl]
      have he2ne1 : entryLabel D (p, summ) ≠ some (posixOf p ++ "/") := by
        rw [he2]
        intro hcon
        exact dir_label_ne_files_label p p (Option.some.inj hcon).symm
      refine ⟨?_, ?_, ?_⟩
      · have hcount := countP_group (.dir rn rs none children)
          (scanDirRoot root none children opts lf) D (posixOf p ++ "/") hnd
        rw [gfin_lookup_main root rn rs children opts lf D hwf p summ hmem hp
          (posixOf p ++ "/") (Or.inl rfl), if_neg he2ne1] at hcount
        exact hcount
      · have hcount := countP_group (.dir rn rs none children)
          (scanDirRoot root none children opts lf) D (posixOf p ++ "/·files")
          hnd
        rw [gfin_lookup_main root rn rs children opts lf D hwf p summ hmem hp
          (posixOf p ++ "/·files") (Or.inr rfl), if_pos he2, hbc] at hcount
        by_cases hsz : summ.size_bytes - childSumOf
            (scanDirRoot root none children opts lf).dir_summaries p = 0
        · rw [if_pos hsz] at hcount
          rw [hcount, hsz]
          rfl
        · rw [if_neg hsz] at hcount
          rw [hcount]
      · intro it hit hlab
        have hlk := mem_group_size (.dir rn rs none children)
          (scanDirRoot root none children opts lf) D it
          (posixOf p ++ "/·files") hnd hit hlab
        rw [gfin_lookup_main root rn rs children opts lf D hwf p summ hmem hp
          (posixOf p ++ "/·files") (Or.inr rfl), if_pos he2, hbc] at hlk
        by_cases hsz : summ.size_bytes - childSumOf
            (scanDirRoot root none children opts lf).dir_summaries p = 0
        · rw [if_pos hsz] at hlk
          exact absurd hlk (by simp)
        · rw [if_neg hsz] at hlk
          exact (Option.some.inj hlk).symm

/-- C5, counterexample to the claim as frozen: a directory `A` at depth
exactly D = 1 whose recursive total is zero (it is empty).  The claim
requires exactly one bucket sized at its total, but `add_bucket` drops
nonpositive sizes, so the bucketizer emits no bucket at all. -/
theorem C5_counterexample :
    scan_directory "r" (some (.dir "r" false none [.dir "A" false none []]))
        (⟨false, false, fun _ => false⟩ : ScanOptions) 10
      = .ok (scanDirRoot "r" none [.dir "A" false none []]
          (⟨false, false, fun _ => false⟩ : ScanOptions) 10)
    ∧ ((["A"], (⟨["A"], 0, 0, 0⟩ : DirSummary))
        ∈ (scanDirRoot "r" none [.dir "A" false none []]
          (⟨false, false, fun _ => false⟩ : ScanOptions) 10).dir_summaries)
    ∧ (["A"] : List String).length = 1
    ∧ group_sizes_for_treemap (.dir "r" false none [.dir "A" false none []])
        (scanDirRoot "r" none [.dir "A" false none []]
          (⟨false, false, fun _ => false⟩ : ScanOptions) 10) 1 = [] := by
  exact ⟨rfl, by decide, rfl, rfl⟩

/-- C5, witness: the amended attribution theorem applied to a concrete
tree with one subdirectory of positive total at the grouping boundary. -/
theorem C5_depth_attribution_witness :
    (group_sizes_for_treemap
        (.dir "r" false none [.dir "d" false none [.file "b" 2 0 false none]])
        (scanDirRoot "r" none [.dir "d" false none [.file "b" 2 0 false none]]
          (⟨false, false, fun _ => false⟩ : ScanOptions) 10) 1).countP
        (fun it => decide (it.label = posixOf ["d"] ++ "/"))
      = 1 := by
  have h := (C5_depth_attribution "r" "r" false none
      [.dir "d" false none [.file "b" 2 0 false none]]
      (⟨false, false, fun _ => false⟩ : ScanOptions) 10 1 _ rfl (by decide)
      (by omega) ["d"] ⟨["d"], 2, 1, 0⟩ (by decide) (by decide)).1 rfl
  exact h.1.trans (by decide)
